import Mathlib

/-!
Verification of the span-collection, reconciliation and masking core of the
`anonimizador` repository (`src/anonimizador/main.py`, function
`mask_entities_and_contacts`).

The embedding works over `List Char` texts.  The spaCy pieces that the code
calls are modelled at their interface:

* the tokenization of the input text is a parameter `toks : List Tok`
  (character start/end of each token, as spaCy's `token.idx` /
  `token.idx + len(token)`);
* the extractor output `doc.ents` is a parameter `ents : List Span`
  (token-index spans with a string label, as spaCy entity spans);
* `doc.char_span(a, b, label)` (strict alignment) is `charSpan`;
* `spacy.util.filter_spans` is `filterSpans`, a direct translation of the
  published spaCy implementation (sort by `(length, -start)` descending and
  stable, greedy accept on unseen boundary tokens, final sort by start);
* Python `re.finditer(pattern, text, re.IGNORECASE)` for the four concrete
  patterns of the source is embedded operationally (`cpfMatch`, `cnpjMatch`,
  `telMatch`, `emailMatch`, scanned by `findIter`) with Python's
  leftmost, greedy backtracking semantics, and declaratively by the regex
  AST `RE` with its match relation `accepts`.  Character classes `\d`, `\w`,
  `\s` are modelled at their ASCII meaning.
-/

namespace Anon

abbrev Chars := List Char

/-- Python slice `text[a:b]` on a character list (for `0 ≤ a ≤ b ≤ len`). -/
def slice (t : Chars) (a b : Nat) : Chars := (t.drop a).take (b - a)

/-- The list of positions `[s, s+1, ..., s+n-1]`. -/
def posns (s n : Nat) : List Nat :=
  match n with
  | 0 => []
  | n + 1 => s :: posns (s + 1) n

/-- A character position lies inside at least one of the half-open spans. -/
def covered (spans : List (Nat × Nat)) (p : Nat) : Bool :=
  spans.any fun s => s.1 ≤ p && p < s.2

/-- The fixed 8-character mask token `'********'` of the source. -/
def maskTok : Chars := ['*', '*', '*', '*', '*', '*', '*', '*']

/-- Fuel-driven worker for `collapse` (fuel bounds the list length). -/
def collapseF : Nat → List (Option Char) → Chars
  | 0, _ => []
  | _ + 1, [] => []
  | f + 1, some c :: rest => c :: collapseF f rest
  | f + 1, none :: rest => maskTok ++ collapseF f (rest.dropWhile (· == none))

/-- Replace every maximal run of `none` by one mask token, keep `some` chars. -/
def collapse (l : List (Option Char)) : Chars := collapseF l.length l

/-- Character-level specification of masking: walking the text positions in
order, every maximal run of covered positions becomes one mask token and
every uncovered position contributes its own character. -/
def specMasked (t : Chars) (spans : List (Nat × Nat)) : Chars :=
  collapse ((posns 0 t.length).map fun p =>
    if covered spans p then none else some (t.getD p ' '))

/-! ### Data model: tokens, spans, entity records -/

/-- A token of the spaCy document: character start (`token.idx`) and
character end (`token.idx + len(token)`). -/
structure Tok where
  startChar : Nat
  endChar : Nat
deriving DecidableEq, Repr

/-- A spaCy span: token-index interval `[start, stop)` plus label
(`span.start`, `span.end`, `span.label_`). -/
structure Span where
  start : Nat
  stop : Nat
  label : String
deriving DecidableEq, Repr

/-- One `{'text': ..., 'label': ...}` record of the `entities_found` list. -/
structure EntityRecord where
  text : Chars
  label : String
deriving DecidableEq, Repr

/-- `span.start_char`: character start of a token span. -/
def startChar (toks : List Tok) (s : Span) : Nat :=
  (toks.getD s.start ⟨0, 0⟩).startChar

/-- `span.end_char`: character end of a token span. -/
def endChar (toks : List Tok) (s : Span) : Nat :=
  (toks.getD (s.stop - 1) ⟨0, 0⟩).endChar

/-- `span.text`: the substring of the original text covered by the span. -/
def spanText (t : Chars) (toks : List Tok) (s : Span) : Chars :=
  slice t (startChar toks s) (endChar toks s)

/-- `doc.char_span(a, b, label=lbl)` with strict alignment: the span exists
iff some token starts exactly at character `a` and some token ends exactly at
character `b` (and they are ordered); otherwise `none`. -/
def charSpan (toks : List Tok) (a b : Nat) (lbl : String) : Option Span :=
  match toks.findIdx? (fun tk => tk.startChar == a),
        toks.findIdx? (fun tk => tk.endChar == b) with
  | some i, some j => if i ≤ j then some ⟨i, j + 1, lbl⟩ else none
  | _, _ => none

/-- The linguistic labels kept by the source
(`["PER", "ORG", "LOC", "GPE"]`). -/
def lingLabels : List String := ["PER", "ORG", "LOC", "GPE"]

/-! ### The four regex rules of the source, embedded operationally

Python's `re` engine is leftmost and greedy with backtracking.  Each pattern
below is translated into a matcher `Chars → Nat → Option Nat` returning the
end offset of the match the Python engine produces at a given start position
(`none` when the engine cannot match there).  Greedy sub-matches whose
backtracking alternatives can never be completed (because the continuation
can never match the character the shorter alternative would stop on) are
written as maximal munch; the live alternatives (`9?`, the optional area-code
group, the optional literal heads, domain/TLD lengths in the email rule) are
written as ordered `Option.orElse` branches in Python's exploration order. -/

/-- Python `\d` (ASCII model). -/
def isDigitA (c : Char) : Bool := c.isDigit

/-- Python `\w` (ASCII model): letter, digit or underscore. -/
def isWordA (c : Char) : Bool := c.isAlpha || c.isDigit || c == '_'

/-- Python `\s` (ASCII model). -/
def isSpaceA (c : Char) : Bool := c.isWhitespace

/-- Whether the character at position `p` exists and is a word character. -/
def isWordAt (t : Chars) (p : Nat) : Bool :=
  match t.get? p with
  | some c => isWordA c
  | none => false

/-- Python `\b`: the word-character status changes at position `p`. -/
def atB (t : Chars) (p : Nat) : Bool :=
  isWordAt t p != (match p with | 0 => false | q + 1 => isWordAt t q)

/-- Case-insensitive character comparison (`re.IGNORECASE`). -/
def ciEq (a b : Char) : Bool := a.toLower == b.toLower

/-- Consume the literal `s` case-insensitively at `p`. -/
def litCI (s : Chars) (t : Chars) (p : Nat) : Option Nat :=
  match s with
  | [] => some p
  | c :: s' =>
    match t.get? p with
    | some d => if ciEq c d then litCI s' t (p + 1) else none
    | none => none

/-- Consume exactly `n` characters of class `f` at `p` (`f{n}`). -/
def clsRep (f : Char → Bool) (t : Chars) (p : Nat) : Nat → Option Nat
  | 0 => some p
  | n + 1 =>
    match t.get? p with
    | some c => if f c then clsRep f t (p + 1) n else none
    | none => none

/-- Length of the maximal run of class `f` characters at the head. -/
def runLen (f : Char → Bool) : Chars → Nat
  | [] => 0
  | c :: r => if f c then runLen f r + 1 else 0

/-- End position of the maximal munch of `f*` starting at `p`. -/
def starEnd (f : Char → Bool) (t : Chars) (p : Nat) : Nat :=
  p + runLen f (t.drop p)

/-- Consume one literal (case-sensitive) character at `p`. -/
def lit1 (c : Char) (t : Chars) (p : Nat) : Option Nat :=
  match t.get? p with
  | some d => if d == c then some (p + 1) else none
  | none => none

/-- The tail `\d{3}\.\d{3}\.\d{3}-\d{2}\b` of the CPF rule. -/
def cpfCore (t : Chars) (p : Nat) : Option Nat :=
  (clsRep isDigitA t p 3).bind fun q1 =>
  (lit1 '.' t q1).bind fun q2 =>
  (clsRep isDigitA t q2 3).bind fun q3 =>
  (lit1 '.' t q3).bind fun q4 =>
  (clsRep isDigitA t q4 3).bind fun q5 =>
  (lit1 '-' t q5).bind fun q6 =>
  (clsRep isDigitA t q6 2).bind fun e =>
  if atB t e then some e else none

/-- Matcher for `r'\b(?:CPF\s*)?\d{3}\.\d{3}\.\d{3}-\d{2}\b'` with
`re.IGNORECASE`.  The `\s*` munch is maximal: its continuation starts with
`\d`, which never matches the whitespace a shorter munch stops on. -/
def cpfMatch (t : Chars) (p : Nat) : Option Nat :=
  if atB t p then
    match litCI ['C', 'P', 'F'] t p with
    | some q => (cpfCore t (starEnd isSpaceA t q)).orElse fun _ => cpfCore t p
    | none => cpfCore t p
  else none

/-- The tail `\d{2}\.\d{3}\.\d{3}/\d{4}-\d{2}\b` of the CNPJ rule. -/
def cnpjCore (t : Chars) (p : Nat) : Option Nat :=
  (clsRep isDigitA t p 2).bind fun q1 =>
  (lit1 '.' t q1).bind fun q2 =>
  (clsRep isDigitA t q2 3).bind fun q3 =>
  (lit1 '.' t q3).bind fun q4 =>
  (clsRep isDigitA t q4 3).bind fun q5 =>
  (lit1 '/' t q5).bind fun q6 =>
  (clsRep isDigitA t q6 4).bind fun q7 =>
  (lit1 '-' t q7).bind fun q8 =>
  (clsRep isDigitA t q8 2).bind fun e =>
  if atB t e then some e else none

/-- Matcher for `r'\b(?:CNPJ\s*)?\d{2}\.\d{3}\.\d{3}/\d{4}-\d{2}\b'` with
`re.IGNORECASE` (same maximal-munch note as `cpfMatch`). -/
def cnpjMatch (t : Chars) (p : Nat) : Option Nat :=
  if atB t p then
    match litCI ['C', 'N', 'P', 'J'] t p with
    | some q => (cnpjCore t (starEnd isSpaceA t q)).orElse fun _ => cnpjCore t p
    | none => cnpjCore t p
  else none

/-- The tail `\d{4}-\d{4}\b` of the phone rule. -/
def telCore (t : Chars) (p : Nat) : Option Nat :=
  (clsRep isDigitA t p 4).bind fun q1 =>
  (lit1 '-' t q1).bind fun q2 =>
  (clsRep isDigitA t q2 4).bind fun e =>
  if atB t e then some e else none

/-- `9?\d{4}-\d{4}\b`: the optional `9` is a live backtracking point. -/
def telCore9 (t : Chars) (p : Nat) : Option Nat :=
  match t.get? p with
  | some c =>
    if c == '9' then (telCore t (p + 1)).orElse fun _ => telCore t p
    else telCore t p
  | none => telCore t p

/-- The optional area-code group `(\(?\d{2}\)?\s*)?` followed by
`9?\d{4}-\d{4}\b`.  Inside the group, `\(?`, `\)?` and `\s*` are maximal
munch: their shorter alternatives leave a `(`, `)` or whitespace character
for a continuation that only matches digits or `9`. -/
def telGroup (t : Chars) (p : Nat) : Option Nat :=
  let p1 := if t.get? p == some '(' then p + 1 else p
  (clsRep isDigitA t p1 2).bind fun p2 =>
  let p3 := if t.get? p2 == some ')' then p2 + 1 else p2
  telCore9 t (starEnd isSpaceA t p3)

/-- `(\(?\d{2}\)?\s*)?9?\d{4}-\d{4}\b`: group present, then group absent. -/
def telAfterHead (t : Chars) (p : Nat) : Option Nat :=
  (telGroup t p).orElse fun _ => telCore9 t p

/-- Matcher for `r'\b(?:telefone\s*)?(\(?\d{2}\)?\s*)?9?\d{4}-\d{4}\b'` with
`re.IGNORECASE` (same maximal-munch note as `cpfMatch` for `\s*`). -/
def telMatch (t : Chars) (p : Nat) : Option Nat :=
  if atB t p then
    match litCI ['t', 'e', 'l', 'e', 'f', 'o', 'n', 'e'] t p with
    | some q =>
      (telAfterHead t (starEnd isSpaceA t q)).orElse fun _ => telAfterHead t p
    | none => telAfterHead t p
  else none

/-- The character class `[\w\.-]` of the email rule. -/
def emailCls (c : Char) : Bool := isWordA c || c == '.' || c == '-'

/-- `\w{2,4}\b`: greedy, so length 4 first, then 3, then 2. -/
def w24 (t : Chars) (q : Nat) : Option Nat :=
  (w24k 4).orElse fun _ => (w24k 3).orElse fun _ => w24k 2
where
  w24k (k : Nat) : Option Nat :=
    (clsRep isWordA t q k).bind fun e => if atB t e then some e else none

/-- Try the domain part `[\w\.-]+\.\w{2,4}\b` starting at `ds`, with the
`[\w\.-]+` length taken greedily from `l` downward (Python shrinks the
greedy `+` one character at a time; each shorter length is inside the
maximal class run, and the following character must be the literal dot). -/
def emailTry (t : Chars) (ds : Nat) : Nat → Option Nat
  | 0 => none
  | l + 1 =>
    (if t.get? (ds + l + 1) == some '.' then w24 t (ds + l + 2) else none).orElse
      fun _ => emailTry t ds l

/-- Matcher for `r'\b[\w\.-]+@[\w\.-]+\.\w{2,4}\b'`.  The local part
`[\w\.-]+` is maximal munch: a shorter munch stops on a class character,
which can never equal the `@` the continuation requires. -/
def emailMatch (t : Chars) (p : Nat) : Option Nat :=
  if atB t p then
    if runLen emailCls (t.drop p) == 0 then none
    else if t.get? (starEnd emailCls t p) == some '@' then
      emailTry t (starEnd emailCls t p + 1)
        (runLen emailCls (t.drop (starEnd emailCls t p + 1)))
    else none
  else none

/-! ### Declarative regex semantics

`RE` is the abstract syntax of the fragment of regular expressions the four
source patterns use; `accepts re t p e` decides whether `re` matches the
slice `[p, e)` of `t` (with word boundaries evaluated at absolute
positions).  The pattern terms `cpfRE`, `cnpjRE`, `telRE`, `emailRE` below
mirror the regex literals of the source exactly. -/

/-- All positions in `[p, e)` exist and hold class-`f` characters. -/
def allCls (f : Char → Bool) (t : Chars) (p e : Nat) : Bool :=
  (posns p (e - p)).all fun q =>
    match t.get? q with
    | some c => f c
    | none => false

/-- Regular-expression syntax used by the source's four patterns. -/
inductive RE where
  | bnd : RE
  | cls (f : Char → Bool) : RE
  | litci (s : Chars) : RE
  | seq (a b : RE) : RE
  | opt (a : RE) : RE
  | rep (f : Char → Bool) (lo hi : Nat) : RE
  | star (f : Char → Bool) : RE
  | plus (f : Char → Bool) : RE

/-- The match relation: `accepts re t p e` holds when `re` matches exactly
the slice `[p, e)` of `t`. -/
def accepts : RE → Chars → Nat → Nat → Bool
  | .bnd, t, p, e => e == p && atB t p
  | .cls f, t, p, e =>
    e == p + 1 && (match t.get? p with | some c => f c | none => false)
  | .litci s, t, p, e => e == p + s.length && (litCI s t p == some e)
  | .seq a b, t, p, e =>
    (posns p (e + 1 - p)).any fun m => accepts a t p m && accepts b t m e
  | .opt a, t, p, e => e == p || accepts a t p e
  | .rep f lo hi, t, p, e => p + lo ≤ e && e ≤ p + hi && allCls f t p e
  | .star f, t, p, e => p ≤ e && allCls f t p e
  | .plus f, t, p, e => p < e && allCls f t p e

/-- Declarative tail `\d{3}\.\d{3}\.\d{3}-\d{2}\b` of the CPF rule. -/
def cpfCoreRE : RE :=
  .seq (.rep isDigitA 3 3) (.seq (.cls (· == '.'))
    (.seq (.rep isDigitA 3 3) (.seq (.cls (· == '.'))
      (.seq (.rep isDigitA 3 3) (.seq (.cls (· == '-'))
        (.seq (.rep isDigitA 2 2) .bnd))))))

/-- Declarative form of `r'\b(?:CPF\s*)?\d{3}\.\d{3}\.\d{3}-\d{2}\b'`. -/
def cpfRE : RE :=
  .seq .bnd (.seq (.opt (.seq (.litci ['C', 'P', 'F']) (.star isSpaceA))) cpfCoreRE)

/-- Declarative tail `\d{2}\.\d{3}\.\d{3}/\d{4}-\d{2}\b` of the CNPJ rule. -/
def cnpjCoreRE : RE :=
  .seq (.rep isDigitA 2 2) (.seq (.cls (· == '.'))
    (.seq (.rep isDigitA 3 3) (.seq (.cls (· == '.'))
      (.seq (.rep isDigitA 3 3) (.seq (.cls (· == '/'))
        (.seq (.rep isDigitA 4 4) (.seq (.cls (· == '-'))
          (.seq (.rep isDigitA 2 2) .bnd))))))))

/-- Declarative form of
`r'\b(?:CNPJ\s*)?\d{2}\.\d{3}\.\d{3}/\d{4}-\d{2}\b'`. -/
def cnpjRE : RE :=
  .seq .bnd (.seq (.opt (.seq (.litci ['C', 'N', 'P', 'J']) (.star isSpaceA))) cnpjCoreRE)

/-- Declarative tail `\d{4}-\d{4}\b` of the phone rule. -/
def telCoreRE : RE :=
  .seq (.rep isDigitA 4 4) (.seq (.cls (· == '-')) (.seq (.rep isDigitA 4 4) .bnd))

/-- Declarative `9?\d{4}-\d{4}\b`. -/
def telCore9RE : RE := .seq (.opt (.cls (· == '9'))) telCoreRE

/-- Declarative area-code group `(\(?\d{2}\)?\s*)`. -/
def telGroupRE : RE :=
  .seq (.opt (.cls (· == '('))) (.seq (.rep isDigitA 2 2)
    (.seq (.opt (.cls (· == ')'))) (.star isSpaceA)))

/-- Declarative form of
`r'\b(?:telefone\s*)?(\(?\d{2}\)?\s*)?9?\d{4}-\d{4}\b'`. -/
def telRE : RE :=
  .seq .bnd (.seq (.opt (.seq (.litci ['t', 'e', 'l', 'e', 'f', 'o', 'n', 'e'])
    (.star isSpaceA))) (.seq (.opt telGroupRE) telCore9RE))

/-- Declarative form of `r'\b[\w\.-]+@[\w\.-]+\.\w{2,4}\b'`. -/
def emailRE : RE :=
  .seq .bnd (.seq (.plus emailCls) (.seq (.cls (· == '@'))
    (.seq (.plus emailCls) (.seq (.cls (· == '.')) (.seq (.rep isWordA 2 4) .bnd)))))

/-- Largest end `e ∈ [p, p + k]` with `A p e`, scanning downward. -/
def bestEndAux (A : Nat → Nat → Bool) (p : Nat) : Nat → Option Nat
  | 0 => if A p p then some p else none
  | k + 1 => if A p (p + k + 1) then some (p + k + 1) else bestEndAux A p k

/-- The leftmost-longest reference matcher of a declarative pattern: at
position `p` it returns the longest end `e ≤ len` with `accepts re t p e`. -/
def canonMatcher (re : RE) (t : Chars) (p : Nat) : Option Nat :=
  bestEndAux (fun q e => accepts re t q e) p (t.length - p)

/-! ### `re.finditer`: leftmost scan, non-overlapping matches -/

/-- First position `q ≥ p` (fuel-bounded) where the matcher succeeds,
together with the match end — the engine's search step. -/
def findFromAux (m : Chars → Nat → Option Nat) (t : Chars) : Nat → Nat → Option (Nat × Nat)
  | _, 0 => none
  | p, fuel + 1 =>
    match m t p with
    | some e => some (p, e)
    | none => findFromAux m t (p + 1) fuel

/-- The scan loop of `re.finditer`: after yielding a match the scan resumes
at its end (one past it for an empty match). -/
def findIterAux (m : Chars → Nat → Option Nat) (t : Chars) : Nat → Nat → List (Nat × Nat)
  | _, 0 => []
  | p, fuel + 1 =>
    match findFromAux m t p (t.length + 1 - p) with
    | none => []
    | some (s, e) => (s, e) :: findIterAux m t (max e (s + 1)) fuel

/-- All matches of `re.finditer` over the whole text, in order. -/
def findIter (m : Chars → Nat → Option Nat) (t : Chars) : List (Nat × Nat) :=
  findIterAux m t 0 (t.length + 1)

/-! ### Mask merger: sort by start, merge touching/overlapping, rebuild -/

/-- One step of a stable insertion sort: `x` goes in front of the first
element it compares no-later-than (`le x y`); elements before keep their
relative order, so equal elements keep insertion order, as Python's
`sorted`. -/
def insertStable {α} (le : α → α → Bool) (x : α) : List α → List α
  | [] => [x]
  | y :: ys => if le x y then x :: y :: ys else y :: insertStable le x ys

/-- Stable sort with respect to `le` (the model of Python's `sorted`). -/
def sortStable {α} (le : α → α → Bool) (l : List α) : List α :=
  l.foldr (insertStable le) []

/-- Stable sort of the raw `(start, end)` spans by start position
(`sorted(spans, key=lambda x: x[0])`). -/
def sortSpans (l : List (Nat × Nat)) : List (Nat × Nat) :=
  sortStable (fun a b => a.1 ≤ b.1) l

/-- The merge loop of the source: keep a current open interval; a next span
with `start ≤ current.end` extends it to `max` of the ends, otherwise the
current interval is emitted and the next span opens a new one. -/
def mergeLoop (cur : Nat × Nat) : List (Nat × Nat) → List (Nat × Nat)
  | [] => [cur]
  | (s, e) :: rest =>
    if s ≤ cur.2 then mergeLoop (cur.1, max cur.2 e) rest
    else cur :: mergeLoop (s, e) rest

/-- `merged_spans` of the source, for an already sorted span list. -/
def mergedSpans : List (Nat × Nat) → List (Nat × Nat)
  | [] => []
  | sp :: rest => mergeLoop sp rest

/-- The rebuild loop of the source: for each merged interval append the
untouched slice before it and one mask token, then the remaining tail. -/
def buildMasked (t : Chars) : Nat → List (Nat × Nat) → Chars
  | lastIdx, [] => slice t lastIdx t.length
  | lastIdx, (s, e) :: rest => slice t lastIdx s ++ maskTok ++ buildMasked t e rest

/-- The whole masking stage of the source applied to the collected raw
`(start, end)` spans: sort by start, merge, rebuild. -/
def maskStage (t : Chars) (spans : List (Nat × Nat)) : Chars :=
  buildMasked t 0 (mergedSpans (sortSpans spans))

/-! ### `spacy.util.filter_spans`

Direct translation of the spaCy implementation the source imports:

    get_sort_key = lambda span: (span.end - span.start, -span.start)
    sorted_spans = sorted(spans, key=get_sort_key, reverse=True)
    result, seen_tokens = [], set()
    for span in sorted_spans:
        if span.start not in seen_tokens and span.end - 1 not in seen_tokens:
            result.append(span)
            seen_tokens.update(range(span.start, span.end))
    result = sorted(result, key=lambda span: span.start)

Sorting works on token indices; `sorted(..., reverse=True)` is stable, so
equal `(length, -start)` keys keep insertion order. -/

/-- Token length of a span (`span.end - span.start`). -/
def spanLen (s : Span) : Nat := s.stop - s.start

/-- Key order of `filter_spans`: `x` sorts no later than `y` in the
reverse-sorted list iff its key `(length, -start)` is at least `y`'s. -/
def keyGe (x y : Span) : Bool :=
  spanLen y < spanLen x || (spanLen x == spanLen y && x.start ≤ y.start)

/-- `sorted(spans, key=lambda s: (len, -start), reverse=True)` (stable). -/
def sortByKey (l : List Span) : List Span := sortStable keyGe l

/-- The greedy acceptance loop of `filter_spans` over `seen_tokens`. -/
def filterLoop (seen : List Nat) : List Span → List Span
  | [] => []
  | s :: rest =>
    if s.start ∉ seen ∧ (s.stop - 1) ∉ seen then
      s :: filterLoop (seen ++ posns s.start (s.stop - s.start)) rest
    else filterLoop seen rest

/-- `sorted(result, key=lambda span: span.start)` (stable). -/
def sortSpansByStart (l : List Span) : List Span :=
  sortStable (fun a b => a.start ≤ b.start) l

/-- `spacy.util.filter_spans`. -/
def filterSpans (spans : List Span) : List Span :=
  sortSpansByStart (filterLoop [] (sortByKey spans))

/-! ### The pipeline `mask_entities_and_contacts` -/

/-- Result of `mask_entities_and_contacts`: the anonymized text, the
`entities_found` list, and the accepted entity set stored back into the
document (`doc.ents = filtered_ents`). -/
structure MaskResult where
  masked : Chars
  report : List EntityRecord
  accepted : List Span
deriving DecidableEq, Repr

/-- The first loop of the source: for each extractor entity whose label is
linguistic, record its character span (for masking) and its
`{text, label}` record (for the report), in entity order. -/
def extractorPass (t : Chars) (toks : List Tok) : List Span → List (Nat × Nat) × List EntityRecord
  | [] => ([], [])
  | e :: rest =>
    let x := extractorPass t toks rest
    if e.label ∈ lingLabels then
      ((startChar toks e, endChar toks e) :: x.1, ⟨spanText t toks e, e.label⟩ :: x.2)
    else x

/-- The inner loop over the matches of one rule: each match is mapped
through `doc.char_span`; on success the span, its character offsets and its
record are appended, on `None` the match is silently skipped. -/
def matchPass (t : Chars) (toks : List Tok) (lbl : String) :
    List (Nat × Nat) → List Span × List (Nat × Nat) × List EntityRecord
  | [] => ([], [], [])
  | (a, b) :: rest =>
    let x := matchPass t toks lbl rest
    match charSpan toks a b lbl with
    | some sp =>
      (sp :: x.1, (startChar toks sp, endChar toks sp) :: x.2.1,
        ⟨spanText t toks sp, sp.label⟩ :: x.2.2)
    | none => x

/-- The pattern table of the source, in declaration order. -/
def rules : List (String × (Chars → Nat → Option Nat)) :=
  [("CPF", cpfMatch), ("CNPJ", cnpjMatch), ("TELEFONE", telMatch), ("EMAIL", emailMatch)]

/-- The outer loop over the pattern table: per rule, scan the whole original
text and process every match. -/
def patternPass (t : Chars) (toks : List Tok) :
    List (String × (Chars → Nat → Option Nat)) → List Span × List (Nat × Nat) × List EntityRecord
  | [] => ([], [], [])
  | (lbl, m) :: rest =>
    let x := matchPass t toks lbl (findIter m t)
    let y := patternPass t toks rest
    (x.1 ++ y.1, x.2.1 ++ y.2.1, x.2.2 ++ y.2.2)

/-- The raw masking span list collected by the source: extractor spans
first, then the kept pattern-match spans. -/
def collectedSpans (t : Chars) (ents : List Span) (toks : List Tok) : List (Nat × Nat) :=
  (extractorPass t toks ents).1 ++ (patternPass t toks rules).2.1

/-- The candidate entity list `new_ents` of the source: the extractor
entities (all of them, unfiltered) followed by the kept pattern spans. -/
def newEnts (t : Chars) (ents : List Span) (toks : List Tok) : List Span :=
  ents ++ (patternPass t toks rules).1

/-- `mask_entities_and_contacts(text)`, with the spaCy document given by its
tokenization `toks` and its extractor entities `ents`. -/
def mask_entities_and_contacts (t : Chars) (ents : List Span) (toks : List Tok) : MaskResult :=
  ⟨maskStage t (collectedSpans t ents toks),
    (extractorPass t toks ents).2 ++ (patternPass t toks rules).2.2,
    filterSpans (newEnts t ents toks)⟩

/-! ## Proof infrastructure -/

theorem dropWhile_length_le {α} (p : α → Bool) : ∀ l : List α, (l.dropWhile p).length ≤ l.length := by
  intro l
  induction l with
  | nil => simp
  | cons a r ih =>
    by_cases h : p a
    · simp only [List.dropWhile_cons, h, if_true, List.length_cons]; omega
    · simp [List.dropWhile_cons, h]

theorem posns_length (n : Nat) : ∀ s, (posns s n).length = n := by
  induction n with
  | zero => intro s; rfl
  | succ n ih => intro s; simp [posns, ih]

theorem mem_posns {n : Nat} : ∀ {p s : Nat}, p ∈ posns s n ↔ s ≤ p ∧ p < s + n := by
  induction n with
  | zero => intro p s; simp [posns]
  | succ n ih =>
    intro p s
    simp only [posns, List.mem_cons, ih]
    omega

theorem posns_append (m : Nat) : ∀ s n, posns s (m + n) = posns s m ++ posns (s + m) n := by
  induction m with
  | zero => intro s n; simp [posns]
  | succ m ih =>
    intro s n
    have h1 : m + 1 + n = (m + n) + 1 := by omega
    rw [h1]
    simp only [posns, ih (s + 1) n, List.cons_append]
    have h2 : s + 1 + m = s + (m + 1) := by omega
    rw [h2]

theorem posns_map_getD (t : Chars) : ∀ (n s : Nat), s + n ≤ t.length →
    (posns s n).map (fun p => t.getD p ' ') = slice t s (s + n) := by
  intro n
  induction n with
  | zero => intro s _; simp [posns, slice]
  | succ n ih =>
    intro s hs
    have hlt : s < t.length := by omega
    simp only [posns, List.map_cons]
    rw [ih (s + 1) (by omega)]
    simp only [slice]
    rw [List.drop_eq_getElem_cons hlt]
    have h1 : s + (n + 1) - s = n + 1 := by omega
    have h2 : s + 1 + n - (s + 1) = n := by omega
    rw [h1, h2, List.take_succ_cons]
    congr 1
    simp [List.getD_eq_getElem?_getD, List.getElem?_eq_getElem hlt]

theorem slice_zero_length (t : Chars) : slice t 0 t.length = t := by
  simp [slice]

/-! ### `collapse` -/

theorem collapseF_fuel : ∀ (f₁ f₂ : Nat) (l : List (Option Char)),
    l.length ≤ f₁ → l.length ≤ f₂ → collapseF f₁ l = collapseF f₂ l := by
  intro f₁
  induction f₁ with
  | zero =>
    intro f₂ l h₁ _
    have : l = [] := List.length_eq_zero.mp (by omega)
    subst this
    cases f₂ <;> rfl
  | succ f₁ ih =>
    intro f₂ l h₁ h₂
    match l, f₂ with
    | [], f₂ => cases f₂ <;> rfl
    | some c :: r, f₂ + 1 =>
      simp only [collapseF]
      rw [ih f₂ r (by simpa using h₁) (by simpa using h₂)]
    | none :: r, f₂ + 1 =>
      simp only [collapseF]
      have hd := dropWhile_length_le (· == none) r
      rw [ih f₂ (r.dropWhile (· == none)) (by simp at h₁ ⊢; omega) (by simp at h₂ ⊢; omega)]

theorem collapse_nil : collapse [] = [] := rfl

theorem collapse_cons_some (c : Char) (r : List (Option Char)) :
    collapse (some c :: r) = c :: collapse r := rfl

theorem collapse_cons_none (r : List (Option Char)) :
    collapse (none :: r) = maskTok ++ collapse (r.dropWhile (· == none)) := by
  simp only [collapse, List.length_cons, collapseF]
  congr 1
  exact collapseF_fuel r.length (r.dropWhile (· == none)).length _
    (dropWhile_length_le _ r) le_rfl

theorem collapse_map_some_append (l : Chars) (r : List (Option Char)) :
    collapse (l.map some ++ r) = l ++ collapse r := by
  induction l with
  | nil => rfl
  | cons c l ih => simp only [List.map_cons, List.cons_append, collapse_cons_some, ih]

theorem collapse_map_some (l : Chars) : collapse (l.map some) = l := by
  have h := collapse_map_some_append l []
  simpa [collapse_nil] using h

theorem dropWhile_replicate_none (k : Nat) (r : List (Option Char)) :
    (List.replicate k (none : Option Char) ++ r).dropWhile (· == none) =
      r.dropWhile (· == none) := by
  induction k with
  | zero => rfl
  | succ k ih => simp [List.replicate_succ, List.dropWhile_cons, ih]

theorem collapse_replicate_none (k : Nat) (r : List (Option Char)) (hk : 0 < k)
    (hr : r.dropWhile (· == none) = r) :
    collapse (List.replicate k none ++ r) = maskTok ++ collapse r := by
  match k, hk with
  | k + 1, _ =>
    rw [List.replicate_succ, List.cons_append, collapse_cons_none,
      dropWhile_replicate_none, hr]

theorem map_eq_replicate_of {α β} (f : α → β) (b : β) :
    ∀ l : List α, (∀ a ∈ l, f a = b) → l.map f = List.replicate l.length b := by
  intro l
  induction l with
  | nil => intro _; rfl
  | cons a r ih =>
    intro h
    simp only [List.map_cons, List.length_cons, List.replicate_succ]
    rw [h a (by simp), ih (fun x hx => h x (by simp [hx]))]

/-! ### `covered` -/

theorem covered_cons_iff (x : Nat × Nat) (l : List (Nat × Nat)) (p : Nat) :
    covered (x :: l) p = true ↔ (x.1 ≤ p ∧ p < x.2) ∨ covered l p = true := by
  simp [covered, List.any_cons]

theorem covered_iff (l : List (Nat × Nat)) (p : Nat) :
    covered l p = true ↔ ∃ x ∈ l, x.1 ≤ p ∧ p < x.2 := by
  simp [covered, List.any_eq_true]

theorem covered_perm {l l' : List (Nat × Nat)} (h : l.Perm l') (p : Nat) :
    covered l p = covered l' p := by
  rw [Bool.eq_iff_iff, covered_iff, covered_iff]
  constructor <;> rintro ⟨x, hx, h1, h2⟩
  · exact ⟨x, h.mem_iff.mp hx, h1, h2⟩
  · exact ⟨x, h.mem_iff.mpr hx, h1, h2⟩

/-! ### The stable insertion sort -/

theorem insertStable_perm {α} (le : α → α → Bool) (x : α) (l : List α) :
    (insertStable le x l).Perm (x :: l) := by
  induction l with
  | nil => exact List.Perm.refl _
  | cons y ys ih =>
    simp only [insertStable]
    by_cases h : le x y
    · simp [h]
    · simp only [h, if_false]
      exact (ih.cons y).trans (List.Perm.swap x y ys)

theorem sortStable_perm {α} (le : α → α → Bool) (l : List α) :
    (sortStable le l).Perm l := by
  induction l with
  | nil => exact List.Perm.refl _
  | cons x rest ih =>
    simp only [sortStable, List.foldr_cons]
    exact (insertStable_perm le x _).trans (ih.cons x)

theorem insertStable_pairwise {α} (le : α → α → Bool) (R : α → α → Prop)
    (hle : ∀ a b, le a b = true → R a b) (hgt : ∀ a b, le a b = false → R b a)
    (htr : ∀ a b c, R a b → R b c → R a c)
    (x : α) (l : List α) (h : l.Pairwise R) :
    (insertStable le x l).Pairwise R := by
  induction l with
  | nil => simp [insertStable]
  | cons y ys ih =>
    rcases List.pairwise_cons.mp h with ⟨hy, hys⟩
    simp only [insertStable]
    by_cases hc : le x y
    · simp only [hc, if_true]
      refine List.pairwise_cons.mpr ⟨?_, h⟩
      intro b hb
      rcases List.mem_cons.mp hb with rfl | hb
      · exact hle x b hc
      · exact htr x y b (hle x y hc) (hy b hb)
    · simp only [hc, if_false]
      refine List.pairwise_cons.mpr ⟨?_, ih hys⟩
      intro b hb
      rcases List.mem_cons.mp ((insertStable_perm le x ys).mem_iff.mp hb) with rfl | hb
      · exact hgt b y (Bool.eq_false_iff.mpr hc)
      · exact hy b hb

theorem sortStable_pairwise {α} (le : α → α → Bool) (R : α → α → Prop)
    (hle : ∀ a b, le a b = true → R a b) (hgt : ∀ a b, le a b = false → R b a)
    (htr : ∀ a b c, R a b → R b c → R a c) (l : List α) :
    (sortStable le l).Pairwise R := by
  induction l with
  | nil => simp [sortStable]
  | cons x rest ih =>
    simp only [sortStable, List.foldr_cons]
    exact insertStable_pairwise le R hle hgt htr x _ ih

theorem sortSpans_perm (l : List (Nat × Nat)) : (sortSpans l).Perm l :=
  sortStable_perm _ l

theorem sortSpans_pairwise (l : List (Nat × Nat)) :
    (sortSpans l).Pairwise (fun a b => a.1 ≤ b.1) := by
  refine sortStable_pairwise _ _ ?_ ?_ ?_ l
  · intro a b h; exact of_decide_eq_true h
  · intro a b h; have := of_decide_eq_false h; omega
  · intro a b c h1 h2; omega

/-! ### The merge loop -/

theorem mergeLoop_starts : ∀ (l : List (Nat × Nat)) (cur : Nat × Nat),
    l.Pairwise (fun a b => a.1 ≤ b.1) → (∀ x ∈ l, cur.1 ≤ x.1) →
    ∀ y ∈ mergeLoop cur l, cur.1 ≤ y.1 := by
  intro l
  induction l with
  | nil =>
    intro cur _ _ y hy
    simp only [mergeLoop, List.mem_singleton] at hy
    subst hy; exact le_rfl
  | cons se rest ih =>
    intro cur hp hcl y hy
    obtain ⟨s, e⟩ := se
    rcases List.pairwise_cons.mp hp with ⟨hse, hrest⟩
    simp only [mergeLoop] at hy
    by_cases hb : s ≤ cur.2
    · simp only [hb, if_true] at hy
      exact ih (cur.1, max cur.2 e) hrest
        (fun x hx => hcl x (by simp [hx])) y hy
    · simp only [hb, if_false] at hy
      rcases List.mem_cons.mp hy with rfl | hy
      · exact le_rfl
      · have hs : cur.1 ≤ s := hcl (s, e) (by simp)
        exact le_trans hs (ih (s, e) hrest (fun x hx => hse x hx) y hy)

theorem mergeLoop_sep : ∀ (l : List (Nat × Nat)) (cur : Nat × Nat),
    l.Pairwise (fun a b => a.1 ≤ b.1) → (∀ x ∈ l, cur.1 ≤ x.1) →
    (mergeLoop cur l).Pairwise (fun a b => a.2 < b.1) := by
  intro l
  induction l with
  | nil => intro cur _ _; simp [mergeLoop]
  | cons se rest ih =>
    intro cur hp hcl
    obtain ⟨s, e⟩ := se
    rcases List.pairwise_cons.mp hp with ⟨hse, hrest⟩
    simp only [mergeLoop]
    by_cases hb : s ≤ cur.2
    · simp only [hb, if_true]
      exact ih (cur.1, max cur.2 e) hrest (fun x hx => hcl x (by simp [hx]))
    · simp only [hb, if_false]
      refine List.pairwise_cons.mpr ⟨?_, ih (s, e) hrest hse⟩
      intro y hy
      have hs := mergeLoop_starts rest (s, e) hrest hse y hy
      omega

theorem mergeLoop_wf (L : Nat) : ∀ (l : List (Nat × Nat)) (cur : Nat × Nat),
    (∀ x ∈ l, x.1 < x.2 ∧ x.2 ≤ L) → cur.1 < cur.2 → cur.2 ≤ L →
    ∀ y ∈ mergeLoop cur l, y.1 < y.2 ∧ y.2 ≤ L := by
  intro l
  induction l with
  | nil =>
    intro cur _ h1 h2 y hy
    simp only [mergeLoop, List.mem_singleton] at hy
    subst hy; exact ⟨h1, h2⟩
  | cons se rest ih =>
    intro cur hl h1 h2 y hy
    obtain ⟨s, e⟩ := se
    have hse := hl (s, e) (by simp)
    simp only [mergeLoop] at hy
    by_cases hb : s ≤ cur.2
    · simp only [hb, if_true] at hy
      exact ih (cur.1, max cur.2 e) (fun x hx => hl x (by simp [hx]))
        (by simp; omega) (by simp; omega) y hy
    · simp only [hb, if_false] at hy
      rcases List.mem_cons.mp hy with rfl | hy
      · exact ⟨h1, h2⟩
      · exact ih (s, e) (fun x hx => hl x (by simp [hx])) hse.1 hse.2 y hy

theorem mergeLoop_cov : ∀ (l : List (Nat × Nat)) (cur : Nat × Nat),
    l.Pairwise (fun a b => a.1 ≤ b.1) → (∀ x ∈ l, cur.1 ≤ x.1) →
    ∀ p, covered (mergeLoop cur l) p = true ↔
      (cur.1 ≤ p ∧ p < cur.2) ∨ covered l p = true := by
  intro l
  induction l with
  | nil =>
    intro cur _ _ p
    simp only [mergeLoop, covered_cons_iff]
  | cons se rest ih =>
    intro cur hp hcl p
    obtain ⟨s, e⟩ := se
    rcases List.pairwise_cons.mp hp with ⟨hse, hrest⟩
    have hs : cur.1 ≤ s := hcl (s, e) (by simp)
    simp only [mergeLoop]
    by_cases hb : s ≤ cur.2
    · simp only [hb, if_true]
      rw [ih (cur.1, max cur.2 e) hrest (fun x hx => hcl x (by simp [hx])) p,
        covered_cons_iff]
      dsimp only
      by_cases hC : covered rest p = true
      · simp [hC]
      · simp only [hC, Bool.false_eq_true, or_false]
        rcases Nat.le_total cur.2 e with hm | hm
        · rw [Nat.max_eq_right hm]; omega
        · rw [Nat.max_eq_left hm]; omega
    · simp only [hb, if_false]
      rw [covered_cons_iff, ih (s, e) hrest hse p, covered_cons_iff]

/-- The merged span list of a sorted well-formed span list: intervals are
strictly separated, well-formed, and cover the same positions. -/
theorem mergedSpans_props (L : Nat) (l : List (Nat × Nat))
    (hp : l.Pairwise (fun a b => a.1 ≤ b.1))
    (hw : ∀ x ∈ l, x.1 < x.2 ∧ x.2 ≤ L) :
    (mergedSpans l).Pairwise (fun a b => a.2 < b.1) ∧
    (∀ y ∈ mergedSpans l, y.1 < y.2 ∧ y.2 ≤ L) ∧
    (∀ p, covered (mergedSpans l) p = covered l p) := by
  match l with
  | [] => exact ⟨by simp [mergedSpans], by simp [mergedSpans], fun p => rfl⟩
  | sp :: rest =>
    rcases List.pairwise_cons.mp hp with ⟨hsp, hrest⟩
    have hw1 := hw sp (by simp)
    refine ⟨mergeLoop_sep rest sp hrest hsp, ?_, ?_⟩
    · exact mergeLoop_wf L rest sp (fun x hx => hw x (by simp [hx])) hw1.1 hw1.2
    · intro p
      rw [Bool.eq_iff_iff]
      show covered (mergeLoop sp rest) p = true ↔ _
      rw [mergeLoop_cov rest sp hrest hsp p, covered_cons_iff]

/-! ### The rebuild loop versus the character-level masking spec -/

theorem buildMasked_eq_collapse (t : Chars) : ∀ (M : List (Nat × Nat)) (i : Nat),
    i ≤ t.length →
    (∀ y ∈ M, i ≤ y.1 ∧ y.1 < y.2 ∧ y.2 ≤ t.length) →
    M.Pairwise (fun a b => a.2 < b.1) →
    buildMasked t i M = collapse ((posns i (t.length - i)).map fun p =>
      if covered M p then none else some (t.getD p ' ')) := by
  intro M
  induction M with
  | nil =>
    intro i hi _ _
    simp only [buildMasked]
    have h1 : ((posns i (t.length - i)).map fun p =>
        if covered [] p then none else some (t.getD p ' ')) =
        ((posns i (t.length - i)).map fun p => t.getD p ' ').map some := by
      rw [List.map_map]
      apply List.map_congr_left
      intro p _
      simp [covered]
    rw [h1, collapse_map_some, posns_map_getD t _ i (by omega)]
    have h2 : i + (t.length - i) = t.length := by omega
    rw [h2]
  | cons se rest ih =>
    intro i hi hw hp
    obtain ⟨s, e⟩ := se
    have hse := hw (s, e) (by simp)
    have his : i ≤ s := hse.1
    have hlt : s < e := hse.2.1
    have hel : e ≤ t.length := hse.2.2
    rcases List.pairwise_cons.mp hp with ⟨hsep, hrest⟩
    have hsplit : t.length - i = (s - i) + ((e - s) + (t.length - e)) := by omega
    rw [hsplit, posns_append, posns_append]
    have e1 : i + (s - i) = s := by omega
    have e2 : s + (e - s) = e := by omega
    rw [e1, e2, List.map_append, List.map_append]
    -- the positions before `s` are uncovered
    have hgetD : (posns i (s - i)).map (fun p => t.getD p ' ') = slice t i s := by
      have h := posns_map_getD t (s - i) i (by omega)
      rwa [e1] at h
    have hA : ((posns i (s - i)).map fun p =>
        if covered ((s, e) :: rest) p then none else some (t.getD p ' ')) =
        (slice t i s).map some := by
      rw [← hgetD, List.map_map]
      apply List.map_congr_left
      intro p hp'
      have hps : p < s := by
        have := mem_posns.mp hp'
        omega
      have hcov : covered ((s, e) :: rest) p = false := by
        rw [Bool.eq_false_iff]
        intro hc
        rcases (covered_cons_iff _ _ _).mp hc with h | h
        · omega
        · rcases (covered_iff _ _).mp h with ⟨x, hx, hx1, hx2⟩
          have := hsep x hx
          omega
      simp [hcov]
    -- the positions in `[s, e)` are covered
    have hB : ((posns s (e - s)).map fun p =>
        if covered ((s, e) :: rest) p then none else some (t.getD p ' ')) =
        List.replicate (e - s) (none : Option Char) := by
      have h := map_eq_replicate_of
        (fun p => if covered ((s, e) :: rest) p then none else some (t.getD p ' '))
        (none : Option Char) (posns s (e - s)) ?_
      · rwa [posns_length] at h
      · intro p hp'
        have hps := mem_posns.mp hp'
        have hcov : covered ((s, e) :: rest) p = true :=
          (covered_cons_iff _ _ _).mpr (Or.inl (by omega))
        simp [hcov]
    -- the positions from `e` on are covered by `rest` alone
    have hC : ((posns e (t.length - e)).map fun p =>
        if covered ((s, e) :: rest) p then none else some (t.getD p ' ')) =
        ((posns e (t.length - e)).map fun p =>
          if covered rest p then none else some (t.getD p ' ')) := by
      apply List.map_congr_left
      intro p hp'
      have hps := mem_posns.mp hp'
      have hcov : covered ((s, e) :: rest) p = covered rest p := by
        rw [Bool.eq_iff_iff, covered_cons_iff]
        constructor
        · rintro (h | h)
          · omega
          · exact h
        · exact Or.inr
      rw [hcov]
    rw [hA, hB, hC]
    have hCrest : ∀ x ∈ rest, e < x.1 ∧ x.1 < x.2 ∧ x.2 ≤ t.length := by
      intro x hx
      have h1 := hsep x hx
      have h2 := hw x (by simp [hx])
      exact ⟨h1, h2.2.1, h2.2.2⟩
    have hCe : covered rest e = false := by
      rw [Bool.eq_false_iff]
      intro hc
      rcases (covered_iff _ _).mp hc with ⟨x, hx, hx1, hx2⟩
      have := (hCrest x hx).1
      omega
    have hdrop : (((posns e (t.length - e)).map fun p =>
        if covered rest p then none else some (t.getD p ' ')).dropWhile (· == none)) =
        ((posns e (t.length - e)).map fun p =>
          if covered rest p then none else some (t.getD p ' ')) := by
      rcases hn : t.length - e with _ | n
      · simp [posns]
      · simp only [posns, List.map_cons, hCe, if_false]
        rw [List.dropWhile_cons]
        simp
    rw [collapse_map_some_append, collapse_replicate_none (e - s) _ (by omega) hdrop]
    simp only [buildMasked]
    rw [ih e hel (fun y hy => (hCrest y hy).imp_left le_of_lt) hrest]
    simp [List.append_assoc]

/-- The masking stage of the pipeline computes exactly the character-level
masking spec of the collected raw spans. -/
theorem maskStage_eq_specMasked (t : Chars) (spans : List (Nat × Nat))
    (hw : ∀ x ∈ spans, x.1 < x.2 ∧ x.2 ≤ t.length) :
    maskStage t spans = specMasked t spans := by
  have hperm := sortSpans_perm spans
  have hsorted := sortSpans_pairwise spans
  have hw' : ∀ x ∈ sortSpans spans, x.1 < x.2 ∧ x.2 ≤ t.length :=
    fun x hx => hw x (hperm.mem_iff.mp hx)
  obtain ⟨hsep, hwM, hcov⟩ := mergedSpans_props t.length (sortSpans spans) hsorted hw'
  unfold maskStage specMasked
  rw [buildMasked_eq_collapse t (mergedSpans (sortSpans spans)) 0 (by omega)
    (fun y hy => ⟨Nat.zero_le _, hwM y hy⟩) hsep]
  congr 1
  have h0 : t.length - 0 = t.length := by omega
  rw [h0]
  apply List.map_congr_left
  intro p _
  rw [hcov p, covered_perm hperm p]

/-! ### Parallel lengths of span and record lists -/

theorem extractorPass_lengths (t : Chars) (toks : List Tok) :
    ∀ ents : List Span,
      ((extractorPass t toks ents).1).length = ((extractorPass t toks ents).2).length := by
  intro ents
  induction ents with
  | nil => rfl
  | cons e rest ih =>
    simp only [extractorPass]
    by_cases h : e.label ∈ lingLabels
    · simp [h, ih]
    · simp [h, ih]

theorem matchPass_lengths (t : Chars) (toks : List Tok) (lbl : String) :
    ∀ ms : List (Nat × Nat),
      ((matchPass t toks lbl ms).2.1).length = ((matchPass t toks lbl ms).2.2).length := by
  intro ms
  induction ms with
  | nil => rfl
  | cons ab rest ih =>
    obtain ⟨a, b⟩ := ab
    simp only [matchPass]
    cases charSpan toks a b lbl with
    | some sp => simp [ih]
    | none => simp [ih]

theorem patternPass_lengths (t : Chars) (toks : List Tok) :
    ∀ rs : List (String × (Chars → Nat → Option Nat)),
      ((patternPass t toks rs).2.1).length = ((patternPass t toks rs).2.2).length := by
  intro rs
  induction rs with
  | nil => rfl
  | cons r rest ih =>
    obtain ⟨lbl, m⟩ := r
    simp only [patternPass]
    simp [matchPass_lengths, ih]

theorem report_length_eq_spans_length (t : Chars) (ents : List Span) (toks : List Tok) :
    ((mask_entities_and_contacts t ents toks).report).length =
      (collectedSpans t ents toks).length := by
  simp only [mask_entities_and_contacts, collectedSpans, List.length_append]
  rw [extractorPass_lengths, patternPass_lengths]

/-! ### Structure of the collection passes -/

theorem matchPass_eq_filterMap (t : Chars) (toks : List Tok) (lbl : String) :
    ∀ ms : List (Nat × Nat),
      matchPass t toks lbl ms =
        (ms.filterMap (fun ab => charSpan toks ab.1 ab.2 lbl),
          ms.filterMap (fun ab => (charSpan toks ab.1 ab.2 lbl).map
            fun sp => (startChar toks sp, endChar toks sp)),
          ms.filterMap (fun ab => (charSpan toks ab.1 ab.2 lbl).map
            fun sp => (⟨spanText t toks sp, sp.label⟩ : EntityRecord))) := by
  intro ms
  induction ms with
  | nil => rfl
  | cons ab rest ih =>
    obtain ⟨a, b⟩ := ab
    cases h : charSpan toks a b lbl with
    | some sp => simp [matchPass, ih, h, List.filterMap_cons]
    | none => simp [matchPass, ih, h, List.filterMap_cons]

theorem extractorPass_eq_filter (t : Chars) (toks : List Tok) :
    ∀ ents : List Span,
      extractorPass t toks ents =
        ((ents.filter (fun e => decide (e.label ∈ lingLabels))).map
          (fun e => (startChar toks e, endChar toks e)),
         (ents.filter (fun e => decide (e.label ∈ lingLabels))).map
          (fun e => (⟨spanText t toks e, e.label⟩ : EntityRecord))) := by
  intro ents
  induction ents with
  | nil => rfl
  | cons e rest ih =>
    by_cases h : e.label ∈ lingLabels
    · simp [extractorPass, ih, h, List.filter_cons]
    · simp [extractorPass, ih, h, List.filter_cons]

theorem patternPass_eq_join (t : Chars) (toks : List Tok) :
    ∀ rs : List (String × (Chars → Nat → Option Nat)),
      patternPass t toks rs =
        ((rs.map fun r => (findIter r.2 t).filterMap
          (fun ab => charSpan toks ab.1 ab.2 r.1)).flatten,
         (rs.map fun r => (findIter r.2 t).filterMap
          (fun ab => (charSpan toks ab.1 ab.2 r.1).map
            fun sp => (startChar toks sp, endChar toks sp))).flatten,
         (rs.map fun r => (findIter r.2 t).filterMap
          (fun ab => (charSpan toks ab.1 ab.2 r.1).map
            fun sp => (⟨spanText t toks sp, sp.label⟩ : EntityRecord))).flatten) := by
  intro rs
  induction rs with
  | nil => rfl
  | cons r rest ih =>
    obtain ⟨lbl, m⟩ := r
    simp [patternPass, ih, matchPass_eq_filterMap, List.flatten]

/-! ### Order of `re.finditer` matches -/

theorem findFromAux_facts (m : Chars → Nat → Option Nat) (t : Chars) :
    ∀ (fuel p s e : Nat), findFromAux m t p fuel = some (s, e) →
      p ≤ s ∧ m t s = some e := by
  intro fuel
  induction fuel with
  | zero => intro p s e h; exact absurd h (by simp [findFromAux])
  | succ fuel ih =>
    intro p s e h
    simp only [findFromAux] at h
    cases hm : m t p with
    | some e' =>
      rw [hm] at h
      obtain ⟨rfl, rfl⟩ : p = s ∧ e' = e := by
        constructor <;> (cases h; rfl)
      exact ⟨le_rfl, hm⟩
    | none =>
      rw [hm] at h
      have := ih (p + 1) s e h
      exact ⟨by omega, this.2⟩

theorem findIterAux_mem_ge (m : Chars → Nat → Option Nat) (t : Chars) :
    ∀ (fuel p : Nat), ∀ x ∈ findIterAux m t p fuel, p ≤ x.1 := by
  intro fuel
  induction fuel with
  | zero => intro p x hx; exact absurd hx (by simp [findIterAux])
  | succ fuel ih =>
    intro p x hx
    simp only [findIterAux] at hx
    cases hf : findFromAux m t p (t.length + 1 - p) with
    | none => rw [hf] at hx; exact absurd hx (by simp)
    | some se =>
      obtain ⟨s, e⟩ := se
      rw [hf] at hx
      have hps := (findFromAux_facts m t _ p s e hf).1
      rcases List.mem_cons.mp hx with rfl | hx
      · exact hps
      · have := ih (max e (s + 1)) x hx
        omega

theorem findIterAux_pairwise (m : Chars → Nat → Option Nat) (t : Chars) :
    ∀ (fuel p : Nat), (findIterAux m t p fuel).Pairwise (fun x y => x.1 < y.1) := by
  intro fuel
  induction fuel with
  | zero => intro p; simp [findIterAux]
  | succ fuel ih =>
    intro p
    simp only [findIterAux]
    cases hf : findFromAux m t p (t.length + 1 - p) with
    | none => simp
    | some se =>
      obtain ⟨s, e⟩ := se
      refine List.pairwise_cons.mpr ⟨?_, ih (max e (s + 1))⟩
      intro y hy
      have := findIterAux_mem_ge m t fuel (max e (s + 1)) y hy
      simp only
      omega

theorem findIter_pairwise (m : Chars → Nat → Option Nat) (t : Chars) :
    (findIter m t).Pairwise (fun x y => x.1 < y.1) :=
  findIterAux_pairwise m t _ 0

/-! ### `charSpan` facts -/

theorem charSpan_some {toks : List Tok} {a b : Nat} {lbl : String} {sp : Span}
    (h : charSpan toks a b lbl = some sp) :
    sp.label = lbl ∧ startChar toks sp = a ∧ endChar toks sp = b ∧
      sp.start < sp.stop := by
  unfold charSpan at h
  cases h1 : toks.findIdx? (fun tk => tk.startChar == a) with
  | none => rw [h1] at h; exact absurd h (by simp)
  | some i =>
    cases h2 : toks.findIdx? (fun tk => tk.endChar == b) with
    | none => rw [h1, h2] at h; exact absurd h (by simp)
    | some j =>
      rw [h1, h2] at h
      dsimp only at h
      by_cases hij : i ≤ j
      · rw [if_pos hij] at h
        obtain rfl : Span.mk i (j + 1) lbl = sp := by cases h; rfl
        obtain ⟨hi, hpi, -⟩ := List.findIdx?_eq_some_iff_getElem.mp h1
        obtain ⟨hj, hpj, -⟩ := List.findIdx?_eq_some_iff_getElem.mp h2
        refine ⟨rfl, ?_, ?_, by show i < j + 1; omega⟩
        · show (toks.getD i ⟨0, 0⟩).startChar = a
          rw [List.getD_eq_getElem?_getD, List.getElem?_eq_getElem hi]
          simpa using hpi
        · show (toks.getD (j + 1 - 1) ⟨0, 0⟩).endChar = b
          have : j + 1 - 1 = j := by omega
          rw [this, List.getD_eq_getElem?_getD, List.getElem?_eq_getElem hj]
          simpa using hpj
      · rw [if_neg hij] at h
        exact absurd h (by simp)

/-! ### `filter_spans` only selects among its input -/

theorem filterLoop_subset : ∀ (l : List Span) (seen : List Nat),
    ∀ x ∈ filterLoop seen l, x ∈ l := by
  intro l
  induction l with
  | nil => intro seen x hx; exact absurd hx (by simp [filterLoop])
  | cons s rest ih =>
    intro seen x hx
    simp only [filterLoop] at hx
    split at hx
    · rcases List.mem_cons.mp hx with rfl | hx
      · exact List.mem_cons_self _ _
      · exact List.mem_cons_of_mem _ (ih _ x hx)
    · exact List.mem_cons_of_mem _ (ih _ x hx)

theorem filterSpans_subset (spans : List Span) :
    ∀ x ∈ filterSpans spans, x ∈ spans := by
  intro x hx
  unfold filterSpans sortSpansByStart at hx
  have h1 := (sortStable_perm _ _).mem_iff.mp hx
  have h2 := filterLoop_subset _ _ x h1
  unfold sortByKey at h2
  exact (sortStable_perm _ _).mem_iff.mp h2

/-! ### Concrete test document -/

/-- A concrete 18-character text with a CPF number in the middle. -/
def cexText : Chars := "x 111.111.111-11 y".data

/-- A tokenization of `cexText`: `x`, `111.111`, `.111-11`, `y`. -/
def cexToks : List Tok := [⟨0, 1⟩, ⟨2, 9⟩, ⟨9, 16⟩, ⟨17, 18⟩]

/-- The eight label strings of the external contract. -/
def contractLabels : List String :=
  ["PER", "ORG", "LOC", "GPE", "CPF", "CNPJ", "TELEFONE", "EMAIL"]

/-! ## Claim theorems -/

/-- C2: for every input text and every collected raw span set (all spans
satisfying `start < end ≤ len(text)`), the rebuilt output masks exactly the
positions covered by at least one raw span and preserves all other
positions unchanged and in order (this is what `specMasked` states
position by position), regardless of which overlapping span wins the
reconciled report; and the pipeline's masked text is exactly this masking
stage applied to the collected raw spans. -/
theorem c2_mask_coverage (t : Chars) (ents : List Span) (toks : List Tok)
    (spans : List (Nat × Nat))
    (hw : ∀ x ∈ spans, x.1 < x.2 ∧ x.2 ≤ t.length) :
    maskStage t spans = specMasked t spans ∧
    (mask_entities_and_contacts t ents toks).masked =
      maskStage t (collectedSpans t ents toks) :=
  ⟨maskStage_eq_specMasked t spans hw, rfl⟩

/-- Witness for C2 at a concrete text and span set. -/
theorem c2_mask_coverage_witness :
    maskStage "abcd".data [(1, 3)] = specMasked "abcd".data [(1, 3)] ∧
    (mask_entities_and_contacts "abcd".data [] []).masked =
      maskStage "abcd".data (collectedSpans "abcd".data [] []) :=
  c2_mask_coverage "abcd".data [] [] [(1, 3)] (by decide)

/-- C3: on a span list sorted ascending by start (all spans well-formed),
the merge pass produces strictly separated intervals (touching or
overlapping intervals coalesce, so no interval starts at or before the
previous end), covering exactly the union of the input spans; the rebuild
replaces each merged interval by exactly one mask token (the character-wise
`specMasked` form); and two adjacent raw spans merge into a single interval,
hence a single mask token, never two consecutive ones. -/
theorem c3_merge_pass (t : Chars) (spans : List (Nat × Nat))
    (hs : spans.Pairwise (fun a b => a.1 ≤ b.1))
    (hw : ∀ x ∈ spans, x.1 < x.2 ∧ x.2 ≤ t.length) :
    (mergedSpans spans).Pairwise (fun a b => a.2 < b.1) ∧
    (∀ p, covered (mergedSpans spans) p = covered spans p) ∧
    buildMasked t 0 (mergedSpans spans) = specMasked t spans ∧
    (∀ a b c : Nat, spans = [(a, b), (b, c)] → mergedSpans spans = [(a, c)]) := by
  obtain ⟨hsep, hwM, hcov⟩ := mergedSpans_props t.length spans hs hw
  refine ⟨hsep, hcov, ?_, ?_⟩
  · unfold specMasked
    rw [buildMasked_eq_collapse t _ 0 (by omega)
      (fun y hy => ⟨Nat.zero_le _, hwM y hy⟩) hsep]
    congr 1
    rw [Nat.sub_zero]
    apply List.map_congr_left
    intro p _
    rw [hcov p]
  · intro a b c habc
    subst habc
    have h2 := hw (b, c) (by simp)
    have hmax : max b c = c := Nat.max_eq_right (le_of_lt h2.1)
    simp [mergedSpans, mergeLoop, hmax]

/-- Witness for C3 at a concrete text and two adjacent spans. -/
theorem c3_merge_pass_witness :
    (mergedSpans [(0, 2), (2, 4)]).Pairwise (fun a b => a.2 < b.1) ∧
    (∀ p, covered (mergedSpans [(0, 2), (2, 4)]) p = covered [(0, 2), (2, 4)] p) ∧
    buildMasked "abcdef".data 0 (mergedSpans [(0, 2), (2, 4)]) =
      specMasked "abcdef".data [(0, 2), (2, 4)] ∧
    (∀ a b c : Nat, [(0, 2), (2, 4)] = [(a, b), (b, c)] →
      mergedSpans [(0, 2), (2, 4)] = [(a, c)]) :=
  c3_merge_pass "abcdef".data [(0, 2), (2, 4)] (by decide) (by decide)

/-- C4: when the collected span set is empty the masked text is the input
unchanged and the report is empty (a normal outcome, no failure value);
and on empty input text with no extractor entities the whole result is
empty. -/
theorem c4_empty_cases (t : Chars) (ents : List Span) (toks : List Tok)
    (h : collectedSpans t ents toks = []) :
    (mask_entities_and_contacts t ents toks).masked = t ∧
    (mask_entities_and_contacts t ents toks).report = [] ∧
    mask_entities_and_contacts [] [] [] = ⟨[], [], []⟩ := by
  refine ⟨?_, ?_, by decide⟩
  · show maskStage t (collectedSpans t ents toks) = t
    rw [h]
    show buildMasked t 0 (mergedSpans (sortSpans [])) = t
    show slice t 0 t.length = t
    exact slice_zero_length t
  · have hlen := report_length_eq_spans_length t ents toks
    rw [h] at hlen
    exact List.length_eq_zero.mp hlen

/-- Witness for C4 at a concrete entity-free text. -/
theorem c4_empty_cases_witness :
    (mask_entities_and_contacts "Hello world".data [] []).masked = "Hello world".data ∧
    (mask_entities_and_contacts "Hello world".data [] []).report = [] ∧
    mask_entities_and_contacts [] [] [] = ⟨[], [], []⟩ :=
  c4_empty_cases "Hello world".data [] [] (by decide)

/-- C5: the per-rule match processing is exactly a `filterMap` through
`doc.char_span`: a match whose offsets do not map to a token-aligned span
contributes nothing to the kept span list, the masking span list or the
report (and no failure value arises), while a match that maps contributes
exactly one entry to each. -/
theorem c5_unmappable_match_policy (t : Chars) (toks : List Tok) (lbl : String)
    (ms : List (Nat × Nat)) :
    matchPass t toks lbl ms =
      (ms.filterMap (fun ab => charSpan toks ab.1 ab.2 lbl),
        ms.filterMap (fun ab => (charSpan toks ab.1 ab.2 lbl).map
          fun sp => (startChar toks sp, endChar toks sp)),
        ms.filterMap (fun ab => (charSpan toks ab.1 ab.2 lbl).map
          fun sp => (⟨spanText t toks sp, sp.label⟩ : EntityRecord))) ∧
    (∀ a b, charSpan toks a b lbl = none →
      matchPass t toks lbl ((a, b) :: ms) = matchPass t toks lbl ms) ∧
    (∀ a b sp, charSpan toks a b lbl = some sp →
      matchPass t toks lbl ((a, b) :: ms) =
        (sp :: (matchPass t toks lbl ms).1,
          (startChar toks sp, endChar toks sp) :: (matchPass t toks lbl ms).2.1,
          ⟨spanText t toks sp, sp.label⟩ :: (matchPass t toks lbl ms).2.2)) := by
  refine ⟨matchPass_eq_filterMap t toks lbl ms, ?_, ?_⟩
  · intro a b h
    simp [matchPass, h]
  · intro a b sp h
    simp [matchPass, h]

/-- Witness for C5: on the concrete document, the match `(2, 16)` maps to a
span and is kept; the off-boundary match `(3, 16)` maps to no span and is
dropped. -/
theorem c5_unmappable_match_policy_witness :
    (matchPass cexText cexToks "CPF" [] =
      (([] : List (Nat × Nat)).filterMap (fun ab => charSpan cexToks ab.1 ab.2 "CPF"),
        ([] : List (Nat × Nat)).filterMap (fun ab => (charSpan cexToks ab.1 ab.2 "CPF").map
          fun sp => (startChar cexToks sp, endChar cexToks sp)),
        ([] : List (Nat × Nat)).filterMap (fun ab => (charSpan cexToks ab.1 ab.2 "CPF").map
          fun sp => (⟨spanText cexText cexToks sp, sp.label⟩ : EntityRecord))) ∧
      True ∧ True) ∧
    matchPass cexText cexToks "CPF" [(3, 16)] = matchPass cexText cexToks "CPF" [] ∧
    matchPass cexText cexToks "CPF" [(2, 16)] =
      ((⟨1, 3, "CPF"⟩ : Span) :: (matchPass cexText cexToks "CPF" []).1,
        (startChar cexToks ⟨1, 3, "CPF"⟩, endChar cexToks ⟨1, 3, "CPF"⟩) ::
          (matchPass cexText cexToks "CPF" []).2.1,
        ⟨spanText cexText cexToks ⟨1, 3, "CPF"⟩, "CPF"⟩ ::
          (matchPass cexText cexToks "CPF" []).2.2) := by
  obtain ⟨h1, h2, h3⟩ := c5_unmappable_match_policy cexText cexToks "CPF" []
  exact ⟨⟨h1, trivial, trivial⟩, h2 3 16 (by decide), h3 2 16 ⟨1, 3, "CPF"⟩ (by decide)⟩

/-- C7: the report is the label-filtered extractor records followed by the
pattern records grouped per rule in the fixed declaration order CPF, CNPJ,
TELEFONE, EMAIL; the extractor records keep the extractor's (document)
order — the label filter preserves the order of `doc.ents` — and within a
rule the matches come in strictly left-to-right order. -/
theorem c7_report_order (t : Chars) (ents : List Span) (toks : List Tok)
    (hdoc : ents.Pairwise (fun x y => startChar toks x ≤ startChar toks y)) :
    (mask_entities_and_contacts t ents toks).report =
      (ents.filter fun e => decide (e.label ∈ lingLabels)).map
        (fun e => (⟨spanText t toks e, e.label⟩ : EntityRecord)) ++
      (rules.map fun r => (findIter r.2 t).filterMap
        (fun ab => (charSpan toks ab.1 ab.2 r.1).map
          fun sp => (⟨spanText t toks sp, sp.label⟩ : EntityRecord))).flatten ∧
    rules = [("CPF", cpfMatch), ("CNPJ", cnpjMatch),
      ("TELEFONE", telMatch), ("EMAIL", emailMatch)] ∧
    (∀ m : Chars → Nat → Option Nat,
      (findIter m t).Pairwise (fun x y => x.1 < y.1)) ∧
    (ents.filter fun e => decide (e.label ∈ lingLabels)).Pairwise
      (fun x y => startChar toks x ≤ startChar toks y) := by
  refine ⟨?_, rfl, fun m => findIter_pairwise m t, hdoc.filter _⟩
  show (extractorPass t toks ents).2 ++ (patternPass t toks rules).2.2 = _
  rw [extractorPass_eq_filter, patternPass_eq_join]

/-- Witness for C7 on the concrete document with one PER entity. -/
theorem c7_report_order_witness :
    (mask_entities_and_contacts cexText [⟨0, 1, "PER"⟩] cexToks).report =
      ([⟨0, 1, "PER"⟩].filter fun e => decide (e.label ∈ lingLabels)).map
        (fun e => (⟨spanText cexText cexToks e, e.label⟩ : EntityRecord)) ++
      (rules.map fun r => (findIter r.2 cexText).filterMap
        (fun ab => (charSpan cexToks ab.1 ab.2 r.1).map
          fun sp => (⟨spanText cexText cexToks sp, sp.label⟩ : EntityRecord))).flatten ∧
    rules = [("CPF", cpfMatch), ("CNPJ", cnpjMatch),
      ("TELEFONE", telMatch), ("EMAIL", emailMatch)] ∧
    (∀ m : Chars → Nat → Option Nat,
      (findIter m cexText).Pairwise (fun x y => x.1 < y.1)) ∧
    ([⟨0, 1, "PER"⟩].filter fun e => decide (e.label ∈ lingLabels)).Pairwise
      (fun x y => startChar cexToks x ≤ startChar cexToks y) :=
  c7_report_order cexText [⟨0, 1, "PER"⟩] cexToks (by decide)

/-- C9: under the extractor contract (only the four linguistic labels),
every label in the report and every label in the accepted (reconciled)
entity set is one of the eight contract strings PER, ORG, LOC, GPE, CPF,
CNPJ, TELEFONE, EMAIL. -/
theorem c9_label_contract (t : Chars) (ents : List Span) (toks : List Tok)
    (hc : ∀ e ∈ ents, e.label ∈ lingLabels) :
    (∀ r ∈ (mask_entities_and_contacts t ents toks).report,
      r.label ∈ contractLabels) ∧
    (∀ sp ∈ (mask_entities_and_contacts t ents toks).accepted,
      sp.label ∈ contractLabels) := by
  have hling : ∀ s ∈ lingLabels, s ∈ contractLabels := by decide
  have hrule : ∀ r ∈ rules, r.1 ∈ contractLabels := by
    intro r hr
    simp only [rules, List.mem_cons, List.not_mem_nil, or_false] at hr
    rcases hr with rfl | rfl | rfl | rfl <;> decide
  constructor
  · intro r hr
    have hsplit : r ∈ (extractorPass t toks ents).2 ++ (patternPass t toks rules).2.2 := hr
    rcases List.mem_append.mp hsplit with h | h
    · rw [extractorPass_eq_filter] at h
      rcases List.mem_map.mp h with ⟨e, he, rfl⟩
      have hm := List.of_mem_filter he
      exact hling e.label (of_decide_eq_true hm)
    · rw [patternPass_eq_join] at h
      rcases List.mem_flatten.mp h with ⟨sub, hsub, hr2⟩
      rcases List.mem_map.mp hsub with ⟨rule, hrm, rfl⟩
      rcases List.mem_filterMap.mp hr2 with ⟨ab, _, hmap⟩
      rcases Option.map_eq_some'.mp hmap with ⟨sp, hcs, rfl⟩
      have hl := (charSpan_some hcs).1
      show sp.label ∈ contractLabels
      rw [hl]
      exact hrule rule hrm
  · intro sp hsp
    have h := filterSpans_subset _ sp hsp
    rcases List.mem_append.mp h with h | h
    · exact hling sp.label (hc sp h)
    · rw [patternPass_eq_join] at h
      rcases List.mem_flatten.mp h with ⟨sub, hsub, hsp2⟩
      rcases List.mem_map.mp hsub with ⟨rule, hrm, rfl⟩
      rcases List.mem_filterMap.mp hsp2 with ⟨ab, _, hcs⟩
      have hl := (charSpan_some hcs).1
      rw [hl]
      exact hrule rule hrm

/-- Witness for C9 on the concrete document with one PER entity. -/
theorem c9_label_contract_witness :
    (∀ r ∈ (mask_entities_and_contacts cexText [⟨0, 1, "PER"⟩] cexToks).report,
      r.label ∈ contractLabels) ∧
    (∀ sp ∈ (mask_entities_and_contacts cexText [⟨0, 1, "PER"⟩] cexToks).accepted,
      sp.label ∈ contractLabels) :=
  c9_label_contract cexText [⟨0, 1, "PER"⟩] cexToks (by decide)

/-- C10: an extractor entity with a non-linguistic label contributes nothing
to the masking spans or to the report (masked text and report only depend
on the label-filtered entity list), yet every extractor entity is in the
candidate list `new_ents` used for overlap filtering; on the concrete
document an entity labelled MISC ends up in the returned accepted set while
its text `y` stays unmasked and absent from the report. -/
theorem c10_nonlinguistic_entities (t : Chars) (ents : List Span) (toks : List Tok) :
    ((mask_entities_and_contacts t ents toks).masked =
      (mask_entities_and_contacts t
        (ents.filter fun e => decide (e.label ∈ lingLabels)) toks).masked ∧
     (mask_entities_and_contacts t ents toks).report =
      (mask_entities_and_contacts t
        (ents.filter fun e => decide (e.label ∈ lingLabels)) toks).report) ∧
    (∀ e ∈ ents, e ∈ newEnts t ents toks) ∧
    ((⟨3, 4, "MISC"⟩ : Span) ∈
      (mask_entities_and_contacts cexText [⟨3, 4, "MISC"⟩] cexToks).accepted ∧
     (mask_entities_and_contacts cexText [⟨3, 4, "MISC"⟩] cexToks).masked =
       "x ******** y".data ∧
     (mask_entities_and_contacts cexText [⟨3, 4, "MISC"⟩] cexToks).report =
       [⟨"111.111.111-11".data, "CPF"⟩]) := by
  have hfilter : ∀ ents' : List Span,
      extractorPass t toks (ents'.filter fun e => decide (e.label ∈ lingLabels)) =
        extractorPass t toks ents' := by
    intro ents'
    rw [extractorPass_eq_filter, extractorPass_eq_filter]
    simp [List.filter_filter]
  refine ⟨⟨?_, ?_⟩, ?_, by decide⟩
  · show maskStage t (collectedSpans t ents toks) = maskStage t (collectedSpans t _ toks)
    unfold collectedSpans
    rw [hfilter ents]
  · show (extractorPass t toks ents).2 ++ _ = (extractorPass t toks _).2 ++ _
    rw [hfilter ents]
  · intro e he
    exact List.mem_append.mpr (Or.inl he)

/-- Witness for C10: the MISC entity is a candidate and is accepted. -/
theorem c10_nonlinguistic_entities_witness :
    (⟨3, 4, "MISC"⟩ : Span) ∈ newEnts cexText [⟨3, 4, "MISC"⟩] cexToks ∧
    (⟨3, 4, "MISC"⟩ : Span) ∈
      (mask_entities_and_contacts cexText [⟨3, 4, "MISC"⟩] cexToks).accepted := by
  have h := c10_nonlinguistic_entities cexText [⟨3, 4, "MISC"⟩] cexToks
  exact ⟨h.2.1 ⟨3, 4, "MISC"⟩ (by decide), h.2.2.1⟩

/-- C1 as stated is false on the code: on the concrete document whose only
extractor entity is the CPF text itself labelled PER, the report contains
two records (the PER entity and the CPF pattern match) while the accepted
post-reconciliation set has a single span — so the report is not one pair
per accepted entity — and the two report entries cover the same character
span, so report spans do overlap. -/
theorem c1_counterexample :
    ¬ (∀ (t : Chars) (ents : List Span) (toks : List Tok),
        (mask_entities_and_contacts t ents toks).report =
          ((mask_entities_and_contacts t ents toks).accepted).map
            (fun sp => (⟨spanText t toks sp, sp.label⟩ : EntityRecord)) ∧
        (collectedSpans t ents toks).Pairwise
          (fun a b => a.2 ≤ b.1 ∨ b.2 ≤ a.1)) := by
  intro h
  have hc := h cexText [⟨1, 3, "PER"⟩] cexToks
  revert hc
  decide

/-- C1 amended: the report contains exactly one `{text, label}` record per
*collected candidate* — the label-filtered extractor entities first, then
the kept pattern matches — hence as many records as collected raw spans;
the record spans are pre-reconciliation and may overlap. -/
theorem c1_report_per_collected_candidate (t : Chars) (ents : List Span)
    (toks : List Tok) :
    (mask_entities_and_contacts t ents toks).report =
      (ents.filter fun e => decide (e.label ∈ lingLabels)).map
        (fun e => (⟨spanText t toks e, e.label⟩ : EntityRecord)) ++
      (rules.map fun r => (findIter r.2 t).filterMap
        (fun ab => (charSpan toks ab.1 ab.2 r.1).map
          fun sp => (⟨spanText t toks sp, sp.label⟩ : EntityRecord))).flatten ∧
    ((mask_entities_and_contacts t ents toks).report).length =
      (collectedSpans t ents toks).length := by
  refine ⟨?_, report_length_eq_spans_length t ents toks⟩
  show (extractorPass t toks ents).2 ++ (patternPass t toks rules).2.2 = _
  rw [extractorPass_eq_filter, patternPass_eq_join]

/-! ### The claim's reconciliation algorithm (C6) -/

/-- Modelled from the claim's wording (C6): stable sort by span length
descending only, ties broken by original insertion order. -/
def claimLenSort (l : List Span) : List Span :=
  sortStable (fun a b => spanLen b ≤ spanLen a) l

/-- Interval overlap of two token spans. -/
def overlapsTok (a b : Span) : Bool := a.start < b.stop && b.start < a.stop

/-- Greedy acceptance: accept a candidate exactly when it overlaps no
already-accepted span, otherwise discard it. -/
def greedyAccept (acc : List Span) : List Span → List Span
  | [] => []
  | s :: rest =>
    if acc.any (fun a => overlapsTok a s) then greedyAccept acc rest
    else s :: greedyAccept (s :: acc) rest

/-- Modelled from the claim's wording (C6): the reconciliation as the claim
describes it (length-descending sort, insertion-order ties, greedy
no-overlap acceptance). -/
def claimReconcile (l : List Span) : List Span := greedyAccept [] (claimLenSort l)

/-- C6 as stated is false on the code: on the concrete document the
extractor entity (tokens `[2, 4)`) and the kept CPF pattern span (tokens
`[1, 3)`) have equal length, and spaCy's `filter_spans` breaks the tie by
ascending start — accepting the later-inserted CPF span — not by original
insertion order, which would accept the extractor entity. -/
theorem c6_counterexample :
    ¬ (∀ (t : Chars) (ents : List Span) (toks : List Tok),
        ((mask_entities_and_contacts t ents toks).accepted).Perm
          (claimReconcile (newEnts t ents toks))) := by
  intro h
  have hc := h cexText [⟨2, 4, "PER"⟩] cexToks
  revert hc
  decide

/-- With candidates processed in length-descending order, spaCy's
boundary-token test (`span.start not in seen and span.end - 1 not in seen`)
is equivalent to the full no-overlap test against the accepted set: a
candidate that overlaps an accepted span without containing one of its own
endpoint tokens inside it would have to strictly contain that span, hence
be longer — impossible in length-descending order. -/
theorem filterLoop_eq_greedyAccept :
    ∀ (l acc : List Span) (seen : List Nat),
      (∀ p : Nat, p ∈ seen ↔ ∃ a ∈ acc, a.start ≤ p ∧ p < a.stop) →
      (∀ s ∈ l, ∀ a ∈ acc, spanLen s ≤ spanLen a) →
      (∀ s ∈ l, s.start < s.stop) → (∀ a ∈ acc, a.start < a.stop) →
      l.Pairwise (fun x y => spanLen y ≤ spanLen x) →
      filterLoop seen l = greedyAccept acc l := by
  intro l
  induction l with
  | nil => intro acc seen _ _ _ _ _; rfl
  | cons s rest ih =>
    intro acc seen hseen hlen hwl hwa hp
    rcases List.pairwise_cons.mp hp with ⟨hhead, hrest⟩
    have hws : s.start < s.stop := hwl s (by simp)
    have hcond : (s.start ∉ seen ∧ (s.stop - 1) ∉ seen) ↔
        ¬ (acc.any (fun a => overlapsTok a s) = true) := by
      constructor
      · rintro ⟨h1, h2⟩ hov
        rcases List.any_eq_true.mp hov with ⟨a, ha, hova⟩
        have hain := hwa a ha
        simp only [overlapsTok, Bool.and_eq_true, decide_eq_true_eq] at hova
        have hs1 : ¬ (a.start ≤ s.start ∧ s.start < a.stop) := fun hcc =>
          h1 ((hseen s.start).mpr ⟨a, ha, hcc⟩)
        have hs2 : ¬ (a.start ≤ s.stop - 1 ∧ s.stop - 1 < a.stop) := fun hcc =>
          h2 ((hseen (s.stop - 1)).mpr ⟨a, ha, hcc⟩)
        have hlen_sa := hlen s (by simp) a ha
        unfold spanLen at hlen_sa
        omega
      · intro hov
        constructor
        · intro hc
          rcases (hseen s.start).mp hc with ⟨a, ha, h1, h2⟩
          exact hov (List.any_eq_true.mpr ⟨a, ha, by
            simp only [overlapsTok, Bool.and_eq_true, decide_eq_true_eq]
            omega⟩)
        · intro hc
          rcases (hseen (s.stop - 1)).mp hc with ⟨a, ha, h1, h2⟩
          exact hov (List.any_eq_true.mpr ⟨a, ha, by
            simp only [overlapsTok, Bool.and_eq_true, decide_eq_true_eq]
            omega⟩)
    simp only [filterLoop, greedyAccept]
    by_cases hacc : acc.any (fun a => overlapsTok a s) = true
    · rw [if_pos hacc, if_neg (fun hcc => (hcond.mp hcc) hacc)]
      exact ih acc seen hseen (fun x hx => hlen x (by simp [hx]))
        (fun x hx => hwl x (by simp [hx])) hwa hrest
    · rw [if_neg hacc, if_pos (hcond.mpr hacc)]
      congr 1
      apply ih (s :: acc) (seen ++ posns s.start (s.stop - s.start))
      · intro p
        rw [List.mem_append, hseen p, mem_posns]
        constructor
        · rintro (⟨a, ha, hcc⟩ | hcc)
          · exact ⟨a, by simp [ha], hcc⟩
          · exact ⟨s, by simp, by omega⟩
        · rintro ⟨a, ha, hcc⟩
          rcases List.mem_cons.mp ha with rfl | ha
          · right; omega
          · left; exact ⟨a, ha, hcc⟩
      · intro x hx a ha
        rcases List.mem_cons.mp ha with rfl | ha
        · exact hhead x hx
        · exact hlen x (by simp [hx]) a ha
      · intro x hx; exact hwl x (by simp [hx])
      · intro a ha
        rcases List.mem_cons.mp ha with rfl | ha
        · exact hws
        · exact hwa a ha
      · exact hrest

/-- C6 amended: the reconciliation is spaCy's `filter_spans`: candidates
sorted by span length descending with ties broken by *ascending start
offset* (insertion order only breaks full key ties), greedy acceptance of
candidates that overlap no already-accepted candidate, and a final sort of
the accepted set by start; the pipeline's accepted set is exactly this
filter applied to the combined candidate list. -/
theorem c6_amended_reconciliation (t : Chars) (ents : List Span) (toks : List Tok)
    (spans : List Span) (hwf : ∀ s ∈ spans, s.start < s.stop) :
    filterSpans spans = sortSpansByStart (greedyAccept [] (sortByKey spans)) ∧
    (sortByKey spans).Pairwise (fun a b =>
      spanLen b < spanLen a ∨ (spanLen a = spanLen b ∧ a.start ≤ b.start)) ∧
    (mask_entities_and_contacts t ents toks).accepted =
      filterSpans (newEnts t ents toks) := by
  have hperm : (sortByKey spans).Perm spans := sortStable_perm keyGe spans
  have hpw : (sortByKey spans).Pairwise (fun a b =>
      spanLen b < spanLen a ∨ (spanLen a = spanLen b ∧ a.start ≤ b.start)) := by
    refine sortStable_pairwise keyGe _ ?_ ?_ ?_ spans
    · intro a b h
      simp only [keyGe, Bool.or_eq_true, Bool.and_eq_true, decide_eq_true_eq,
        beq_iff_eq] at h
      omega
    · intro a b h
      have h' : ¬ (keyGe a b = true) := by simp [h]
      simp only [keyGe, Bool.or_eq_true, Bool.and_eq_true, decide_eq_true_eq,
        beq_iff_eq] at h'
      push_neg at h'
      omega
    · intro a b c h1 h2
      rcases h1 with h1 | h1 <;> rcases h2 with h2 | h2 <;> omega
  refine ⟨?_, hpw, rfl⟩
  unfold filterSpans
  congr 1
  apply filterLoop_eq_greedyAccept (sortByKey spans) [] []
  · intro p; simp
  · intro x _ a ha; exact absurd ha (by simp)
  · intro x hx; exact hwf x (hperm.mem_iff.mp hx)
  · intro a ha; exact absurd ha (by simp)
  · exact hpw.imp (fun h => by omega)

/-- Witness for the amended C6 on the concrete document (the tie between
the equal-length PER and CPF spans goes to the smaller start). -/
theorem c6_amended_reconciliation_witness :
    filterSpans [⟨2, 4, "PER"⟩, ⟨1, 3, "CPF"⟩] =
      sortSpansByStart (greedyAccept [] (sortByKey [⟨2, 4, "PER"⟩, ⟨1, 3, "CPF"⟩])) ∧
    (sortByKey [⟨2, 4, "PER"⟩, ⟨1, 3, "CPF"⟩]).Pairwise (fun a b =>
      spanLen b < spanLen a ∨ (spanLen a = spanLen b ∧ a.start ≤ b.start)) ∧
    (mask_entities_and_contacts cexText [⟨2, 4, "PER"⟩] cexToks).accepted =
      filterSpans (newEnts cexText [⟨2, 4, "PER"⟩] cexToks) :=
  c6_amended_reconciliation cexText [⟨2, 4, "PER"⟩] cexToks
    [⟨2, 4, "PER"⟩, ⟨1, 3, "CPF"⟩] (by decide)

/-! ## C8 infrastructure: the declarative and operational regex semantics -/

theorem allCls_iff (f : Char → Bool) (t : Chars) (p e : Nat) :
    allCls f t p e = true ↔
      ∀ q, p ≤ q → q < e → ∃ c, t.get? q = some c ∧ f c = true := by
  unfold allCls
  rw [List.all_eq_true]
  constructor
  · intro h q h1 h2
    have hq := h q (mem_posns.mpr ⟨h1, by omega⟩)
    cases hc : t.get? q with
    | none => rw [hc] at hq; exact absurd hq (by simp)
    | some c => rw [hc] at hq; exact ⟨c, rfl, hq⟩
  · intro h q hq
    have hmem := mem_posns.mp hq
    obtain ⟨c, hc, hfc⟩ := h q hmem.1 (by omega)
    rw [hc]
    exact hfc

theorem get?_lt_length {t : Chars} {q : Nat} {c : Char} (h : t.get? q = some c) :
    q < t.length := by
  by_contra hq
  rw [List.get?_eq_none.mpr (by omega)] at h
  cases h

theorem allCls_le_length {f : Char → Bool} {t : Chars} {p e : Nat}
    (h : allCls f t p e = true) (hpe : p < e) : e ≤ t.length := by
  obtain ⟨c, hc, -⟩ := (allCls_iff f t p e).mp h (e - 1) (by omega) (by omega)
  have := get?_lt_length hc
  omega

theorem allCls_sub {f : Char → Bool} {t : Chars} {p e a b : Nat}
    (h : allCls f t p e = true) (h1 : p ≤ a) (h2 : b ≤ e) :
    allCls f t a b = true := by
  rw [allCls_iff] at h ⊢
  intro q hq1 hq2
  exact h q (by omega) (by omega)

theorem allCls_at {f : Char → Bool} {t : Chars} {p e q : Nat}
    (h : allCls f t p e = true) (h1 : p ≤ q) (h2 : q < e) :
    ∃ c, t.get? q = some c ∧ f c = true :=
  (allCls_iff f t p e).mp h q h1 h2

theorem allCls_empty (f : Char → Bool) (t : Chars) (p e : Nat) (h : e ≤ p) :
    allCls f t p e = true := by
  rw [allCls_iff]
  intro q h1 h2
  omega

theorem allCls_merge {f : Char → Bool} {t : Chars} {p m e : Nat}
    (h1 : allCls f t p m = true) (h2 : allCls f t m e = true) :
    allCls f t p e = true := by
  rw [allCls_iff] at h1 h2 ⊢
  intro q hq1 hq2
  by_cases hm : q < m
  · exact h1 q hq1 hm
  · exact h2 q (by omega) hq2

/-! ### `accepts` constructors -/

theorem accepts_ge : ∀ (re : RE) (t : Chars) (p e : Nat),
    accepts re t p e = true → p ≤ e := by
  intro re
  induction re with
  | bnd =>
    intro t p e h
    simp only [accepts, Bool.and_eq_true, beq_iff_eq] at h
    omega
  | cls f =>
    intro t p e h
    simp only [accepts, Bool.and_eq_true, beq_iff_eq] at h
    omega
  | litci s =>
    intro t p e h
    simp only [accepts, Bool.and_eq_true, beq_iff_eq] at h
    omega
  | seq a b iha ihb =>
    intro t p e h
    simp only [accepts, List.any_eq_true, Bool.and_eq_true] at h
    obtain ⟨m, hm, h1, h2⟩ := h
    exact le_trans (iha t p m h1) (ihb t m e h2)
  | opt a ih =>
    intro t p e h
    simp only [accepts, Bool.or_eq_true, beq_iff_eq] at h
    rcases h with rfl | h
    · exact le_rfl
    · exact ih t p e h
  | rep f lo hi =>
    intro t p e h
    simp only [accepts, Bool.and_eq_true, decide_eq_true_eq] at h
    omega
  | star f =>
    intro t p e h
    simp only [accepts, Bool.and_eq_true, decide_eq_true_eq] at h
    omega
  | plus f =>
    intro t p e h
    simp only [accepts, Bool.and_eq_true, decide_eq_true_eq] at h
    omega

theorem accepts_seq_iff (a b : RE) (t : Chars) (p e : Nat) :
    accepts (.seq a b) t p e = true ↔
      ∃ m, p ≤ m ∧ m ≤ e ∧ accepts a t p m = true ∧ accepts b t m e = true := by
  simp only [accepts, List.any_eq_true, Bool.and_eq_true]
  constructor
  · rintro ⟨m, hm, h1, h2⟩
    have := mem_posns.mp hm
    exact ⟨m, by omega, by omega, h1, h2⟩
  · rintro ⟨m, h1, h2, h3, h4⟩
    exact ⟨m, mem_posns.mpr ⟨h1, by omega⟩, h3, h4⟩

theorem accepts_bnd_iff (t : Chars) (p e : Nat) :
    accepts .bnd t p e = true ↔ e = p ∧ atB t p = true := by
  simp [accepts]

theorem accepts_cls_iff (f : Char → Bool) (t : Chars) (p e : Nat) :
    accepts (.cls f) t p e = true ↔
      e = p + 1 ∧ ∃ c, t.get? p = some c ∧ f c = true := by
  simp only [accepts, Bool.and_eq_true, beq_iff_eq]
  constructor
  · rintro ⟨rfl, h⟩
    cases hc : t.get? p with
    | none => rw [hc] at h; exact absurd h (by simp)
    | some c => rw [hc] at h; exact ⟨rfl, c, rfl, h⟩
  · rintro ⟨rfl, c, hc, hfc⟩
    rw [hc]
    exact ⟨rfl, hfc⟩

theorem accepts_opt_iff (a : RE) (t : Chars) (p e : Nat) :
    accepts (.opt a) t p e = true ↔ e = p ∨ accepts a t p e = true := by
  simp [accepts]

theorem accepts_rep_iff (f : Char → Bool) (lo hi : Nat) (t : Chars) (p e : Nat) :
    accepts (.rep f lo hi) t p e = true ↔
      p + lo ≤ e ∧ e ≤ p + hi ∧ allCls f t p e = true := by
  simp [accepts, and_assoc]

theorem accepts_star_iff (f : Char → Bool) (t : Chars) (p e : Nat) :
    accepts (.star f) t p e = true ↔ p ≤ e ∧ allCls f t p e = true := by
  simp [accepts]

theorem accepts_plus_iff (f : Char → Bool) (t : Chars) (p e : Nat) :
    accepts (.plus f) t p e = true ↔ p < e ∧ allCls f t p e = true := by
  simp [accepts]

theorem litCI_length : ∀ (s : Chars) (t : Chars) (p e : Nat),
    litCI s t p = some e → e = p + s.length := by
  intro s
  induction s with
  | nil =>
    intro t p e h
    simp only [litCI] at h
    cases h
    simp
  | cons c s' ih =>
    intro t p e h
    simp only [litCI] at h
    cases hc : t.get? p with
    | none => rw [hc] at h; cases h
    | some d =>
      rw [hc] at h
      dsimp only at h
      by_cases hci : ciEq c d
      · rw [if_pos hci] at h
        have := ih t (p + 1) e h
        simp only [List.length_cons]
        omega
      · rw [if_neg hci] at h
        cases h

theorem accepts_litci_iff (s : Chars) (t : Chars) (p e : Nat) :
    accepts (.litci s) t p e = true ↔ litCI s t p = some e := by
  simp only [accepts, Bool.and_eq_true, beq_iff_eq]
  constructor
  · rintro ⟨rfl, h⟩
    exact h
  · intro h
    exact ⟨litCI_length s t p e h, h⟩

/-! ### Operational primitives versus `allCls` -/

theorem lit1_iff (c : Char) (t : Chars) (p e : Nat) :
    lit1 c t p = some e ↔ e = p + 1 ∧ t.get? p = some c := by
  unfold lit1
  cases hc : t.get? p with
  | none => simp
  | some d =>
    dsimp only
    by_cases hd : d = c
    · subst hd
      simp only [beq_self_eq_true, if_true]
      constructor
      · intro h; cases h; exact ⟨rfl, trivial⟩
      · rintro ⟨rfl, -⟩; rfl
    · rw [if_neg (by simpa using hd)]
      constructor
      · intro h; cases h
      · rintro ⟨-, hcc⟩
        exact absurd (by cases hcc; rfl) hd

theorem clsRep_iff (f : Char → Bool) (t : Chars) : ∀ (n p e : Nat),
    clsRep f t p n = some e ↔ e = p + n ∧ allCls f t p (p + n) = true := by
  intro n
  induction n with
  | zero =>
    intro p e
    simp only [clsRep]
    constructor
    · intro h; cases h; exact ⟨by omega, allCls_empty _ _ _ _ (by omega)⟩
    · rintro ⟨rfl, -⟩; simp
  | succ n ih =>
    intro p e
    simp only [clsRep]
    cases hc : t.get? p with
    | none =>
      dsimp only
      constructor
      · intro h; cases h
      · rintro ⟨rfl, hall⟩
        obtain ⟨c, hcc, -⟩ := allCls_at hall (le_refl p) (by omega)
        rw [hc] at hcc
        cases hcc
    | some c =>
      dsimp only
      by_cases hfc : f c
      · rw [if_pos hfc, ih (p + 1) e]
        constructor
        · rintro ⟨rfl, hall⟩
          refine ⟨by omega, ?_⟩
          have hone : allCls f t p (p + 1) = true := by
            rw [allCls_iff]
            intro q h1 h2
            have : q = p := by omega
            subst this
            exact ⟨c, hc, hfc⟩
          have := allCls_merge hone (by
            have : p + 1 + n = p + (n + 1) := by omega
            rw [this] at hall
            exact hall)
          exact this
        · rintro ⟨rfl, hall⟩
          refine ⟨by omega, ?_⟩
          have : p + 1 + n = p + (n + 1) := by omega
          rw [this]
          exact allCls_sub hall (by omega) (by omega)
      · rw [if_neg hfc]
        constructor
        · intro h; cases h
        · rintro ⟨rfl, hall⟩
          obtain ⟨c', hcc, hfc'⟩ := allCls_at hall (le_refl p) (by omega)
          rw [hc] at hcc
          cases hcc
          exact absurd hfc' (by simp [hfc])

theorem runLen_all (f : Char → Bool) : ∀ (l : Chars) (i : Nat),
    i < runLen f l → ∃ c, l.get? i = some c ∧ f c = true := by
  intro l
  induction l with
  | nil => intro i h; simp [runLen] at h
  | cons c r ih =>
    intro i h
    simp only [runLen] at h
    by_cases hfc : f c
    · rw [if_pos hfc] at h
      cases i with
      | zero => exact ⟨c, rfl, hfc⟩
      | succ i => exact ih i (by omega)
    · rw [if_neg hfc] at h
      omega

theorem runLen_max (f : Char → Bool) : ∀ (l : Chars) (n : Nat),
    (∀ i, i < n → ∃ c, l.get? i = some c ∧ f c = true) → n ≤ runLen f l := by
  intro l
  induction l with
  | nil =>
    intro n h
    cases n with
    | zero => simp
    | succ n =>
      obtain ⟨c, hc, -⟩ := h 0 (by omega)
      cases hc
  | cons c r ih =>
    intro n h
    cases n with
    | zero => simp
    | succ n =>
      obtain ⟨c0, hc0, hfc0⟩ := h 0 (by omega)
      obtain rfl : c = c0 := by cases hc0; rfl
      simp only [runLen, if_pos hfc0]
      have := ih n (fun i hi => h (i + 1) (by omega))
      omega

theorem get?_drop_eq (t : Chars) (p i : Nat) : (t.drop p).get? i = t.get? (p + i) := by
  simp [List.get?_eq_getElem?, List.getElem?_drop]

theorem starEnd_ge (f : Char → Bool) (t : Chars) (p : Nat) : p ≤ starEnd f t p := by
  unfold starEnd
  omega

theorem starEnd_all (f : Char → Bool) (t : Chars) (p : Nat) :
    allCls f t p (starEnd f t p) = true := by
  rw [allCls_iff]
  intro q h1 h2
  unfold starEnd at h2
  obtain ⟨c, hc, hfc⟩ := runLen_all f (t.drop p) (q - p) (by omega)
  rw [get?_drop_eq] at hc
  have : p + (q - p) = q := by omega
  rw [this] at hc
  exact ⟨c, hc, hfc⟩

theorem starEnd_max {f : Char → Bool} {t : Chars} {p e : Nat}
    (h : allCls f t p e = true) : e ≤ starEnd f t p := by
  by_cases hpe : e ≤ p
  · have := starEnd_ge f t p
    omega
  · unfold starEnd
    have := runLen_max f (t.drop p) (e - p) (fun i hi => by
      obtain ⟨c, hc, hfc⟩ := allCls_at h (show p ≤ p + i by omega) (by omega)
      rw [← get?_drop_eq] at hc
      exact ⟨c, hc, hfc⟩)
    omega

/-! ### `bestEndAux` characterization -/

theorem bestEndAux_some (A : Nat → Nat → Bool) (p : Nat) : ∀ (k e : Nat),
    A p e = true → p ≤ e → e ≤ p + k →
    (∀ e', A p e' = true → e' ≤ e) → bestEndAux A p k = some e := by
  intro k
  induction k with
  | zero =>
    intro e h1 h2 h3 _
    have : e = p := by omega
    subst this
    simp [bestEndAux, h1]
  | succ k ih =>
    intro e h1 h2 h3 hmax
    simp only [bestEndAux]
    by_cases htop : A p (p + k + 1) = true
    · rw [if_pos htop]
      have h4 := hmax (p + k + 1) htop
      have : e = p + k + 1 := by omega
      subst this
      rfl
    · rw [if_neg htop]
      have he : e ≠ p + k + 1 := fun hc => htop (hc ▸ h1)
      exact ih e h1 h2 (by omega) hmax

theorem bestEndAux_none (A : Nat → Nat → Bool) (p : Nat) : ∀ (k : Nat),
    (∀ e, A p e = true → False) → bestEndAux A p k = none := by
  intro k
  induction k with
  | zero =>
    intro h
    simp only [bestEndAux]
    rw [if_neg (fun hc => h p hc)]
  | succ k ih =>
    intro h
    simp only [bestEndAux]
    rw [if_neg (fun hc => h (p + k + 1) hc)]
    exact ih h

/-! ### Character-class exclusivity -/

theorem digit_toLower {c : Char} (h : c.isDigit = true) : c.toLower = c := by
  simp only [Char.isDigit, Bool.and_eq_true, decide_eq_true_eq, Char.le_def] at h
  have hn : c.toNat ≤ 57 := h.2
  unfold Char.toLower
  rw [if_neg]
  omega

theorem digit_not_space {c : Char} (h : isDigitA c = true) : isSpaceA c = false := by
  unfold isSpaceA
  rw [Bool.eq_false_iff]
  intro hw
  unfold isDigitA at h
  rcases (by simpa [Char.isWhitespace] using hw :
      ((c = ' ' ∨ c = '\t') ∨ c = '\r') ∨ c = '\n') with ((rfl | rfl) | rfl) | rfl <;>
    exact absurd h (by decide)

theorem ciEq_not_digit (c0 : Char) {d : Char} (hd : isDigitA d = true)
    (hc : isDigitA (c0.toLower) = false) : ciEq c0 d = false := by
  unfold ciEq
  rw [Bool.eq_false_iff]
  intro h
  unfold isDigitA at hd
  rw [digit_toLower hd] at h
  have heq : c0.toLower = d := by simpa using h
  rw [heq] at hc
  unfold isDigitA at hc
  rw [hd] at hc
  cases hc

/-! ### The CPF rule: operational and declarative forms agree -/

theorem accepts_clslit_iff (c0 : Char) (t : Chars) (p e : Nat) :
    accepts (.cls (· == c0)) t p e = true ↔ e = p + 1 ∧ t.get? p = some c0 := by
  rw [accepts_cls_iff]
  constructor
  · rintro ⟨rfl, c, hc, hcc⟩
    have : c = c0 := by simpa using hcc
    subst this
    exact ⟨rfl, hc⟩
  · rintro ⟨rfl, hc⟩
    exact ⟨rfl, c0, hc, by simp⟩

/-- Explicit form of a CPF tail match `\d{3}\.\d{3}\.\d{3}-\d{2}\b` at `q`
ending at `e`. -/
def cpfCoreP (t : Chars) (q e : Nat) : Prop :=
  allCls isDigitA t q (q + 3) = true ∧ t.get? (q + 3) = some '.' ∧
  allCls isDigitA t (q + 4) (q + 7) = true ∧ t.get? (q + 7) = some '.' ∧
  allCls isDigitA t (q + 8) (q + 11) = true ∧ t.get? (q + 11) = some '-' ∧
  allCls isDigitA t (q + 12) (q + 14) = true ∧ atB t (q + 14) = true ∧ e = q + 14

theorem cpfCore_eq (t : Chars) (q e : Nat) :
    cpfCore t q = some e ↔ cpfCoreP t q e := by
  unfold cpfCore cpfCoreP
  simp only [Option.bind_eq_some, clsRep_iff, lit1_iff]
  constructor
  · rintro ⟨q1, ⟨hq1, h1⟩, q2, ⟨hq2, h2⟩, q3, ⟨hq3, h3⟩, q4, ⟨hq4, h4⟩,
      q5, ⟨hq5, h5⟩, q6, ⟨hq6, h6⟩, q7, ⟨hq7, h7⟩, h8⟩
    have e1 : q1 = q + 3 := by omega
    subst e1
    have e2 : q2 = q + 4 := by omega
    subst e2
    have e3 : q3 = q + 7 := by omega
    subst e3
    have e4 : q4 = q + 8 := by omega
    subst e4
    have e5 : q5 = q + 11 := by omega
    subst e5
    have e6 : q6 = q + 12 := by omega
    subst e6
    have e7 : q7 = q + 14 := by omega
    subst e7
    split at h8
    · next hb =>
      cases h8
      refine ⟨?_, h2, ?_, h4, ?_, h6, ?_, hb, rfl⟩
      · exact h1
      · have : q + 4 + 3 = q + 7 := by omega
        rw [← this]; exact h3
      · have : q + 8 + 3 = q + 11 := by omega
        rw [← this]; exact h5
      · have : q + 12 + 2 = q + 14 := by omega
        rw [← this]; exact h7
    · cases h8
  · rintro ⟨h1, h2, h3, h4, h5, h6, h7, h8, rfl⟩
    refine ⟨q + 3, ⟨rfl, h1⟩, q + 4, ⟨by omega, h2⟩, q + 7, ⟨by omega, ?_⟩,
      q + 8, ⟨by omega, h4⟩, q + 11, ⟨by omega, ?_⟩, q + 12, ⟨by omega, h6⟩,
      q + 14, ⟨by omega, ?_⟩, ?_⟩
    · have : q + 4 + 3 = q + 7 := by omega
      rw [this]; exact h3
    · have : q + 8 + 3 = q + 11 := by omega
      rw [this]; exact h5
    · have : q + 12 + 2 = q + 14 := by omega
      rw [this]; exact h7
    · rw [if_pos h8]

theorem accepts_cpfCoreRE (t : Chars) (q e : Nat) :
    accepts cpfCoreRE t q e = true ↔ cpfCoreP t q e := by
  unfold cpfCoreRE cpfCoreP
  simp only [accepts_seq_iff, accepts_rep_iff, accepts_clslit_iff, accepts_bnd_iff]
  constructor
  · rintro ⟨m1, -, -, ⟨hm1a, hm1b, h1⟩, m2, -, -, ⟨hm2, h2⟩, m3, -, -, ⟨hm3a, hm3b, h3⟩,
      m4, -, -, ⟨hm4, h4⟩, m5, -, -, ⟨hm5a, hm5b, h5⟩, m6, -, -, ⟨hm6, h6⟩,
      m7, -, -, ⟨hm7a, hm7b, h7⟩, he, hb⟩
    have e1 : m1 = q + 3 := by omega
    subst e1
    have e2 : m2 = q + 4 := by omega
    subst e2
    have e3 : m3 = q + 7 := by omega
    subst e3
    have e4 : m4 = q + 8 := by omega
    subst e4
    have e5 : m5 = q + 11 := by omega
    subst e5
    have e6 : m6 = q + 12 := by omega
    subst e6
    have e7 : m7 = q + 14 := by omega
    subst e7
    have e8 : e = q + 14 := by omega
    subst e8
    refine ⟨allCls_sub h1 (by omega) (by omega), h2,
      allCls_sub h3 (by omega) (by omega), h4,
      allCls_sub h5 (by omega) (by omega), h6,
      allCls_sub h7 (by omega) (by omega), hb, rfl⟩
  · rintro ⟨h1, h2, h3, h4, h5, h6, h7, h8, rfl⟩
    exact ⟨q + 3, by omega, by omega, ⟨by omega, by omega, h1⟩,
      q + 4, by omega, by omega, ⟨rfl, h2⟩,
      q + 7, by omega, by omega, ⟨by omega, by omega, h3⟩,
      q + 8, by omega, by omega, ⟨rfl, h4⟩,
      q + 11, by omega, by omega, ⟨by omega, by omega, h5⟩,
      q + 12, by omega, by omega, ⟨rfl, h6⟩,
      q + 14, by omega, by omega, ⟨by omega, by omega, h7⟩, rfl, h8⟩

theorem orElse_some {α} (a : α) (f : Unit → Option α) :
    (Option.some a).orElse f = some a := rfl

theorem orElse_none {α} (f : Unit → Option α) :
    (Option.none : Option α).orElse f = f () := rfl

theorem litCI_head {c : Char} {s : Chars} {t : Chars} {p q : Nat}
    (h : litCI (c :: s) t p = some q) :
    ∃ d, t.get? p = some d ∧ ciEq c d = true := by
  unfold litCI at h
  cases hc : t.get? p with
  | none => rw [hc] at h; cases h
  | some d =>
    rw [hc] at h
    dsimp only at h
    by_cases hci : ciEq c d
    · exact ⟨d, rfl, hci⟩
    · rw [if_neg hci] at h; cases h

theorem cpfCoreP_le_length {t : Chars} {q e : Nat} (h : cpfCoreP t q e) :
    e ≤ t.length := by
  obtain ⟨-, -, -, -, -, -, h7, -, rfl⟩ := h
  exact allCls_le_length h7 (by omega)

theorem cpfCoreP_digit {t : Chars} {q e : Nat} (h : cpfCoreP t q e) :
    ∃ c, t.get? q = some c ∧ isDigitA c = true :=
  allCls_at h.1 (le_refl q) (by omega)

/-- The operational CPF matcher agrees with the declarative pattern. -/
theorem cpf_match_iff (t : Chars) (p e : Nat) :
    cpfMatch t p = some e ↔ accepts cpfRE t p e = true := by
  constructor
  · intro h
    unfold cpfMatch at h
    by_cases hb : atB t p
    swap
    · rw [if_neg hb] at h; cases h
    rw [if_pos hb] at h
    unfold cpfRE
    rw [accepts_seq_iff]
    cases hl : litCI ['C', 'P', 'F'] t p with
    | none =>
      rw [hl] at h
      have hc := (cpfCore_eq t p e).mp h
      have he := cpfCoreP_digit hc
      refine ⟨p, le_rfl, ?_, (accepts_bnd_iff t p p).mpr ⟨rfl, hb⟩, ?_⟩
      · have := hc.2.2.2.2.2.2.2.2; omega
      · rw [accepts_seq_iff]
        refine ⟨p, le_rfl, ?_, (accepts_opt_iff _ t p p).mpr (Or.inl rfl), ?_⟩
        · have := hc.2.2.2.2.2.2.2.2; omega
        · exact (accepts_cpfCoreRE t p e).mpr hc
    | some q2 =>
      rw [hl] at h
      dsimp only at h
      have hq2 : q2 = p + 3 := litCI_length _ t p q2 hl
      cases hcs : cpfCore t (starEnd isSpaceA t q2) with
      | some e1 =>
        rw [hcs, orElse_some] at h
        cases h
        have hc := (cpfCore_eq t (starEnd isSpaceA t q2) e).mp hcs
        have hse := starEnd_ge isSpaceA t q2
        have hee := hc.2.2.2.2.2.2.2.2
        refine ⟨p, le_rfl, by omega, (accepts_bnd_iff t p p).mpr ⟨rfl, hb⟩, ?_⟩
        rw [accepts_seq_iff]
        refine ⟨starEnd isSpaceA t q2, by omega, by omega, ?_, ?_⟩
        · rw [accepts_opt_iff]
          right
          rw [accepts_seq_iff]
          refine ⟨q2, by omega, by omega, (accepts_litci_iff _ t p q2).mpr hl, ?_⟩
          rw [accepts_star_iff]
          exact ⟨hse, starEnd_all _ t q2⟩
        · exact (accepts_cpfCoreRE t _ e).mpr hc
      | none =>
        rw [hcs, orElse_none] at h
        have hc := (cpfCore_eq t p e).mp h
        have hee := hc.2.2.2.2.2.2.2.2
        refine ⟨p, le_rfl, by omega, (accepts_bnd_iff t p p).mpr ⟨rfl, hb⟩, ?_⟩
        rw [accepts_seq_iff]
        refine ⟨p, le_rfl, by omega, (accepts_opt_iff _ t p p).mpr (Or.inl rfl), ?_⟩
        exact (accepts_cpfCoreRE t p e).mpr hc
  · intro h
    unfold cpfRE at h
    rw [accepts_seq_iff] at h
    obtain ⟨m0, -, -, hbnd, hrest⟩ := h
    rw [accepts_bnd_iff] at hbnd
    obtain ⟨rfl, hb⟩ := hbnd
    rw [accepts_seq_iff] at hrest
    obtain ⟨m1, hpm1, hm1e, hopt, hcore⟩ := hrest
    have hc := (accepts_cpfCoreRE t m1 e).mp hcore
    unfold cpfMatch
    rw [if_pos hb]
    rw [accepts_opt_iff] at hopt
    rcases hopt with rfl | hseq
    · obtain ⟨cd, hcd, hdig⟩ := cpfCoreP_digit hc
      cases hl : litCI ['C', 'P', 'F'] t m1 with
      | none => exact (cpfCore_eq t m1 e).mpr hc
      | some q2 =>
        obtain ⟨d, hd, hci⟩ := litCI_head hl
        rw [hcd] at hd
        cases hd
        have := ciEq_not_digit 'C' hdig (by decide)
        rw [this] at hci
        cases hci
    · rw [accepts_seq_iff] at hseq
      obtain ⟨q2, -, hq2m1, hlit, hstar⟩ := hseq
      rw [accepts_litci_iff] at hlit
      rw [accepts_star_iff] at hstar
      rw [hlit]
      dsimp only
      have hme : m1 = starEnd isSpaceA t q2 := by
        have hle := starEnd_max hstar.2
        by_contra hne
        have hlt : m1 < starEnd isSpaceA t q2 := by omega
        obtain ⟨c, hcg, hcsp⟩ := allCls_at (starEnd_all isSpaceA t q2) hstar.1 hlt
        obtain ⟨c', hcg', hdig⟩ := cpfCoreP_digit hc
        rw [hcg] at hcg'
        cases hcg'
        have := digit_not_space hdig
        rw [this] at hcsp
        cases hcsp
      rw [← hme, (cpfCore_eq t m1 e).mpr hc, orElse_some]

theorem accepts_cpfRE_core {t : Chars} {p e : Nat}
    (h : accepts cpfRE t p e = true) : ∃ m1, cpfCoreP t m1 e := by
  unfold cpfRE at h
  rw [accepts_seq_iff] at h
  obtain ⟨m0, -, -, -, hrest⟩ := h
  rw [accepts_seq_iff] at hrest
  obtain ⟨m1, -, -, -, hcore⟩ := hrest
  exact ⟨m1, (accepts_cpfCoreRE t m1 e).mp hcore⟩

/-- The Python CPF matcher is the leftmost-longest matcher of `cpfRE`. -/
theorem cpf_eq_canon (t : Chars) (p : Nat) :
    cpfMatch t p = canonMatcher cpfRE t p := by
  unfold canonMatcher
  cases hm : cpfMatch t p with
  | none =>
    symm
    apply bestEndAux_none
    intro e ha
    have hc := (cpf_match_iff t p e).mpr ha
    rw [hm] at hc
    cases hc
  | some e =>
    symm
    have ha := (cpf_match_iff t p e).mp hm
    apply bestEndAux_some
    · exact ha
    · exact accepts_ge _ _ _ _ ha
    · obtain ⟨m1, hcp⟩ := accepts_cpfRE_core ha
      have h1 := cpfCoreP_le_length hcp
      have h2 := accepts_ge _ _ _ _ ha
      omega
    · intro e' ha'
      have hc := (cpf_match_iff t p e').mpr ha'
      rw [hm] at hc
      exact le_of_eq (Option.some.inj hc).symm

/-! ### The CNPJ rule -/

/-- Explicit form of a CNPJ tail match `\d{2}\.\d{3}\.\d{3}/\d{4}-\d{2}\b`
at `q` ending at `e`. -/
def cnpjCoreP (t : Chars) (q e : Nat) : Prop :=
  allCls isDigitA t q (q + 2) = true ∧ t.get? (q + 2) = some '.' ∧
  allCls isDigitA t (q + 3) (q + 6) = true ∧ t.get? (q + 6) = some '.' ∧
  allCls isDigitA t (q + 7) (q + 10) = true ∧ t.get? (q + 10) = some '/' ∧
  allCls isDigitA t (q + 11) (q + 15) = true ∧ t.get? (q + 15) = some '-' ∧
  allCls isDigitA t (q + 16) (q + 18) = true ∧ atB t (q + 18) = true ∧ e = q + 18

theorem cnpjCore_eq (t : Chars) (q e : Nat) :
    cnpjCore t q = some e ↔ cnpjCoreP t q e := by
  unfold cnpjCore cnpjCoreP
  simp only [Option.bind_eq_some, clsRep_iff, lit1_iff]
  constructor
  · rintro ⟨q1, ⟨hq1, h1⟩, q2, ⟨hq2, h2⟩, q3, ⟨hq3, h3⟩, q4, ⟨hq4, h4⟩,
      q5, ⟨hq5, h5⟩, q6, ⟨hq6, h6⟩, q7, ⟨hq7, h7⟩, q8, ⟨hq8, h8⟩,
      q9, ⟨hq9, h9⟩, h10⟩
    have e1 : q1 = q + 2 := by omega
    subst e1
    have e2 : q2 = q + 3 := by omega
    subst e2
    have e3 : q3 = q + 6 := by omega
    subst e3
    have e4 : q4 = q + 7 := by omega
    subst e4
    have e5 : q5 = q + 10 := by omega
    subst e5
    have e6 : q6 = q + 11 := by omega
    subst e6
    have e7 : q7 = q + 15 := by omega
    subst e7
    have e8 : q8 = q + 16 := by omega
    subst e8
    have e9 : q9 = q + 18 := by omega
    subst e9
    split at h10
    · next hbd =>
      cases h10
      refine ⟨h1, h2, ?_, h4, ?_, h6, ?_, h8, ?_, hbd, rfl⟩
      · have h : q + 3 + 3 = q + 6 := by omega
        rw [← h]; exact h3
      · have h : q + 7 + 3 = q + 10 := by omega
        rw [← h]; exact h5
      · have h : q + 11 + 4 = q + 15 := by omega
        rw [← h]; exact h7
      · have h : q + 16 + 2 = q + 18 := by omega
        rw [← h]; exact h9
    · cases h10
  · rintro ⟨h1, h2, h3, h4, h5, h6, h7, h8, h9, h10, rfl⟩
    refine ⟨q + 2, ⟨rfl, h1⟩, q + 3, ⟨by omega, h2⟩, q + 6, ⟨by omega, ?_⟩,
      q + 7, ⟨by omega, h4⟩, q + 10, ⟨by omega, ?_⟩, q + 11, ⟨by omega, h6⟩,
      q + 15, ⟨by omega, ?_⟩, q + 16, ⟨by omega, h8⟩, q + 18, ⟨by omega, ?_⟩, ?_⟩
    · have h : q + 3 + 3 = q + 6 := by omega
      rw [h]; exact h3
    · have h : q + 7 + 3 = q + 10 := by omega
      rw [h]; exact h5
    · have h : q + 11 + 4 = q + 15 := by omega
      rw [h]; exact h7
    · have h : q + 16 + 2 = q + 18 := by omega
      rw [h]; exact h9
    · rw [if_pos h10]

theorem accepts_cnpjCoreRE (t : Chars) (q e : Nat) :
    accepts cnpjCoreRE t q e = true ↔ cnpjCoreP t q e := by
  unfold cnpjCoreRE cnpjCoreP
  simp only [accepts_seq_iff, accepts_rep_iff, accepts_clslit_iff, accepts_bnd_iff]
  constructor
  · rintro ⟨m1, -, -, ⟨hm1a, hm1b, h1⟩, m2, -, -, ⟨hm2, h2⟩, m3, -, -, ⟨hm3a, hm3b, h3⟩,
      m4, -, -, ⟨hm4, h4⟩, m5, -, -, ⟨hm5a, hm5b, h5⟩, m6, -, -, ⟨hm6, h6⟩,
      m7, -, -, ⟨hm7a, hm7b, h7⟩, m8, -, -, ⟨hm8, h8⟩, m9, -, -, ⟨hm9a, hm9b, h9⟩,
      he, hbd⟩
    have e1 : m1 = q + 2 := by omega
    subst e1
    have e2 : m2 = q + 3 := by omega
    subst e2
    have e3 : m3 = q + 6 := by omega
    subst e3
    have e4 : m4 = q + 7 := by omega
    subst e4
    have e5 : m5 = q + 10 := by omega
    subst e5
    have e6 : m6 = q + 11 := by omega
    subst e6
    have e7 : m7 = q + 15 := by omega
    subst e7
    have e8 : m8 = q + 16 := by omega
    subst e8
    have e9 : m9 = q + 18 := by omega
    subst e9
    have e10 : e = q + 18 := by omega
    subst e10
    exact ⟨allCls_sub h1 (by omega) (by omega), h2,
      allCls_sub h3 (by omega) (by omega), h4,
      allCls_sub h5 (by omega) (by omega), h6,
      allCls_sub h7 (by omega) (by omega), h8,
      allCls_sub h9 (by omega) (by omega), hbd, rfl⟩
  · rintro ⟨h1, h2, h3, h4, h5, h6, h7, h8, h9, h10, rfl⟩
    exact ⟨q + 2, by omega, by omega, ⟨by omega, by omega, h1⟩,
      q + 3, by omega, by omega, ⟨rfl, h2⟩,
      q + 6, by omega, by omega, ⟨by omega, by omega, h3⟩,
      q + 7, by omega, by omega, ⟨rfl, h4⟩,
      q + 10, by omega, by omega, ⟨by omega, by omega, h5⟩,
      q + 11, by omega, by omega, ⟨rfl, h6⟩,
      q + 15, by omega, by omega, ⟨by omega, by omega, h7⟩,
      q + 16, by omega, by omega, ⟨rfl, h8⟩,
      q + 18, by omega, by omega, ⟨by omega, by omega, h9⟩, rfl, h10⟩

theorem cnpjCoreP_le_length {t : Chars} {q e : Nat} (h : cnpjCoreP t q e) :
    e ≤ t.length := by
  obtain ⟨-, -, -, -, -, -, -, -, h9, -, rfl⟩ := h
  exact allCls_le_length h9 (by omega)

theorem cnpjCoreP_digit {t : Chars} {q e : Nat} (h : cnpjCoreP t q e) :
    ∃ c, t.get? q = some c ∧ isDigitA c = true :=
  allCls_at h.1 (le_refl q) (by omega)

/-- The operational CNPJ matcher agrees with the declarative pattern. -/
theorem cnpj_match_iff (t : Chars) (p e : Nat) :
    cnpjMatch t p = some e ↔ accepts cnpjRE t p e = true := by
  constructor
  · intro h
    unfold cnpjMatch at h
    by_cases hb : atB t p
    swap
    · rw [if_neg hb] at h; cases h
    rw [if_pos hb] at h
    unfold cnpjRE
    rw [accepts_seq_iff]
    cases hl : litCI ['C', 'N', 'P', 'J'] t p with
    | none =>
      rw [hl] at h
      have hc := (cnpjCore_eq t p e).mp h
      refine ⟨p, le_rfl, ?_, (accepts_bnd_iff t p p).mpr ⟨rfl, hb⟩, ?_⟩
      · have := hc.2.2.2.2.2.2.2.2.2.2; omega
      · rw [accepts_seq_iff]
        refine ⟨p, le_rfl, ?_, (accepts_opt_iff _ t p p).mpr (Or.inl rfl), ?_⟩
        · have := hc.2.2.2.2.2.2.2.2.2.2; omega
        · exact (accepts_cnpjCoreRE t p e).mpr hc
    | some q2 =>
      rw [hl] at h
      dsimp only at h
      have hq2 : q2 = p + 4 := litCI_length _ t p q2 hl
      cases hcs : cnpjCore t (starEnd isSpaceA t q2) with
      | some e1 =>
        rw [hcs, orElse_some] at h
        cases h
        have hc := (cnpjCore_eq t (starEnd isSpaceA t q2) e).mp hcs
        have hse := starEnd_ge isSpaceA t q2
        have hee := hc.2.2.2.2.2.2.2.2.2.2
        refine ⟨p, le_rfl, by omega, (accepts_bnd_iff t p p).mpr ⟨rfl, hb⟩, ?_⟩
        rw [accepts_seq_iff]
        refine ⟨starEnd isSpaceA t q2, by omega, by omega, ?_, ?_⟩
        · rw [accepts_opt_iff]
          right
          rw [accepts_seq_iff]
          refine ⟨q2, by omega, by omega, (accepts_litci_iff _ t p q2).mpr hl, ?_⟩
          rw [accepts_star_iff]
          exact ⟨hse, starEnd_all _ t q2⟩
        · exact (accepts_cnpjCoreRE t _ e).mpr hc
      | none =>
        rw [hcs, orElse_none] at h
        have hc := (cnpjCore_eq t p e).mp h
        have hee := hc.2.2.2.2.2.2.2.2.2.2
        refine ⟨p, le_rfl, by omega, (accepts_bnd_iff t p p).mpr ⟨rfl, hb⟩, ?_⟩
        rw [accepts_seq_iff]
        refine ⟨p, le_rfl, by omega, (accepts_opt_iff _ t p p).mpr (Or.inl rfl), ?_⟩
        exact (accepts_cnpjCoreRE t p e).mpr hc
  · intro h
    unfold cnpjRE at h
    rw [accepts_seq_iff] at h
    obtain ⟨m0, -, -, hbnd, hrest⟩ := h
    rw [accepts_bnd_iff] at hbnd
    obtain ⟨rfl, hb⟩ := hbnd
    rw [accepts_seq_iff] at hrest
    obtain ⟨m1, hpm1, hm1e, hopt, hcore⟩ := hrest
    have hc := (accepts_cnpjCoreRE t m1 e).mp hcore
    unfold cnpjMatch
    rw [if_pos hb]
    rw [accepts_opt_iff] at hopt
    rcases hopt with rfl | hseq
    · obtain ⟨cd, hcd, hdig⟩ := cnpjCoreP_digit hc
      cases hl : litCI ['C', 'N', 'P', 'J'] t m1 with
      | none => exact (cnpjCore_eq t m1 e).mpr hc
      | some q2 =>
        obtain ⟨d, hd, hci⟩ := litCI_head hl
        rw [hcd] at hd
        cases hd
        have := ciEq_not_digit 'C' hdig (by decide)
        rw [this] at hci
        cases hci
    · rw [accepts_seq_iff] at hseq
      obtain ⟨q2, -, hq2m1, hlit, hstar⟩ := hseq
      rw [accepts_litci_iff] at hlit
      rw [accepts_star_iff] at hstar
      rw [hlit]
      dsimp only
      have hme : m1 = starEnd isSpaceA t q2 := by
        have hle := starEnd_max hstar.2
        by_contra hne
        have hlt : m1 < starEnd isSpaceA t q2 := by omega
        obtain ⟨c, hcg, hcsp⟩ := allCls_at (starEnd_all isSpaceA t q2) hstar.1 hlt
        obtain ⟨c', hcg', hdig⟩ := cnpjCoreP_digit hc
        rw [hcg] at hcg'
        cases hcg'
        have := digit_not_space hdig
        rw [this] at hcsp
        cases hcsp
      rw [← hme, (cnpjCore_eq t m1 e).mpr hc, orElse_some]

theorem accepts_cnpjRE_core {t : Chars} {p e : Nat}
    (h : accepts cnpjRE t p e = true) : ∃ m1, cnpjCoreP t m1 e := by
  unfold cnpjRE at h
  rw [accepts_seq_iff] at h
  obtain ⟨m0, -, -, -, hrest⟩ := h
  rw [accepts_seq_iff] at hrest
  obtain ⟨m1, -, -, -, hcore⟩ := hrest
  exact ⟨m1, (accepts_cnpjCoreRE t m1 e).mp hcore⟩

/-- The Python CNPJ matcher is the leftmost-longest matcher of `cnpjRE`. -/
theorem cnpj_eq_canon (t : Chars) (p : Nat) :
    cnpjMatch t p = canonMatcher cnpjRE t p := by
  unfold canonMatcher
  cases hm : cnpjMatch t p with
  | none =>
    symm
    apply bestEndAux_none
    intro e ha
    have hc := (cnpj_match_iff t p e).mpr ha
    rw [hm] at hc
    cases hc
  | some e =>
    symm
    have ha := (cnpj_match_iff t p e).mp hm
    apply bestEndAux_some
    · exact ha
    · exact accepts_ge _ _ _ _ ha
    · obtain ⟨m1, hcp⟩ := accepts_cnpjRE_core ha
      have h1 := cnpjCoreP_le_length hcp
      have h2 := accepts_ge _ _ _ _ ha
      omega
    · intro e' ha'
      have hc := (cnpj_match_iff t p e').mpr ha'
      rw [hm] at hc
      exact le_of_eq (Option.some.inj hc).symm

/-! ### The phone rule -/

/-- Explicit form of a `\d{4}-\d{4}\b` match at `q` ending at `e`. -/
def telCoreP (t : Chars) (q e : Nat) : Prop :=
  allCls isDigitA t q (q + 4) = true ∧ t.get? (q + 4) = some '-' ∧
  allCls isDigitA t (q + 5) (q + 9) = true ∧ atB t (q + 9) = true ∧ e = q + 9

theorem telCore_eq (t : Chars) (q e : Nat) :
    telCore t q = some e ↔ telCoreP t q e := by
  unfold telCore telCoreP
  simp only [Option.bind_eq_some, clsRep_iff, lit1_iff]
  constructor
  · rintro ⟨q1, ⟨hq1, h1⟩, q2, ⟨hq2, h2⟩, q3, ⟨hq3, h3⟩, h4⟩
    have e1 : q1 = q + 4 := by omega
    subst e1
    have e2 : q2 = q + 5 := by omega
    subst e2
    have e3 : q3 = q + 9 := by omega
    subst e3
    split at h4
    · next hbd =>
      cases h4
      refine ⟨h1, h2, ?_, hbd, rfl⟩
      have h : q + 5 + 4 = q + 9 := by omega
      rw [← h]; exact h3
    · cases h4
  · rintro ⟨h1, h2, h3, h4, rfl⟩
    refine ⟨q + 4, ⟨rfl, h1⟩, q + 5, ⟨by omega, h2⟩, q + 9, ⟨by omega, ?_⟩, ?_⟩
    · have h : q + 5 + 4 = q + 9 := by omega
      rw [h]; exact h3
    · rw [if_pos h4]

theorem accepts_telCoreRE (t : Chars) (q e : Nat) :
    accepts telCoreRE t q e = true ↔ telCoreP t q e := by
  unfold telCoreRE telCoreP
  simp only [accepts_seq_iff, accepts_rep_iff, accepts_clslit_iff, accepts_bnd_iff]
  constructor
  · rintro ⟨m1, -, -, ⟨hm1a, hm1b, h1⟩, m2, -, -, ⟨hm2, h2⟩,
      m3, -, -, ⟨hm3a, hm3b, h3⟩, he, hbd⟩
    have e1 : m1 = q + 4 := by omega
    subst e1
    have e2 : m2 = q + 5 := by omega
    subst e2
    have e3 : m3 = q + 9 := by omega
    subst e3
    have e4 : e = q + 9 := by omega
    subst e4
    exact ⟨allCls_sub h1 (by omega) (by omega), h2,
      allCls_sub h3 (by omega) (by omega), hbd, rfl⟩
  · rintro ⟨h1, h2, h3, h4, rfl⟩
    exact ⟨q + 4, by omega, by omega, ⟨by omega, by omega, h1⟩,
      q + 5, by omega, by omega, ⟨rfl, h2⟩,
      q + 9, by omega, by omega, ⟨by omega, by omega, h3⟩, rfl, h4⟩

theorem telCoreP_le_length {t : Chars} {q e : Nat} (h : telCoreP t q e) :
    e ≤ t.length := by
  obtain ⟨-, -, h3, -, rfl⟩ := h
  exact allCls_le_length h3 (by omega)

theorem telCoreP_digit {t : Chars} {q e : Nat} (h : telCoreP t q e) :
    ∃ c, t.get? q = some c ∧ isDigitA c = true :=
  allCls_at h.1 (le_refl q) (by omega)

/-- Explicit form of a `9?\d{4}-\d{4}\b` match. -/
def telCore9P (t : Chars) (q e : Nat) : Prop :=
  telCoreP t q e ∨ (t.get? q = some '9' ∧ telCoreP t (q + 1) e)

theorem accepts_telCore9RE (t : Chars) (q e : Nat) :
    accepts telCore9RE t q e = true ↔ telCore9P t q e := by
  unfold telCore9RE telCore9P
  rw [accepts_seq_iff]
  constructor
  · rintro ⟨m, -, -, hopt, hcore⟩
    rw [accepts_opt_iff] at hopt
    rcases hopt with rfl | hnine
    · exact Or.inl ((accepts_telCoreRE t m e).mp hcore)
    · rw [accepts_clslit_iff] at hnine
      obtain ⟨rfl, h9⟩ := hnine
      exact Or.inr ⟨h9, (accepts_telCoreRE t (q + 1) e).mp hcore⟩
  · rintro (hc | ⟨h9, hc⟩)
    · exact ⟨q, le_rfl, by have := hc.2.2.2.2; omega,
        (accepts_opt_iff _ t q q).mpr (Or.inl rfl), (accepts_telCoreRE t q e).mpr hc⟩
    · exact ⟨q + 1, by omega, by have := hc.2.2.2.2; omega,
        (accepts_opt_iff _ t q (q + 1)).mpr (Or.inr ((accepts_clslit_iff '9' t q (q + 1)).mpr ⟨rfl, h9⟩)),
        (accepts_telCoreRE t (q + 1) e).mpr hc⟩

/-- The optional `9` and the bare core cannot both match at one position:
the bare parse puts its dash where the `9`-parse needs a digit. -/
theorem telCore9P_excl {t : Chars} {q e e' : Nat} (h1 : telCoreP t q e)
    (h2 : telCoreP t (q + 1) e') : False := by
  obtain ⟨-, hdash, -, -, -⟩ := h1
  obtain ⟨hd2, -, -, -, -⟩ := h2
  obtain ⟨c, hc, hdig⟩ := allCls_at hd2 (show q + 1 ≤ q + 4 by omega) (by omega)
  rw [hdash] at hc
  cases hc
  exact absurd hdig (by decide)

theorem telCore9_iff (t : Chars) (q e : Nat) :
    telCore9 t q = some e ↔ telCore9P t q e := by
  unfold telCore9 telCore9P
  cases hg : t.get? q with
  | none =>
    dsimp only
    rw [telCore_eq]
    constructor
    · exact Or.inl
    · rintro (hc | ⟨h9, -⟩)
      · exact hc
      · cases h9
  | some c =>
    dsimp only
    by_cases hc9 : c == '9'
    · rw [if_pos hc9]
      have hcc : c = '9' := by simpa using hc9
      subst hcc
      cases hcs : telCore t (q + 1) with
      | some e1 =>
        rw [orElse_some]
        constructor
        · intro h
          cases h
          exact Or.inr ⟨rfl, (telCore_eq t (q + 1) e).mp hcs⟩
        · rintro (hc | ⟨-, hc⟩)
          · exact absurd (telCore9P_excl hc ((telCore_eq t (q + 1) e1).mp hcs)) id
          · have he := (telCore_eq t (q + 1) e).mpr hc
            rw [hcs] at he
            exact he
      | none =>
        rw [orElse_none, telCore_eq]
        constructor
        · exact Or.inl
        · rintro (hc | ⟨-, hc⟩)
          · exact hc
          · rw [← telCore_eq] at hc
            rw [hcs] at hc
            cases hc
    · rw [if_neg hc9, telCore_eq]
      constructor
      · exact Or.inl
      · rintro (hc | ⟨h9, -⟩)
        · exact hc
        · exact absurd (show c = '9' by cases h9; rfl) (by simpa using hc9)

theorem telCore9P_digit {t : Chars} {q e : Nat} (h : telCore9P t q e) :
    ∃ c, t.get? q = some c ∧ isDigitA c = true := by
  rcases h with hc | ⟨h9, hc⟩
  · exact telCoreP_digit hc
  · exact ⟨'9', h9, by decide⟩

theorem telCore9P_ge {t : Chars} {q e : Nat} (h : telCore9P t q e) : q + 9 ≤ e := by
  rcases h with hc | ⟨-, hc⟩
  · have := hc.2.2.2.2; omega
  · have := hc.2.2.2.2; omega

theorem telCore9P_le_length {t : Chars} {q e : Nat} (h : telCore9P t q e) :
    e ≤ t.length := by
  rcases h with hc | ⟨-, hc⟩
  · exact telCoreP_le_length hc
  · exact telCoreP_le_length hc

/-- Explicit form of an area-code group match `(\(?\d{2}\)?\s*)` spanning
`[g, m)`. -/
def telGroupP (t : Chars) (g m : Nat) : Prop :=
  ∃ m0 m2, (m0 = g ∨ (t.get? g = some '(' ∧ m0 = g + 1)) ∧
    allCls isDigitA t m0 (m0 + 2) = true ∧
    (m2 = m0 + 2 ∨ (t.get? (m0 + 2) = some ')' ∧ m2 = m0 + 3)) ∧
    m2 ≤ m ∧ allCls isSpaceA t m2 m = true

theorem telGroupP_ge {t : Chars} {g m : Nat} (h : telGroupP t g m) :
    g + 2 ≤ m := by
  obtain ⟨m0, m2, hopt0, -, hopt2, hm2m, -⟩ := h
  rcases hopt0 with rfl | ⟨-, rfl⟩ <;> rcases hopt2 with rfl | ⟨-, rfl⟩ <;> omega

theorem accepts_telGroupRE (t : Chars) (g m : Nat) :
    accepts telGroupRE t g m = true ↔ telGroupP t g m := by
  unfold telGroupRE telGroupP
  simp only [accepts_seq_iff, accepts_rep_iff, accepts_clslit_iff, accepts_opt_iff,
    accepts_star_iff]
  constructor
  · rintro ⟨ma, -, -, hopt1, mb, hab, -, ⟨hba, hbb, hdig⟩, mc, -, -, hopt2, hstar⟩
    have hb : mb = ma + 2 := by omega
    subst hb
    refine ⟨ma, mc, ?_, hdig, ?_, hstar.1, hstar.2⟩
    · rcases hopt1 with rfl | ⟨h1, h2⟩
      · exact Or.inl rfl
      · exact Or.inr ⟨h2, h1⟩
    · rcases hopt2 with rfl | ⟨h1, h2⟩
      · exact Or.inl rfl
      · exact Or.inr ⟨h2, h1⟩
  · rintro ⟨m0, m2, hopt0, hdig, hopt2, hm2m, hsp⟩
    have hm0g : g ≤ m0 ∧ m0 ≤ g + 1 := by
      rcases hopt0 with rfl | ⟨-, rfl⟩ <;> omega
    have hm2b : m0 + 2 ≤ m2 ∧ m2 ≤ m0 + 3 := by
      rcases hopt2 with rfl | ⟨-, rfl⟩ <;> omega
    refine ⟨m0, by omega, by omega, ?_, m0 + 2, by omega, by omega,
      ⟨by omega, by omega, hdig⟩, m2, by omega, by omega, ?_, hm2m, hsp⟩
    · rcases hopt0 with rfl | ⟨h, rfl⟩
      · exact Or.inl rfl
      · exact Or.inr ⟨rfl, h⟩
    · rcases hopt2 with rfl | ⟨h, rfl⟩
      · exact Or.inl rfl
      · exact Or.inr ⟨rfl, h⟩

/-- The operational group matcher agrees with the declarative group
followed by `9?\d{4}-\d{4}\b`: the maximal munches for `\(?`, `\)?` and
`\s*` are forced because the respective continuations only match digits
(or `9`), never `(`, `)` or whitespace. -/
theorem telGroupCore_iff (t : Chars) (g e : Nat) :
    telGroup t g = some e ↔ ∃ m, telGroupP t g m ∧ telCore9P t m e := by
  simp only [telGroup]
  constructor
  · intro h
    rcases hr : clsRep isDigitA t (if t.get? g == some '(' then g + 1 else g) 2 with - | p2
    · rw [hr] at h; cases h
    rw [hr, Option.some_bind] at h
    rw [telCore9_iff] at h
    rw [clsRep_iff] at hr
    obtain ⟨rfl, hdig⟩ := hr
    set p1 := if t.get? g == some '(' then g + 1 else g with hp1
    set p3 := if t.get? (p1 + 2) == some ')' then p1 + 2 + 1 else p1 + 2 with hp3
    refine ⟨starEnd isSpaceA t p3, ⟨p1, p3, ?_, hdig, ?_, starEnd_ge _ t p3, starEnd_all _ t p3⟩, h⟩
    · rw [hp1]
      by_cases hpar : t.get? g == some '('
      · rw [if_pos hpar]
        exact Or.inr ⟨by simpa using hpar, rfl⟩
      · rw [if_neg hpar]
        exact Or.inl rfl
    · rw [hp3]
      by_cases hpar : t.get? (p1 + 2) == some ')'
      · rw [if_pos hpar]
        exact Or.inr ⟨by simpa using hpar, by omega⟩
      · rw [if_neg hpar]
        exact Or.inl rfl
  · rintro ⟨m, ⟨m0, m2, hopt0, hdig, hopt2, hm2m, hsp⟩, hc9⟩
    obtain ⟨cm, hcm, hcmd⟩ := telCore9P_digit hc9
    have hm0 : (if t.get? g == some '(' then g + 1 else g) = m0 := by
      by_cases hpar : t.get? g == some '('
      · rw [if_pos hpar]
        rcases hopt0 with rfl | ⟨-, rfl⟩
        · obtain ⟨c, hc, hcd⟩ := allCls_at hdig (le_refl m0) (by omega)
          have hpar' : t.get? m0 = some '(' := by simpa using hpar
          rw [hpar'] at hc
          cases hc
          exact absurd hcd (by decide)
        · rfl
      · rw [if_neg hpar]
        rcases hopt0 with rfl | ⟨hp, rfl⟩
        · rfl
        · exact absurd (by rw [hp]; decide : (t.get? g == some '(') = true) hpar
    rw [hm0]
    rw [(clsRep_iff isDigitA t 2 m0 (m0 + 2)).mpr ⟨rfl, hdig⟩, Option.some_bind]
    have hm2 : (if t.get? (m0 + 2) == some ')' then m0 + 2 + 1 else m0 + 2) = m2 := by
      by_cases hpar : t.get? (m0 + 2) == some ')'
      · rw [if_pos hpar]
        have hpar' : t.get? (m0 + 2) = some ')' := by simpa using hpar
        rcases hopt2 with heq | ⟨-, heq⟩
        · exfalso
          by_cases hm2m' : m2 < m
          · obtain ⟨c, hc, hcd⟩ := allCls_at hsp (le_refl m2) hm2m'
            rw [heq, hpar'] at hc
            cases hc
            exact absurd hcd (by decide)
          · have hm2eq : m2 = m := by omega
            rw [← hm2eq, heq, hpar'] at hcm
            cases hcm
            exact absurd hcmd (by decide)
        · omega
      · rw [if_neg hpar]
        rcases hopt2 with heq | ⟨hp, heq⟩
        · omega
        · exact absurd (by rw [hp]; decide : (t.get? (m0 + 2) == some ')') = true) hpar
    rw [hm2]
    have hm : starEnd isSpaceA t m2 = m := by
      have hle : m ≤ starEnd isSpaceA t m2 := starEnd_max hsp
      by_contra hne
      have hlt : m < starEnd isSpaceA t m2 := by omega
      obtain ⟨c, hc, hcs⟩ := allCls_at (starEnd_all isSpaceA t m2) hm2m hlt
      rw [hcm] at hc
      cases hc
      have := digit_not_space hcmd
      rw [this] at hcs
      cases hcs
    rw [hm, telCore9_iff]
    exact hc9

/-- A group parse and a groupless parse cannot both match at one position:
the groupless parse puts its dash at offset 4 or 5, where the group parse
has a digit, a parenthesis, whitespace or a `9`. -/
theorem telAfter_excl {t : Chars} {g m e e' : Nat} (hg : telGroupP t g m)
    (hc : telCore9P t m e) (hn : telCore9P t g e') : False := by
  obtain ⟨m0, m2, hopt0, hdig, hopt2, hm2m, hsp⟩ := hg
  have hm0b : g ≤ m0 ∧ m0 ≤ g + 1 := by
    rcases hopt0 with rfl | ⟨-, rfl⟩ <;> omega
  have hm2b : m0 + 2 ≤ m2 ∧ m2 ≤ m0 + 3 := by
    rcases hopt2 with rfl | ⟨-, rfl⟩ <;> omega
  -- the groupless parse has a dash at `x ∈ {g+4, g+5}`
  obtain ⟨x, hx, hxa, hxb⟩ :
      ∃ x, t.get? x = some '-' ∧ g + 4 ≤ x ∧ x ≤ g + 5 := by
    rcases hn with hcc | ⟨-, hcc⟩
    · exact ⟨g + 4, hcc.2.1, by omega, by omega⟩
    · obtain ⟨-, hd, -⟩ := hcc
      exact ⟨g + 1 + 4, hd, by omega, by omega⟩
  -- `x` lies at or after `m2`
  have hxm2 : m2 ≤ x := by omega
  by_cases hxm : x < m
  · obtain ⟨c, hcg, hcs⟩ := allCls_at hsp hxm2 hxm
    rw [hx] at hcg
    cases hcg
    exact absurd hcs (by decide)
  · rcases hc with hcc | ⟨h9, hcc⟩
    · obtain ⟨hda, -, -, -, -⟩ := hcc
      by_cases hx4 : x < m + 4
      · obtain ⟨c, hcg, hcd⟩ :=
          @allCls_at isDigitA t m (m + 4) x hda (by omega) (by omega)
        rw [hx] at hcg
        cases hcg
        exact absurd hcd (by decide)
      · omega
    · by_cases hx0 : x = m
      · rw [hx0, h9] at hx
        cases hx
      · obtain ⟨hda, -, -, -, -⟩ := hcc
        by_cases hx5 : x < m + 1 + 4
        · obtain ⟨c, hcg, hcd⟩ :=
            @allCls_at isDigitA t (m + 1) (m + 1 + 4) x hda (by omega) (by omega)
          rw [hx] at hcg
          cases hcg
          exact absurd hcd (by decide)
        · omega

/-- Explicit form of `(\(?\d{2}\)?\s*)?9?\d{4}-\d{4}\b`. -/
def telAfterP (t : Chars) (g e : Nat) : Prop :=
  (∃ m, telGroupP t g m ∧ telCore9P t m e) ∨ telCore9P t g e

theorem accepts_afterRE (t : Chars) (g e : Nat) :
    accepts (.seq (.opt telGroupRE) telCore9RE) t g e = true ↔ telAfterP t g e := by
  rw [accepts_seq_iff]
  unfold telAfterP
  constructor
  · rintro ⟨m, -, -, hopt, hc9⟩
    rw [accepts_opt_iff] at hopt
    rcases hopt with rfl | hgrp
    · exact Or.inr ((accepts_telCore9RE t m e).mp hc9)
    · exact Or.inl ⟨m, (accepts_telGroupRE t g m).mp hgrp,
        (accepts_telCore9RE t m e).mp hc9⟩
  · rintro (⟨m, hgrp, hc9⟩ | hc9)
    · exact ⟨m, by have := telGroupP_ge hgrp; omega,
        by have := telCore9P_ge hc9; omega,
        (accepts_opt_iff _ t g m).mpr (Or.inr ((accepts_telGroupRE t g m).mpr hgrp)),
        (accepts_telCore9RE t m e).mpr hc9⟩
    · exact ⟨g, le_rfl, by have := telCore9P_ge hc9; omega,
        (accepts_opt_iff _ t g g).mpr (Or.inl rfl),
        (accepts_telCore9RE t g e).mpr hc9⟩

theorem telAfterHead_iff (t : Chars) (g e : Nat) :
    telAfterHead t g = some e ↔ telAfterP t g e := by
  unfold telAfterHead telAfterP
  constructor
  · intro h
    cases hgs : telGroup t g with
    | some e1 =>
      rw [hgs, orElse_some] at h
      cases h
      exact Or.inl ((telGroupCore_iff t g e).mp hgs)
    | none =>
      rw [hgs, orElse_none] at h
      exact Or.inr ((telCore9_iff t g e).mp h)
  · rintro (⟨m, hgrp, hc9⟩ | hc9)
    · rw [(telGroupCore_iff t g e).mpr ⟨m, hgrp, hc9⟩, orElse_some]
    · cases hgs : telGroup t g with
      | some e1 =>
        obtain ⟨m, hgrp, hc9'⟩ := (telGroupCore_iff t g e1).mp hgs
        exact absurd (telAfter_excl hgrp hc9' hc9) id
      | none =>
        rw [orElse_none, telCore9_iff]
        exact hc9

theorem telAfterP_head {t : Chars} {g e : Nat} (h : telAfterP t g e) :
    ∃ c, t.get? g = some c ∧ (isDigitA c = true ∨ c = '(') := by
  rcases h with ⟨m, ⟨m0, m2, hopt0, hdig, -, -, -⟩, -⟩ | hn
  · rcases hopt0 with rfl | ⟨hpar, -⟩
    · obtain ⟨c, hc, hcd⟩ := allCls_at hdig (le_refl _) (by omega)
      exact ⟨c, hc, Or.inl hcd⟩
    · exact ⟨'(', hpar, Or.inr rfl⟩
  · obtain ⟨c, hc, hcd⟩ := telCore9P_digit hn
    exact ⟨c, hc, Or.inl hcd⟩

theorem telAfterP_ge {t : Chars} {g e : Nat} (h : telAfterP t g e) : g ≤ e := by
  rcases h with ⟨m, hgrp, hc9⟩ | hc9
  · have h1 := telGroupP_ge hgrp
    have h2 := telCore9P_ge hc9
    omega
  · have := telCore9P_ge hc9
    omega

theorem telAfterP_le_length {t : Chars} {g e : Nat} (h : telAfterP t g e) :
    e ≤ t.length := by
  rcases h with ⟨m, -, hc9⟩ | hc9 <;> exact telCore9P_le_length hc9

/-- The operational phone matcher agrees with the declarative pattern. -/
theorem tel_match_iff (t : Chars) (p e : Nat) :
    telMatch t p = some e ↔ accepts telRE t p e = true := by
  constructor
  · intro h
    unfold telMatch at h
    by_cases hb : atB t p
    swap
    · rw [if_neg hb] at h; cases h
    rw [if_pos hb] at h
    unfold telRE
    rw [accepts_seq_iff]
    cases hl : litCI ['t', 'e', 'l', 'e', 'f', 'o', 'n', 'e'] t p with
    | none =>
      rw [hl] at h
      have ha := (telAfterHead_iff t p e).mp h
      refine ⟨p, le_rfl, telAfterP_ge ha, (accepts_bnd_iff t p p).mpr ⟨rfl, hb⟩, ?_⟩
      rw [accepts_seq_iff]
      exact ⟨p, le_rfl, telAfterP_ge ha, (accepts_opt_iff _ t p p).mpr (Or.inl rfl),
        (accepts_afterRE t p e).mpr ha⟩
    | some q =>
      rw [hl] at h
      dsimp only at h
      have hq : q = p + 8 := litCI_length _ t p q hl
      cases hcs : telAfterHead t (starEnd isSpaceA t q) with
      | some e1 =>
        rw [hcs, orElse_some] at h
        cases h
        have ha := (telAfterHead_iff t _ e).mp hcs
        have hse := starEnd_ge isSpaceA t q
        have hee := telAfterP_ge ha
        refine ⟨p, le_rfl, by omega, (accepts_bnd_iff t p p).mpr ⟨rfl, hb⟩, ?_⟩
        rw [accepts_seq_iff]
        refine ⟨starEnd isSpaceA t q, by omega, by omega, ?_,
          (accepts_afterRE t _ e).mpr ha⟩
        rw [accepts_opt_iff]
        right
        rw [accepts_seq_iff]
        refine ⟨q, by omega, by omega, (accepts_litci_iff _ t p q).mpr hl, ?_⟩
        rw [accepts_star_iff]
        exact ⟨hse, starEnd_all _ t q⟩
      | none =>
        rw [hcs, orElse_none] at h
        have ha := (telAfterHead_iff t p e).mp h
        obtain ⟨c, hcg, hcd⟩ := telAfterP_head ha
        obtain ⟨d, hd, hci⟩ := litCI_head hl
        rw [hcg] at hd
        cases hd
        rcases hcd with hcd | rfl
        · have := ciEq_not_digit 't' hcd (by decide)
          rw [this] at hci
          cases hci
        · exact absurd hci (by decide)
  · intro h
    unfold telRE at h
    rw [accepts_seq_iff] at h
    obtain ⟨m0, -, -, hbnd, hrest⟩ := h
    rw [accepts_bnd_iff] at hbnd
    obtain ⟨rfl, hb⟩ := hbnd
    rw [accepts_seq_iff] at hrest
    obtain ⟨m1, hpm1, hm1e, hopt, hafter⟩ := hrest
    have ha := (accepts_afterRE t m1 e).mp hafter
    unfold telMatch
    rw [if_pos hb]
    rw [accepts_opt_iff] at hopt
    rcases hopt with rfl | hseq
    · obtain ⟨c, hcg, hcd⟩ := telAfterP_head ha
      cases hl : litCI ['t', 'e', 'l', 'e', 'f', 'o', 'n', 'e'] t m1 with
      | none => exact (telAfterHead_iff t m1 e).mpr ha
      | some q =>
        obtain ⟨d, hd, hci⟩ := litCI_head hl
        rw [hcg] at hd
        cases hd
        rcases hcd with hcd | rfl
        · have := ciEq_not_digit 't' hcd (by decide)
          rw [this] at hci
          cases hci
        · exact absurd hci (by decide)
    · rw [accepts_seq_iff] at hseq
      obtain ⟨q, -, hqm1, hlit, hstar⟩ := hseq
      rw [accepts_litci_iff] at hlit
      rw [accepts_star_iff] at hstar
      rw [hlit]
      dsimp only
      have hme : m1 = starEnd isSpaceA t q := by
        have hle := starEnd_max hstar.2
        by_contra hne
        have hlt : m1 < starEnd isSpaceA t q := by omega
        obtain ⟨c, hcg, hcsp⟩ := allCls_at (starEnd_all isSpaceA t q) hstar.1 hlt
        obtain ⟨c', hcg', hcd⟩ := telAfterP_head ha
        rw [hcg] at hcg'
        cases hcg'
        rcases hcd with hcd | rfl
        · have := digit_not_space hcd
          rw [this] at hcsp
          cases hcsp
        · exact absurd hcsp (by decide)
      rw [← hme, (telAfterHead_iff t m1 e).mpr ha, orElse_some]

theorem accepts_telRE_after {t : Chars} {p e : Nat}
    (h : accepts telRE t p e = true) : ∃ m1, telAfterP t m1 e := by
  unfold telRE at h
  rw [accepts_seq_iff] at h
  obtain ⟨m0, -, -, -, hrest⟩ := h
  rw [accepts_seq_iff] at hrest
  obtain ⟨m1, -, -, -, hafter⟩ := hrest
  exact ⟨m1, (accepts_afterRE t m1 e).mp hafter⟩

/-- The Python phone matcher is the leftmost-longest matcher of `telRE`. -/
theorem tel_eq_canon (t : Chars) (p : Nat) :
    telMatch t p = canonMatcher telRE t p := by
  unfold canonMatcher
  cases hm : telMatch t p with
  | none =>
    symm
    apply bestEndAux_none
    intro e ha
    have hc := (tel_match_iff t p e).mpr ha
    rw [hm] at hc
    cases hc
  | some e =>
    symm
    have ha := (tel_match_iff t p e).mp hm
    apply bestEndAux_some
    · exact ha
    · exact accepts_ge _ _ _ _ ha
    · obtain ⟨m1, hcp⟩ := accepts_telRE_after ha
      have h1 := telAfterP_le_length hcp
      have h2 := accepts_ge _ _ _ _ ha
      omega
    · intro e' ha'
      have hc := (tel_match_iff t p e').mpr ha'
      rw [hm] at hc
      exact le_of_eq (Option.some.inj hc).symm

/-! ### The EMAIL rule: operational and declarative forms agree -/

/-- Explicit form of the email tail `\w{2,4}\b` at `q` ending at `e`. -/
def tailP (t : Chars) (q e : Nat) : Prop :=
  q + 2 ≤ e ∧ e ≤ q + 4 ∧ allCls isWordA t q e = true ∧ atB t e = true

theorem atB_succ_word {t : Chars} {m : Nat} (hw : isWordAt t m = true)
    (hb : atB t (m + 1) = true) : isWordAt t (m + 1) = false := by
  have hb' : (isWordAt t (m + 1) != isWordAt t m) = true := hb
  rw [hw] at hb'
  cases hx : isWordAt t (m + 1)
  · rfl
  · rw [hx] at hb'
    cases hb'

theorem isWordAt_of_cls {t : Chars} {q : Nat} {c : Char} (hc : t.get? q = some c)
    (hw : isWordA c = true) : isWordAt t q = true := by
  unfold isWordAt
  rw [hc]
  exact hw

theorem w24k_iff (t : Chars) (q k e : Nat) :
    w24.w24k t q k = some e ↔
      e = q + k ∧ allCls isWordA t q (q + k) = true ∧ atB t (q + k) = true := by
  unfold w24.w24k
  simp only [Option.bind_eq_some, clsRep_iff]
  constructor
  · rintro ⟨e1, ⟨rfl, hall⟩, hif⟩
    by_cases hb : atB t (q + k) = true
    · rw [if_pos hb] at hif
      cases hif
      exact ⟨rfl, hall, hb⟩
    · rw [if_neg hb] at hif
      cases hif
  · rintro ⟨rfl, hall, hb⟩
    exact ⟨q + k, ⟨rfl, hall⟩, by rw [if_pos hb]⟩

/-- The end of a `\w{2,4}\b` tail is unique, so the greedy order 4, 3, 2 of
the engine finds exactly it: the boundary after ≥ 2 word characters forces
a non-word position, which kills every longer repetition count. -/
theorem w24_iff (t : Chars) (q e : Nat) : w24 t q = some e ↔ tailP t q e := by
  constructor
  · intro h
    unfold w24 at h
    cases h4 : w24.w24k t q 4 with
    | some e1 =>
      rw [h4, orElse_some] at h
      cases h
      obtain ⟨rfl, hall, hb⟩ := (w24k_iff t q 4 e).mp h4
      exact ⟨by omega, by omega, hall, hb⟩
    | none =>
      rw [h4, orElse_none] at h
      cases h3 : w24.w24k t q 3 with
      | some e1 =>
        rw [h3, orElse_some] at h
        cases h
        obtain ⟨rfl, hall, hb⟩ := (w24k_iff t q 3 e).mp h3
        exact ⟨by omega, by omega, hall, hb⟩
      | none =>
        rw [h3, orElse_none] at h
        obtain ⟨rfl, hall, hb⟩ := (w24k_iff t q 2 e).mp h
        exact ⟨by omega, by omega, hall, hb⟩
  · rintro ⟨h2, h4, hall, hb⟩
    obtain ⟨m, rfl⟩ : ∃ m, e = m + 1 := ⟨e - 1, by omega⟩
    have hwm : isWordAt t m = true := by
      obtain ⟨c, hc, hw⟩ := @allCls_at isWordA t q (m + 1) m hall (by omega) (by omega)
      exact isWordAt_of_cls hc hw
    have hnw : isWordAt t (m + 1) = false := atB_succ_word hwm hb
    have hkill : ∀ k, m + 1 < q + k → w24.w24k t q k = none := by
      intro k hk
      cases hkk : w24.w24k t q k with
      | none => rfl
      | some e1 =>
        obtain ⟨-, hall', -⟩ := (w24k_iff t q k e1).mp hkk
        obtain ⟨c, hc, hw⟩ := @allCls_at isWordA t q (q + k) (m + 1) hall' (by omega) hk
        rw [isWordAt_of_cls hc hw] at hnw
        cases hnw
    unfold w24
    rcases (by omega : m + 1 = q + 2 ∨ m + 1 = q + 3 ∨ m + 1 = q + 4) with he | he | he
    · rw [hkill 4 (by omega), orElse_none, hkill 3 (by omega), orElse_none]
      rw [(w24k_iff t q 2 (m + 1)).mpr ⟨he, by rw [← he]; exact hall, by rw [← he]; exact hb⟩]
    · rw [hkill 4 (by omega), orElse_none]
      rw [(w24k_iff t q 3 (m + 1)).mpr ⟨he, by rw [← he]; exact hall, by rw [← he]; exact hb⟩,
        orElse_some]
    · rw [(w24k_iff t q 4 (m + 1)).mpr ⟨he, by rw [← he]; exact hall, by rw [← he]; exact hb⟩,
        orElse_some]

theorem tailP_unique {t : Chars} {q e e' : Nat} (h : tailP t q e)
    (h' : tailP t q e') : e = e' := by
  have h1 := (w24_iff t q e).mpr h
  have h2 := (w24_iff t q e').mpr h'
  rw [h1] at h2
  exact Option.some.inj h2

theorem tailP_le_length {t : Chars} {q e : Nat} (h : tailP t q e) : e ≤ t.length := by
  obtain ⟨h1, -, hall, -⟩ := h
  obtain ⟨c, hc, -⟩ := @allCls_at isWordA t q e (e - 1) hall (by omega) (by omega)
  have := (List.get?_eq_some.mp hc).1
  omega

/-- Explicit form of one domain alternative of the email rule: the greedy
`[\w\.-]+` run is cut after `l` characters, the next character is the
literal dot, and the `\w{2,4}\b` tail follows. -/
def domTailP (t : Chars) (ds l e : Nat) : Prop :=
  1 ≤ l ∧ t.get? (ds + l) = some '.' ∧ tailP t (ds + l + 1) e

theorem emailTry_sound {t : Chars} {ds : Nat} : ∀ {L e : Nat},
    emailTry t ds L = some e → ∃ l, l ≤ L ∧ domTailP t ds l e := by
  intro L
  induction L with
  | zero => intro e h; cases h
  | succ L ih =>
    intro e h
    simp only [emailTry] at h
    by_cases hd : (t.get? (ds + L + 1) == some '.') = true
    · rw [if_pos hd] at h
      cases hw : w24 t (ds + L + 2) with
      | some e1 =>
        rw [hw, orElse_some] at h
        cases h
        exact ⟨L + 1, le_rfl, by omega,
          by rw [show ds + (L + 1) = ds + L + 1 by omega]; exact beq_iff_eq.mp hd,
          by rw [show ds + (L + 1) + 1 = ds + L + 2 by omega]; exact (w24_iff _ _ _).mp hw⟩
      | none =>
        rw [hw, orElse_none] at h
        obtain ⟨l, hl, hdt⟩ := ih h
        exact ⟨l, by omega, hdt⟩
    · rw [if_neg hd, orElse_none] at h
      obtain ⟨l, hl, hdt⟩ := ih h
      exact ⟨l, by omega, hdt⟩

theorem emailTry_complete {t : Chars} {ds : Nat} : ∀ {L l e : Nat}, l ≤ L →
    domTailP t ds l e → ∃ e1, emailTry t ds L = some e1 := by
  intro L
  induction L with
  | zero =>
    intro l e hl hdt
    exact absurd hdt.1 (by omega)
  | succ L ih =>
    intro l e hl hdt
    simp only [emailTry]
    by_cases hd : (t.get? (ds + L + 1) == some '.') = true
    · rw [if_pos hd]
      cases hw : w24 t (ds + L + 2) with
      | some e1 => exact ⟨e1, by rw [orElse_some]⟩
      | none =>
        rw [orElse_none]
        rcases Nat.lt_or_ge l (L + 1) with hll | hll
        · exact ih (by omega) hdt
        · obtain ⟨-, -, htl⟩ := hdt
          have hleq : l = L + 1 := by omega
          rw [hleq, show ds + (L + 1) + 1 = ds + L + 2 by omega] at htl
          rw [(w24_iff _ _ _).mpr htl] at hw
          cases hw
    · rw [if_neg hd, orElse_none]
      rcases Nat.lt_or_ge l (L + 1) with hll | hll
      · exact ih (by omega) hdt
      · obtain ⟨-, hdot, -⟩ := hdt
        have hleq : l = L + 1 := by omega
        rw [hleq, show ds + (L + 1) = ds + L + 1 by omega] at hdot
        rw [hdot] at hd
        simp at hd

/-- A later viable dot always wins: the tail after an earlier dot is cut
off by the later dot character (a non-word character), so its end stays at
least 3 short of the later alternative's end. -/
theorem emailTry_max {t : Chars} {ds : Nat} : ∀ {L e : Nat},
    emailTry t ds L = some e → ∀ l' e', l' ≤ L → domTailP t ds l' e' → e' ≤ e := by
  intro L
  induction L with
  | zero => intro e h; cases h
  | succ L ih =>
    intro e h l' e' hl' hdt
    simp only [emailTry] at h
    by_cases hd : (t.get? (ds + L + 1) == some '.') = true
    · rw [if_pos hd] at h
      cases hw : w24 t (ds + L + 2) with
      | some e1 =>
        rw [hw, orElse_some] at h
        cases h
        obtain ⟨hl1, hdot, htl⟩ := hdt
        rcases Nat.lt_or_ge l' (L + 1) with hll | hll
        · -- earlier dot: its tail cannot reach past the later dot
          have htl2 := (w24_iff _ _ _).mp hw
          obtain ⟨-, -, hall, -⟩ := htl
          have hcut : e' ≤ ds + L + 1 := by
            by_contra hgt
            obtain ⟨c, hc, hcw⟩ := @allCls_at isWordA t (ds + l' + 1) e' (ds + L + 1)
              hall (by omega) (by omega)
            rw [beq_iff_eq.mp hd] at hc
            cases hc
            exact absurd hcw (by decide)
          have := htl2.1
          omega
        · have hleq : l' = L + 1 := by omega
          rw [hleq, show ds + (L + 1) + 1 = ds + L + 2 by omega] at htl
          exact le_of_eq (tailP_unique htl ((w24_iff _ _ _).mp hw))
      | none =>
        rw [hw, orElse_none] at h
        rcases Nat.lt_or_ge l' (L + 1) with hll | hll
        · exact ih h l' e' (by omega) hdt
        · obtain ⟨-, -, htl⟩ := hdt
          have hleq : l' = L + 1 := by omega
          rw [hleq, show ds + (L + 1) + 1 = ds + L + 2 by omega] at htl
          rw [(w24_iff _ _ _).mpr htl] at hw
          cases hw
    · rw [if_neg hd, orElse_none] at h
      rcases Nat.lt_or_ge l' (L + 1) with hll | hll
      · exact ih h l' e' (by omega) hdt
      · obtain ⟨-, hdot, -⟩ := hdt
        have hleq : l' = L + 1 := by omega
        rw [hleq, show ds + (L + 1) = ds + L + 1 by omega] at hdot
        rw [hdot] at hd
        simp at hd

/-- Explicit form of a whole email match `\b[\w\.-]+@[\w\.-]+\.\w{2,4}\b`
from `p` to `e`. -/
def emailP (t : Chars) (p e : Nat) : Prop :=
  atB t p = true ∧ ∃ a d, p < a ∧ allCls emailCls t p a = true ∧
    t.get? a = some '@' ∧ a + 1 < d ∧ allCls emailCls t (a + 1) d = true ∧
    t.get? d = some '.' ∧ tailP t (d + 1) e

theorem accepts_emailRE (t : Chars) (p e : Nat) :
    accepts emailRE t p e = true ↔ emailP t p e := by
  unfold emailRE emailP
  rw [accepts_seq_iff]
  constructor
  · rintro ⟨m0, -, -, hbnd, hrest⟩
    obtain ⟨hm0, hb⟩ := (accepts_bnd_iff t p m0).mp hbnd
    rw [hm0] at hrest
    rw [accepts_seq_iff] at hrest
    obtain ⟨a, -, -, hloc, hrest⟩ := hrest
    obtain ⟨hpa, hlall⟩ := (accepts_plus_iff _ t p a).mp hloc
    rw [accepts_seq_iff] at hrest
    obtain ⟨m2, -, -, hat, hrest⟩ := hrest
    obtain ⟨rfl, hat'⟩ := (accepts_clslit_iff '@' t a m2).mp hat
    rw [accepts_seq_iff] at hrest
    obtain ⟨d, -, -, hdom, hrest⟩ := hrest
    obtain ⟨had, hdall⟩ := (accepts_plus_iff _ t (a + 1) d).mp hdom
    rw [accepts_seq_iff] at hrest
    obtain ⟨m4, -, -, hdot, hrest⟩ := hrest
    obtain ⟨rfl, hdot'⟩ := (accepts_clslit_iff '.' t d m4).mp hdot
    rw [accepts_seq_iff] at hrest
    obtain ⟨m5, -, -, hrep, hbnd2⟩ := hrest
    obtain ⟨hr1, hr2, hrall⟩ := (accepts_rep_iff isWordA 2 4 t (d + 1) m5).mp hrep
    obtain ⟨rfl, hbe⟩ := (accepts_bnd_iff t m5 e).mp hbnd2
    exact ⟨hb, a, d, hpa, hlall, hat', had, hdall, hdot', by omega, by omega, hrall, hbe⟩
  · rintro ⟨hb, a, d, hpa, hlall, hat', had, hdall, hdot', ht1, ht2, hrall, hbe⟩
    refine ⟨p, le_rfl, by omega, (accepts_bnd_iff t p p).mpr ⟨rfl, hb⟩, ?_⟩
    rw [accepts_seq_iff]
    refine ⟨a, by omega, by omega, (accepts_plus_iff _ t p a).mpr ⟨hpa, hlall⟩, ?_⟩
    rw [accepts_seq_iff]
    refine ⟨a + 1, by omega, by omega, (accepts_clslit_iff '@' t a (a + 1)).mpr ⟨rfl, hat'⟩, ?_⟩
    rw [accepts_seq_iff]
    refine ⟨d, by omega, by omega, (accepts_plus_iff _ t (a + 1) d).mpr ⟨had, hdall⟩, ?_⟩
    rw [accepts_seq_iff]
    refine ⟨d + 1, by omega, by omega,
      (accepts_clslit_iff '.' t d (d + 1)).mpr ⟨rfl, hdot'⟩, ?_⟩
    rw [accepts_seq_iff]
    refine ⟨e, by omega, by omega,
      (accepts_rep_iff isWordA 2 4 t (d + 1) e).mpr ⟨by omega, by omega, hrall⟩,
      (accepts_bnd_iff t e e).mpr ⟨rfl, hbe⟩⟩

theorem starEnd_eq_of_stop {f : Char → Bool} {t : Chars} {p a : Nat} {c : Char}
    (hall : allCls f t p a = true) (hpa : p ≤ a) (hc : t.get? a = some c)
    (hf : f c = false) : starEnd f t p = a := by
  have h1 := starEnd_max hall
  by_contra hne
  have hlt : a < starEnd f t p := by omega
  obtain ⟨c1, hc1, hf1⟩ := allCls_at (starEnd_all f t p) hpa hlt
  rw [hc] at hc1
  cases hc1
  rw [hf] at hf1
  cases hf1

/-- In any email match the local part ends exactly at the maximal
`[\w\.-]` run from `p`, because the `@` that follows it is not in the
class; the engine's maximal munch is forced. -/
theorem emailP_at_run {t : Chars} {p e : Nat} (h : emailP t p e) :
    ∃ a d, starEnd emailCls t p = a ∧ p < a ∧ t.get? a = some '@' ∧
      a + 1 < d ∧ allCls emailCls t (a + 1) d = true ∧
      t.get? d = some '.' ∧ tailP t (d + 1) e := by
  obtain ⟨-, a, d, hpa, hlall, hat', had, hdall, hdot', htl⟩ := h
  exact ⟨a, d, starEnd_eq_of_stop hlall (by omega) hat' (by decide),
    hpa, hat', had, hdall, hdot', htl⟩

/-- The dot of any email match lies inside the maximal `[\w\.-]` run after
the `@` (the dot itself is a class character), so its greedy cut length is
within the fuel of the engine's shrink loop. -/
theorem emailP_dom_fuel {t : Chars} {a d : Nat} (had : a + 1 < d)
    (hdall : allCls emailCls t (a + 1) d = true) (hdot' : t.get? d = some '.') :
    d - (a + 1) ≤ runLen emailCls (t.drop (a + 1 + 1 - 1)) := by
  have hext : allCls emailCls t (a + 1) (d + 1) = true := by
    rw [allCls_iff]
    intro q hq1 hq2
    rcases Nat.lt_or_ge q d with hqd | hqd
    · exact allCls_at hdall hq1 hqd
    · have : q = d := by omega
      subst this
      exact ⟨'.', hdot', by decide⟩
  have := starEnd_max hext
  unfold starEnd at this
  have heq : a + 1 + 1 - 1 = a + 1 := by omega
  rw [heq]
  omega

theorem email_sound {t : Chars} {p e : Nat} (h : emailMatch t p = some e) :
    emailP t p e := by
  unfold emailMatch at h
  by_cases hb : atB t p = true
  swap
  · rw [if_neg hb] at h
    cases h
  rw [if_pos hb] at h
  by_cases h0 : (runLen emailCls (t.drop p) == 0) = true
  · rw [if_pos h0] at h
    cases h
  rw [if_neg h0] at h
  by_cases hat : (t.get? (starEnd emailCls t p) == some '@') = true
  swap
  · rw [if_neg hat] at h
    cases h
  rw [if_pos hat] at h
  obtain ⟨l, hlL, hl1, hdot, htl⟩ := emailTry_sound h
  have hr0 : 0 < runLen emailCls (t.drop p) := by
    rcases Nat.eq_zero_or_pos (runLen emailCls (t.drop p)) with hz | hpos
    · rw [hz] at h0
      exact absurd rfl h0
    · exact hpos
  have hse : starEnd emailCls t p = p + runLen emailCls (t.drop p) := rfl
  refine ⟨hb, starEnd emailCls t p, starEnd emailCls t p + 1 + l, by omega,
    starEnd_all emailCls t p, beq_iff_eq.mp hat, by omega, ?_, hdot, htl⟩
  have hsub := starEnd_all emailCls t (starEnd emailCls t p + 1)
  have hse2 : starEnd emailCls t (starEnd emailCls t p + 1) =
      starEnd emailCls t p + 1 + runLen emailCls (t.drop (starEnd emailCls t p + 1)) := rfl
  exact allCls_sub hsub le_rfl (by omega)

theorem email_complete {t : Chars} {p e : Nat} (h : emailP t p e) :
    ∃ e1, emailMatch t p = some e1 := by
  have hb := h.1
  obtain ⟨a, d, hse, hpa, hat', had, hdall, hdot', htl⟩ := emailP_at_run h
  unfold emailMatch
  rw [if_pos hb]
  have hr0 : ¬((runLen emailCls (t.drop p) == 0) = true) := by
    intro hz
    have hz' : runLen emailCls (t.drop p) = 0 := beq_iff_eq.mp hz
    have : starEnd emailCls t p = p + runLen emailCls (t.drop p) := rfl
    omega
  rw [if_neg hr0, if_pos (by rw [hse, hat']; exact beq_iff_eq.mpr rfl)]
  have hfuel := emailP_dom_fuel had hdall hdot'
  rw [show a + 1 + 1 - 1 = a + 1 by omega] at hfuel
  rw [hse]
  exact emailTry_complete hfuel
    ⟨by omega, by rw [show a + 1 + (d - (a + 1)) = d by omega]; exact hdot',
      by rw [show a + 1 + (d - (a + 1)) + 1 = d + 1 by omega]; exact htl⟩

theorem email_max {t : Chars} {p e e' : Nat} (h : emailMatch t p = some e)
    (h' : emailP t p e') : e' ≤ e := by
  obtain ⟨a, d, hse, hpa, hat', had, hdall, hdot', htl⟩ := emailP_at_run h'
  unfold emailMatch at h
  by_cases hb : atB t p = true
  swap
  · rw [if_neg hb] at h
    cases h
  rw [if_pos hb] at h
  by_cases h0 : (runLen emailCls (t.drop p) == 0) = true
  · rw [if_pos h0] at h
    cases h
  rw [if_neg h0] at h
  by_cases hat : (t.get? (starEnd emailCls t p) == some '@') = true
  swap
  · rw [if_neg hat] at h
    cases h
  rw [if_pos hat] at h
  have hfuel := emailP_dom_fuel had hdall hdot'
  rw [show a + 1 + 1 - 1 = a + 1 by omega] at hfuel
  rw [hse] at h
  exact emailTry_max h (d - (a + 1)) e' hfuel
    ⟨by omega, by rw [show a + 1 + (d - (a + 1)) = d by omega]; exact hdot',
      by rw [show a + 1 + (d - (a + 1)) + 1 = d + 1 by omega]; exact htl⟩

theorem emailP_le_length {t : Chars} {p e : Nat} (h : emailP t p e) :
    e ≤ t.length := by
  obtain ⟨-, a, d, -, -, -, -, -, -, htl⟩ := h
  exact tailP_le_length htl

/-- The Python email matcher is the leftmost-longest matcher of `emailRE`. -/
theorem email_eq_canon (t : Chars) (p : Nat) :
    emailMatch t p = canonMatcher emailRE t p := by
  unfold canonMatcher
  cases hm : emailMatch t p with
  | none =>
    symm
    apply bestEndAux_none
    intro e ha
    obtain ⟨e1, h1⟩ := email_complete ((accepts_emailRE t p e).mp ha)
    rw [hm] at h1
    cases h1
  | some e =>
    symm
    have hp := email_sound hm
    have ha := (accepts_emailRE t p e).mpr hp
    apply bestEndAux_some
    · exact ha
    · exact accepts_ge _ _ _ _ ha
    · have h1 := emailP_le_length hp
      have h2 := accepts_ge _ _ _ _ ha
      omega
    · intro e' ha'
      exact email_max hm ((accepts_emailRE t p e').mp ha')

/-! ### `findIter` collects exactly the non-overlapping leftmost matches -/

/-- Declarative specification of the `re.finditer` scan from resume
position `p`: the emitted pairs are the successive leftmost matches, every
skipped position (up to the end of the text) has no match, and after each
match the scan resumes at its end — one past it for an empty match. -/
def scanSpec (m : Chars → Nat → Option Nat) (t : Chars) : List (Nat × Nat) → Nat → Prop
  | [], p => ∀ q, p ≤ q → q ≤ t.length → m t q = none
  | (s, e) :: rest, p =>
    p ≤ s ∧ (∀ q, p ≤ q → q < s → m t q = none) ∧ m t s = some e ∧
      scanSpec m t rest (max e (s + 1))

theorem findFromAux_none (m : Chars → Nat → Option Nat) (t : Chars) :
    ∀ (fuel p : Nat), findFromAux m t p fuel = none →
      ∀ q, p ≤ q → q < p + fuel → m t q = none := by
  intro fuel
  induction fuel with
  | zero => intro p h q h1 h2; omega
  | succ fuel ih =>
    intro p h q h1 h2
    simp only [findFromAux] at h
    cases hm : m t p with
    | some e => rw [hm] at h; cases h
    | none =>
      rw [hm] at h
      rcases Nat.eq_or_lt_of_le h1 with rfl | hq
      · exact hm
      · exact ih (p + 1) h q (by omega) (by omega)

theorem findFromAux_min (m : Chars → Nat → Option Nat) (t : Chars) :
    ∀ (fuel p s e : Nat), findFromAux m t p fuel = some (s, e) →
      ∀ q, p ≤ q → q < s → m t q = none := by
  intro fuel
  induction fuel with
  | zero => intro p s e h; cases h
  | succ fuel ih =>
    intro p s e h q h1 h2
    simp only [findFromAux] at h
    cases hm : m t p with
    | some e1 =>
      rw [hm] at h
      obtain ⟨rfl, -⟩ : p = s ∧ e1 = e := by constructor <;> (cases h; rfl)
      omega
    | none =>
      rw [hm] at h
      rcases Nat.eq_or_lt_of_le h1 with rfl | hq
      · exact hm
      · exact ih (p + 1) s e h q (by omega) h2

theorem findIterAux_scanSpec (m : Chars → Nat → Option Nat) (t : Chars) :
    ∀ (fuel p : Nat), t.length + 1 ≤ p + fuel →
      scanSpec m t (findIterAux m t p fuel) p := by
  intro fuel
  induction fuel with
  | zero =>
    intro p hp
    simp only [findIterAux, scanSpec]
    intro q h1 h2
    omega
  | succ fuel ih =>
    intro p hp
    simp only [findIterAux]
    cases hf : findFromAux m t p (t.length + 1 - p) with
    | none =>
      simp only [scanSpec]
      intro q h1 h2
      exact findFromAux_none m t _ p hf q h1 (by omega)
    | some se =>
      obtain ⟨s, e⟩ := se
      have hfacts := findFromAux_facts m t _ p s e hf
      refine ⟨hfacts.1, findFromAux_min m t _ p s e hf, hfacts.2, ?_⟩
      exact ih (max e (s + 1)) (by omega)

theorem findIter_scanSpec (m : Chars → Nat → Option Nat) (t : Chars) :
    scanSpec m t (findIter m t) 0 :=
  findIterAux_scanSpec m t (t.length + 1) 0 (by omega)

theorem findIterAux_nonoverlap (m : Chars → Nat → Option Nat) (t : Chars) :
    ∀ (fuel p : Nat), (findIterAux m t p fuel).Pairwise (fun x y => x.2 ≤ y.1) := by
  intro fuel
  induction fuel with
  | zero => intro p; simp [findIterAux]
  | succ fuel ih =>
    intro p
    simp only [findIterAux]
    cases hf : findFromAux m t p (t.length + 1 - p) with
    | none => simp
    | some se =>
      obtain ⟨s, e⟩ := se
      refine List.pairwise_cons.mpr ⟨?_, ih (max e (s + 1))⟩
      intro y hy
      have := findIterAux_mem_ge m t fuel (max e (s + 1)) y hy
      simp only
      omega

theorem findIter_nonoverlap (m : Chars → Nat → Option Nat) (t : Chars) :
    (findIter m t).Pairwise (fun x y => x.2 ≤ y.1) :=
  findIterAux_nonoverlap m t _ 0

theorem findIterAux_sound (m : Chars → Nat → Option Nat) (t : Chars) :
    ∀ (fuel p : Nat), ∀ x ∈ findIterAux m t p fuel, m t x.1 = some x.2 := by
  intro fuel
  induction fuel with
  | zero => intro p x hx; exact absurd hx (by simp [findIterAux])
  | succ fuel ih =>
    intro p x hx
    simp only [findIterAux] at hx
    cases hf : findFromAux m t p (t.length + 1 - p) with
    | none => rw [hf] at hx; exact absurd hx (by simp)
    | some se =>
      obtain ⟨s, e⟩ := se
      rw [hf] at hx
      rcases List.mem_cons.mp hx with rfl | hx
      · exact (findFromAux_facts m t _ p s e hf).2
      · exact ih (max e (s + 1)) x hx

theorem findIter_sound (m : Chars → Nat → Option Nat) (t : Chars) :
    ∀ x ∈ findIter m t, m t x.1 = some x.2 :=
  findIterAux_sound m t _ 0

/-! ### `re.IGNORECASE`: lowering the text changes no rule's matches

The four patterns' only cased parts are the literal heads, matched through
`ciEq`; every character class and every case-sensitive literal of the
patterns is unchanged by `Char.toLower`.  We prove that each matcher — and
hence each rule's full `finditer` scan — is invariant under lowering the
input text. -/

theorem chr_toNat_inj {c d : Char} (h : c.toNat = d.toNat) : c = d := by
  apply Char.ext
  apply UInt32.ext
  exact h

theorem chr_eq_nat_iff (c d : Char) : c = d ↔ c.toNat = d.toNat :=
  ⟨fun h => by rw [h], chr_toNat_inj⟩

theorem chr_beq_nat (c d : Char) : (c == d) = decide (c.toNat = d.toNat) := by
  rw [Bool.eq_iff_iff]
  simp only [beq_iff_eq, decide_eq_true_eq]
  exact chr_eq_nat_iff c d

theorem chr_toNat_ofNat {n : Nat} (h : n.isValidChar) : (Char.ofNat n).toNat = n := by
  unfold Char.ofNat
  rw [dif_pos h]
  unfold Char.ofNatAux
  show ({ toBitVec := _ } : UInt32).toNat = n
  simp [UInt32.toNat]

theorem toLower_toNat (c : Char) :
    c.toLower.toNat = if 65 ≤ c.toNat ∧ c.toNat ≤ 90 then c.toNat + 32 else c.toNat := by
  unfold Char.toLower
  by_cases h : 65 ≤ c.toNat ∧ c.toNat ≤ 90
  · rw [if_pos, if_pos h]
    · exact chr_toNat_ofNat (Or.inl (by omega))
    · exact ⟨h.1, h.2⟩
  · rw [if_neg, if_neg h]
    exact fun hk => h ⟨hk.1, hk.2⟩

theorem isDigit_nat (c : Char) : c.isDigit = decide (48 ≤ c.toNat ∧ c.toNat ≤ 57) := by
  rw [Bool.eq_iff_iff]
  show (decide (c.val ≥ 48) && decide (c.val ≤ 57)) = true ↔ _
  simp only [Bool.and_eq_true, decide_eq_true_eq]
  exact Iff.rfl

theorem isUpper_nat (c : Char) : c.isUpper = decide (65 ≤ c.toNat ∧ c.toNat ≤ 90) := by
  rw [Bool.eq_iff_iff]
  show (decide (c.val ≥ 65) && decide (c.val ≤ 90)) = true ↔ _
  simp only [Bool.and_eq_true, decide_eq_true_eq]
  exact Iff.rfl

theorem isLower_nat (c : Char) : c.isLower = decide (97 ≤ c.toNat ∧ c.toNat ≤ 122) := by
  rw [Bool.eq_iff_iff]
  show (decide (c.val ≥ 97) && decide (c.val ≤ 122)) = true ↔ _
  simp only [Bool.and_eq_true, decide_eq_true_eq]
  exact Iff.rfl

theorem isWhitespace_nat (c : Char) :
    c.isWhitespace =
      decide (c.toNat = 32 ∨ c.toNat = 9 ∨ c.toNat = 13 ∨ c.toNat = 10) := by
  rw [Bool.eq_iff_iff]
  show (decide (c = ' ') || decide (c = '\t') || decide (c = '\x0d') || decide (c = '\n')) =
    true ↔ _
  simp only [Bool.or_eq_true, decide_eq_true_eq, chr_eq_nat_iff]
  rw [show (' ' : Char).toNat = 32 from rfl, show ('\t' : Char).toNat = 9 from rfl,
    show ('\x0d' : Char).toNat = 13 from rfl, show ('\n' : Char).toNat = 10 from rfl]
  omega

theorem isWordA_lower (c : Char) : isWordA c.toLower = isWordA c := by
  unfold isWordA Char.isAlpha
  rw [isUpper_nat, isUpper_nat, isLower_nat, isLower_nat, isDigit_nat, isDigit_nat,
    chr_beq_nat, chr_beq_nat, toLower_toNat]
  by_cases hc : 65 ≤ c.toNat ∧ c.toNat ≤ 90
  · rw [if_pos hc, Bool.eq_iff_iff]
    simp only [Bool.or_eq_true, decide_eq_true_eq]
    omega
  · rw [if_neg hc]

theorem isDigitA_lower (c : Char) : isDigitA c.toLower = isDigitA c := by
  unfold isDigitA
  rw [isDigit_nat, isDigit_nat, toLower_toNat]
  by_cases hc : 65 ≤ c.toNat ∧ c.toNat ≤ 90
  · rw [if_pos hc, Bool.eq_iff_iff]
    simp only [decide_eq_true_eq]
    omega
  · rw [if_neg hc]

theorem isSpaceA_lower (c : Char) : isSpaceA c.toLower = isSpaceA c := by
  unfold isSpaceA
  rw [isWhitespace_nat, isWhitespace_nat, toLower_toNat]
  by_cases hc : 65 ≤ c.toNat ∧ c.toNat ≤ 90
  · rw [if_pos hc, Bool.eq_iff_iff]
    simp only [decide_eq_true_eq]
    omega
  · rw [if_neg hc]

theorem emailCls_lower (c : Char) : emailCls c.toLower = emailCls c := by
  unfold emailCls
  rw [isWordA_lower, chr_beq_nat, chr_beq_nat, chr_beq_nat, chr_beq_nat, toLower_toNat]
  by_cases hc : 65 ≤ c.toNat ∧ c.toNat ≤ 90
  · rw [if_pos hc, Bool.eq_iff_iff]
    simp only [Bool.or_eq_true, decide_eq_true_eq]
    rw [show ('.' : Char).toNat = 46 from rfl, show ('-' : Char).toNat = 45 from rfl]
    cases isWordA c <;> simp <;> omega
  · rw [if_neg hc]

theorem beq_lower_small {c0 : Char} (h : c0.toNat < 65) (d : Char) :
    (d.toLower == c0) = (d == c0) := by
  rw [chr_beq_nat, chr_beq_nat, toLower_toNat]
  by_cases hc : 65 ≤ d.toNat ∧ d.toNat ≤ 90
  · rw [if_pos hc, Bool.eq_iff_iff]
    simp only [decide_eq_true_eq]
    omega
  · rw [if_neg hc]

theorem toLower_idem (c : Char) : c.toLower.toLower = c.toLower := by
  apply chr_toNat_inj
  have h := toLower_toNat c
  by_cases hc : 65 ≤ c.toNat ∧ c.toNat ≤ 90
  · rw [if_pos hc] at h
    rw [toLower_toNat c.toLower, h, if_neg (by omega)]
  · rw [if_neg hc] at h
    rw [toLower_toNat c.toLower, h, if_neg hc]

theorem ciEq_lower (a d : Char) : ciEq a d.toLower = ciEq a d := by
  unfold ciEq
  rw [toLower_idem]

theorem get_lower (t : Chars) (i : Nat) :
    (t.map Char.toLower).get? i = (t.get? i).map Char.toLower :=
  List.get?_map Char.toLower t i

theorem getBeq_lower {c0 : Char} (h : c0.toNat < 65) (t : Chars) (p : Nat) :
    ((t.map Char.toLower).get? p == some c0) = (t.get? p == some c0) := by
  rw [get_lower]
  cases t.get? p with
  | none => rfl
  | some d =>
    show (d.toLower == c0) = (d == c0)
    exact beq_lower_small h d

theorem isWordAt_lower (t : Chars) (p : Nat) :
    isWordAt (t.map Char.toLower) p = isWordAt t p := by
  unfold isWordAt
  rw [get_lower]
  cases t.get? p with
  | none => rfl
  | some c => exact isWordA_lower c

theorem atB_lower (t : Chars) (p : Nat) : atB (t.map Char.toLower) p = atB t p := by
  cases p with
  | zero =>
    show (isWordAt (t.map Char.toLower) 0 != false) = (isWordAt t 0 != false)
    rw [isWordAt_lower]
  | succ q =>
    show (isWordAt (t.map Char.toLower) (q + 1) != isWordAt (t.map Char.toLower) q) =
      (isWordAt t (q + 1) != isWordAt t q)
    rw [isWordAt_lower, isWordAt_lower]

theorem clsRep_lower {f : Char → Bool} (hf : ∀ c, f c.toLower = f c) (t : Chars) :
    ∀ (n p : Nat), clsRep f (t.map Char.toLower) p n = clsRep f t p n := by
  intro n
  induction n with
  | zero => intro p; rfl
  | succ n ih =>
    intro p
    simp only [clsRep]
    rw [get_lower]
    cases t.get? p with
    | none => rfl
    | some c =>
      show (if f c.toLower then clsRep f (t.map Char.toLower) (p + 1) n else none) = _
      rw [hf c, ih (p + 1)]

theorem runLen_lower {f : Char → Bool} (hf : ∀ c, f c.toLower = f c) :
    ∀ l : Chars, runLen f (l.map Char.toLower) = runLen f l := by
  intro l
  induction l with
  | nil => rfl
  | cons c r ih =>
    show runLen f (c.toLower :: r.map Char.toLower) = _
    simp only [runLen]
    rw [hf c, ih]

theorem starEnd_lower {f : Char → Bool} (hf : ∀ c, f c.toLower = f c) (t : Chars) (p : Nat) :
    starEnd f (t.map Char.toLower) p = starEnd f t p := by
  unfold starEnd
  rw [← List.map_drop, runLen_lower hf]

theorem lit1_lower {c0 : Char} (h : c0.toNat < 65) (t : Chars) (p : Nat) :
    lit1 c0 (t.map Char.toLower) p = lit1 c0 t p := by
  unfold lit1
  rw [get_lower]
  cases t.get? p with
  | none => rfl
  | some d =>
    show (if d.toLower == c0 then some (p + 1) else none) = _
    rw [beq_lower_small h d]

theorem litCI_lower (s : Chars) (t : Chars) :
    ∀ p, litCI s (t.map Char.toLower) p = litCI s t p := by
  induction s with
  | nil => intro p; rfl
  | cons c s' ih =>
    intro p
    simp only [litCI]
    rw [get_lower]
    cases t.get? p with
    | none => rfl
    | some d =>
      show (if ciEq c d.toLower then litCI s' (t.map Char.toLower) (p + 1) else none) = _
      rw [ciEq_lower c d, ih (p + 1)]

theorem cpfCore_lower (t : Chars) (p : Nat) :
    cpfCore (t.map Char.toLower) p = cpfCore t p := by
  unfold cpfCore
  simp only [clsRep_lower isDigitA_lower, atB_lower,
    lit1_lower (by decide : ('.' : Char).toNat < 65),
    lit1_lower (by decide : ('-' : Char).toNat < 65)]

theorem cpfMatch_lower (t : Chars) (p : Nat) :
    cpfMatch (t.map Char.toLower) p = cpfMatch t p := by
  simp only [cpfMatch, atB_lower, litCI_lower, cpfCore_lower,
    starEnd_lower isSpaceA_lower]

theorem cnpjCore_lower (t : Chars) (p : Nat) :
    cnpjCore (t.map Char.toLower) p = cnpjCore t p := by
  unfold cnpjCore
  simp only [clsRep_lower isDigitA_lower, atB_lower,
    lit1_lower (by decide : ('.' : Char).toNat < 65),
    lit1_lower (by decide : ('/' : Char).toNat < 65),
    lit1_lower (by decide : ('-' : Char).toNat < 65)]

theorem cnpjMatch_lower (t : Chars) (p : Nat) :
    cnpjMatch (t.map Char.toLower) p = cnpjMatch t p := by
  simp only [cnpjMatch, atB_lower, litCI_lower, cnpjCore_lower,
    starEnd_lower isSpaceA_lower]

theorem telCore_lower (t : Chars) (p : Nat) :
    telCore (t.map Char.toLower) p = telCore t p := by
  unfold telCore
  simp only [clsRep_lower isDigitA_lower, atB_lower,
    lit1_lower (by decide : ('-' : Char).toNat < 65)]

theorem telCore9_lower (t : Chars) (p : Nat) :
    telCore9 (t.map Char.toLower) p = telCore9 t p := by
  unfold telCore9
  rw [get_lower]
  cases t.get? p with
  | none =>
    show telCore (t.map Char.toLower) p = telCore t p
    exact telCore_lower t p
  | some c =>
    show (if c.toLower == '9' then
        (telCore (t.map Char.toLower) (p + 1)).orElse fun _ => telCore (t.map Char.toLower) p
      else telCore (t.map Char.toLower) p) = _
    rw [beq_lower_small (by decide) c]
    simp only [telCore_lower]

theorem telGroup_lower (t : Chars) (p : Nat) :
    telGroup (t.map Char.toLower) p = telGroup t p := by
  simp only [telGroup, getBeq_lower (by decide : ('(' : Char).toNat < 65),
    getBeq_lower (by decide : (')' : Char).toNat < 65),
    clsRep_lower isDigitA_lower, starEnd_lower isSpaceA_lower, telCore9_lower]

theorem telAfterHead_lower (t : Chars) (p : Nat) :
    telAfterHead (t.map Char.toLower) p = telAfterHead t p := by
  simp only [telAfterHead, telGroup_lower, telCore9_lower]

theorem telMatch_lower (t : Chars) (p : Nat) :
    telMatch (t.map Char.toLower) p = telMatch t p := by
  simp only [telMatch, atB_lower, litCI_lower, telAfterHead_lower,
    starEnd_lower isSpaceA_lower]

theorem w24_lower (t : Chars) (q : Nat) : w24 (t.map Char.toLower) q = w24 t q := by
  have hk : ∀ k, w24.w24k (t.map Char.toLower) q k = w24.w24k t q k := by
    intro k
    unfold w24.w24k
    rw [clsRep_lower isWordA_lower]
    simp only [atB_lower]
  simp only [w24, hk]

theorem emailTry_lower (t : Chars) (ds : Nat) :
    ∀ L, emailTry (t.map Char.toLower) ds L = emailTry t ds L := by
  intro L
  induction L with
  | zero => rfl
  | succ L ih =>
    simp only [emailTry, getBeq_lower (by decide : ('.' : Char).toNat < 65),
      w24_lower, ih]

theorem emailMatch_lower (t : Chars) (p : Nat) :
    emailMatch (t.map Char.toLower) p = emailMatch t p := by
  simp only [emailMatch, atB_lower, starEnd_lower emailCls_lower,
    getBeq_lower (by decide : ('@' : Char).toNat < 65), emailTry_lower,
    ← List.map_drop, runLen_lower emailCls_lower]

/-! ### `findIter` congruence -/

theorem findFromAux_congr {m m' : Chars → Nat → Option Nat} {t t' : Chars}
    (hm : ∀ q, m t q = m' t' q) :
    ∀ (fuel p : Nat), findFromAux m t p fuel = findFromAux m' t' p fuel := by
  intro fuel
  induction fuel with
  | zero => intro p; rfl
  | succ fuel ih =>
    intro p
    simp only [findFromAux]
    rw [hm p]
    cases m' t' p with
    | some e => rfl
    | none => exact ih (p + 1)

theorem findIterAux_congr {m m' : Chars → Nat → Option Nat} {t t' : Chars}
    (hm : ∀ q, m t q = m' t' q) (hl : t.length = t'.length) :
    ∀ (fuel p : Nat), findIterAux m t p fuel = findIterAux m' t' p fuel := by
  intro fuel
  induction fuel with
  | zero => intro p; rfl
  | succ fuel ih =>
    intro p
    simp only [findIterAux]
    rw [hl, findFromAux_congr hm]
    cases findFromAux m' t' p (t'.length + 1 - p) with
    | none => rfl
    | some se =>
      obtain ⟨s, e⟩ := se
      dsimp only
      rw [ih]

theorem findIter_congr {m m' : Chars → Nat → Option Nat} {t t' : Chars}
    (hm : ∀ q, m t q = m' t' q) (hl : t.length = t'.length) :
    findIter m t = findIter m' t' := by
  unfold findIter
  rw [hl, findIterAux_congr hm hl]

/-! ### The pattern pass, rule by rule -/

theorem patternPass_fst (t : Chars) (toks : List Tok) :
    ∀ rs : List (String × (Chars → Nat → Option Nat)),
      (patternPass t toks rs).1 =
        (rs.map fun r => (matchPass t toks r.1 (findIter r.2 t)).1).flatten := by
  intro rs
  induction rs with
  | nil => rfl
  | cons r rest ih =>
    obtain ⟨lbl, m⟩ := r
    simp only [patternPass, List.map_cons, List.flatten_cons]
    rw [ih]

theorem matchPass_mem {t : Chars} {toks : List Tok} {lbl : String} :
    ∀ {l : List (Nat × Nat)} {sp : Span}, sp ∈ (matchPass t toks lbl l).1 →
      ∃ ab ∈ l, charSpan toks ab.1 ab.2 lbl = some sp := by
  intro l
  induction l with
  | nil => intro sp h; exact absurd h (by simp [matchPass])
  | cons ab rest ih =>
    intro sp h
    obtain ⟨a, b⟩ := ab
    simp only [matchPass] at h
    cases hcs : charSpan toks a b lbl with
    | none =>
      rw [hcs] at h
      obtain ⟨ab1, h1, h2⟩ := ih h
      exact ⟨ab1, List.mem_cons_of_mem _ h1, h2⟩
    | some sp1 =>
      rw [hcs] at h
      rcases List.mem_cons.mp h with rfl | h
      · exact ⟨(a, b), List.mem_cons_self _ _, hcs⟩
      · obtain ⟨ab1, h1, h2⟩ := ih h
        exact ⟨ab1, List.mem_cons_of_mem _ h1, h2⟩

/-- C8: for every rule, pattern matching scans the entire pristine original
text — the pattern pass is exactly the per-rule `findIter` scans of the
unmodified input `t` — case-insensitively (lowering the text changes no
rule's match list), collecting all non-overlapping matches under standard
leftmost-longest regex semantics: each rule's Python matcher equals the
canonical leftmost-longest matcher of its declarative pattern, the scan
emits the successive leftmost matches with no match at any skipped
position, and consecutive emitted matches never overlap.  Each kept match
yields one span labeled with that rule's label whose token-aligned
character offsets are the match's start and end in the original text. -/
theorem c8_pattern_semantics (t : Chars) (toks : List Tok) :
    (findIter cpfMatch t = findIter (canonMatcher cpfRE) t ∧
      findIter cnpjMatch t = findIter (canonMatcher cnpjRE) t ∧
      findIter telMatch t = findIter (canonMatcher telRE) t ∧
      findIter emailMatch t = findIter (canonMatcher emailRE) t) ∧
    (∀ r ∈ rules, findIter r.2 (t.map Char.toLower) = findIter r.2 t) ∧
    (∀ r ∈ rules, scanSpec r.2 t (findIter r.2 t) 0 ∧
      (findIter r.2 t).Pairwise (fun x y => x.2 ≤ y.1)) ∧
    ((patternPass t toks rules).1 =
      (rules.map fun r => (matchPass t toks r.1 (findIter r.2 t)).1).flatten) ∧
    (∀ r ∈ rules, ∀ sp ∈ (matchPass t toks r.1 (findIter r.2 t)).1,
      ∃ ab ∈ findIter r.2 t, charSpan toks ab.1 ab.2 r.1 = some sp ∧
        sp.label = r.1 ∧ startChar toks sp = ab.1 ∧ endChar toks sp = ab.2) := by
  refine ⟨⟨findIter_congr (fun q => cpf_eq_canon t q) rfl,
      findIter_congr (fun q => cnpj_eq_canon t q) rfl,
      findIter_congr (fun q => tel_eq_canon t q) rfl,
      findIter_congr (fun q => email_eq_canon t q) rfl⟩,
    ?_, ?_, patternPass_fst t toks rules, ?_⟩
  · intro r hr
    have hm : ∀ q, r.2 (t.map Char.toLower) q = r.2 t q := by
      simp only [rules, List.mem_cons, List.not_mem_nil, or_false] at hr
      rcases hr with rfl | rfl | rfl | rfl
      · exact fun q => cpfMatch_lower t q
      · exact fun q => cnpjMatch_lower t q
      · exact fun q => telMatch_lower t q
      · exact fun q => emailMatch_lower t q
    exact findIter_congr hm (by simp)
  · intro r hr
    exact ⟨findIter_scanSpec r.2 t, findIter_nonoverlap r.2 t⟩
  · intro r hr sp hsp
    obtain ⟨ab, hab, hcs⟩ := matchPass_mem hsp
    have hfacts := charSpan_some hcs
    exact ⟨ab, hab, hcs, hfacts.1, hfacts.2.1, hfacts.2.2.1⟩

end Anon
